import Mathlib

/-
Verification of the ONNX Runtime CPU `Cast` operator
(onnxruntime/core/providers/cpu/tensor/cast_op.cc).

The development shallowly embeds the operator:
* `ElementKind` models the closed enumeration of tensor element types that the
  kernel registers (the `ORT_SPECIFY_OP_KERNEL_ARG_SUPPORTED_TYPES` lists).
* The two-level runtime dispatch (`MLTypeCallDispatcherFromTypeList` over
  `EnabledSrcTypes`, then `SrcDispatcher` over `EnabledDstTypes` with the
  source type removed) is modelled by `srcDispatcher`.
* Scalar values are modelled value-level: machine integers as `Int` wrapped to
  the kind's width, `float`/`double` as exact rationals plus NaN/±Inf
  (`FP`), and the 16-bit reduced-precision floats as their bit patterns.
* The C++ standard-library routines the kernel calls (`std::ostringstream`
  insertion with `std::setprecision(8)`, `std::stod`, `std::stoll`,
  `std::stoull`) are modelled as executable Lean functions over these values.
-/

set_option autoImplicit false
set_option maxRecDepth 100000

namespace CastOp

/-- Element kinds supported by the CPU Cast kernel, exactly the types listed
in the `ORT_SPECIFY_OP_KERNEL_ARG_SUPPORTED_TYPES` declarations
(cast_op.cc lines 31-47): bool, float, double, the 8/16/32/64-bit unsigned and
signed integers, MLFloat16, BFloat16 and std::string. -/
inductive ElementKind where
  | bool
  | float
  | double
  | uint8
  | uint16
  | uint32
  | uint64
  | int8
  | int16
  | int32
  | int64
  | float16
  | bfloat16
  | string
  deriving DecidableEq, Fintype

open ElementKind

/-- The `EnabledSrcTypes` type list (cast_op.cc line 52): with no type-reduction
build flags, it is the full supported-type list for Input 0. -/
def enabledSrcTypes : List ElementKind :=
  [bool, float, double, uint8, uint16, uint32, uint64,
   int8, int16, int32, int64, float16, bfloat16, string]

/-- The `EnabledDstTypes` type list (cast_op.cc line 53): the full
supported-type list for Output 0. -/
def enabledDstTypes : List ElementKind :=
  [bool, float, double, uint8, uint16, uint32, uint64,
   int8, int16, int32, int64, float16, bfloat16, string]

/-- Errors surfaced by the kernel: the unsupported-type failure thrown by
`MLTypeCallDispatcher` when the runtime type is not in its type list, and the
exceptions thrown by the `std::sto*` parsing functions (`std::invalid_argument`
when no conversion can be performed, `std::out_of_range` when the parsed value
is outside the parser's result range). -/
inductive CastError where
  | unsupportedType
  | invalidArgument
  | outOfRange
  deriving DecidableEq

instance {ε α : Type} [DecidableEq ε] [DecidableEq α] : DecidableEq (Except ε α) := fun a b =>
  match a, b with
  | .ok x, .ok y =>
    if h : x = y then .isTrue (by rw [h]) else .isFalse (by simp [h])
  | .error x, .error y =>
    if h : x = y then .isTrue (by rw [h]) else .isFalse (by simp [h])
  | .ok _, .error _ => .isFalse (by simp)
  | .error _, .ok _ => .isFalse (by simp)

/-- Model of constructing `utils::MLTypeCallDispatcher` over a type list with a
runtime type id `t` and invoking it: the invocation runs the functor at type
`t` when `t` is in the list and otherwise fails with the unsupported-type
error. -/
def mlTypeDispatch (types : List ElementKind) (t : ElementKind) :
    Except CastError ElementKind :=
  if t ∈ types then .ok t else .error .unsupportedType

/-- The destination type list used by `SrcDispatcher<TSrc>` (cast_op.cc line
257): `EnabledDstTypes` with the source type removed by
`boost::mp11::mp_remove_if_q<_, mp_bind_front<std::is_same, TSrc>>`. -/
def dstTypesFor (src : ElementKind) : List ElementKind :=
  enabledDstTypes.filter (fun d => d ≠ src)

/-- Model of the two-level dispatch performed by `Cast::Compute` (line 280:
outer dispatch of the runtime source type over `EnabledSrcTypes`) and
`SrcDispatcher::operator()` (lines 255-260: inner dispatch of the `to` type
over `DstTypes`).  A successful dispatch invokes `Dispatcher<TSrc, TDst>`,
i.e. selects the `TensorCaster` instantiated at exactly the resolved pair;
the model returns that pair as the identity of the selected caster. -/
def srcDispatcher (src dst : ElementKind) :
    Except CastError (ElementKind × ElementKind) := do
  let s ← mlTypeDispatch enabledSrcTypes src
  let d ← mlTypeDispatch (dstTypesFor s) dst
  return (s, d)

/-- Value-level model of a C++ floating-point datum: NaN, the two infinities,
or a finite value, the finite value carried as an exact rational.  NaN
payloads and the sign of zero are collapsed (neither is observable through the
conversions modelled here). -/
inductive FP where
  | nan
  | inf
  | ninf
  | fin (q : ℚ)
  deriving DecidableEq

/-- A scalar tensor element: a bool, a (width-wrapped) machine integer, a
`float`/`double` value, an `MLFloat16` bit pattern, a `BFloat16` bit pattern,
or a `std::string`. -/
inductive Scalar where
  | b (v : Bool)
  | i (v : ℤ)
  | f (v : FP)
  | h (v : Fin 65536)
  | bf (v : Fin 65536)
  | s (v : String)
  deriving DecidableEq

/-- Fueled floor-logarithm helper for arguments at least 1: counts how often
`a` can be divided by `b` before dropping below `b`. -/
def floorLogUp (b : ℚ) : ℕ → ℚ → ℤ
  | 0, _ => 0
  | f + 1, a => if a < b then 0 else floorLogUp b f (a / b) + 1

/-- Fueled floor-logarithm helper for arguments below 1: counts how often `a`
must be multiplied by `b` to reach 1. -/
def floorLogDown (b : ℚ) : ℕ → ℚ → ℤ
  | 0, _ => 0
  | f + 1, a => if 1 ≤ a then 0 else floorLogDown b f (a * b) - 1

/-- Fuel that always suffices for the floor-logarithm helpers on input `a`. -/
def logFuel (a : ℚ) : ℕ := a.num.natAbs + a.den

/-- Floor of the base-`b` logarithm of a positive rational: the unique `e`
with `b ^ e ≤ a < b ^ (e + 1)` (for `2 ≤ b`, `0 < a`). -/
def floorLogQ (b a : ℚ) : ℤ :=
  if 1 ≤ a then floorLogUp b (logFuel a) a else floorLogDown b (logFuel a) a

/-- Round a rational to the nearest integer, ties to even — the IEEE-754
default rounding used by the hardware conversions and by `printf`-style
formatting of correctly-rounded decimal digits. -/
def roundHE (x : ℚ) : ℤ :=
  let n := ⌊x⌋
  if x - n < 1 / 2 then n
  else if 1 / 2 < x - n then n + 1
  else if 2 ∣ n then n else n + 1

/-- Round a rational value to a binary floating-point format with `mbits`
explicit mantissa bits, minimum normal exponent `emin` and maximum exponent
`emax`: round to nearest with ties to even, gradual underflow on the
subnormal grid, overflow to infinity.  This is the value-level behavior of
the IEEE-754 narrowing conversions performed by `static_cast<float>(double)`,
`static_cast<MLFloat16>(float)` and `static_cast<BFloat16>(float)`; it is
split into the helpers `fmtMax` (largest finite value of the format),
`fmtExp` and `gridRound` below, `roundToFormat` combining them. -/
def fmtMax (mbits : ℕ) (emax : ℤ) : ℚ :=
  ((2 : ℚ) ^ (mbits + 1) - 1) * (2 : ℚ) ^ (emax - mbits)

/-- Exponent at which the format's rounding grid is placed for a positive
magnitude `a`: the binary floor logarithm, clamped below at the minimum
normal exponent (the subnormal grid). -/
def fmtExp (emin : ℤ) (a : ℚ) : ℤ := max (floorLogQ 2 a) emin

/-- A positive magnitude rounded onto the format's grid (nearest, ties to
even). -/
def gridRound (mbits : ℕ) (emin : ℤ) (a : ℚ) : ℚ :=
  (roundHE (a / (2 : ℚ) ^ (fmtExp emin a - mbits)) : ℚ) *
    (2 : ℚ) ^ (fmtExp emin a - mbits)

def roundToFormat (mbits : ℕ) (emin emax : ℤ) (q : ℚ) : FP :=
  if q = 0 then .fin 0
  else if gridRound mbits emin |q| ≤ fmtMax mbits emax then
    .fin (if q < 0 then -gridRound mbits emin |q| else gridRound mbits emin |q|)
  else if q < 0 then .ninf else .inf

/-- IEEE binary32 rounding (`float`: 23 mantissa bits, exponents -126..127). -/
def roundFloatQ : ℚ → FP := roundToFormat 23 (-126) 127

/-- IEEE binary16 rounding (`MLFloat16`: 10 mantissa bits, exponents -14..15). -/
def roundHalfQ : ℚ → FP := roundToFormat 10 (-14) 15

/-- bfloat16 rounding (`BFloat16`: 7 mantissa bits, exponents -126..127). -/
def roundBF16Q : ℚ → FP := roundToFormat 7 (-126) 127

/-- `static_cast<float>` applied to a double value: rounds finite values to
binary32, passes NaN and the infinities through. -/
def roundFloatFP : FP → FP
  | .fin q => roundFloatQ q
  | v => v

/-- Binary16 rounding on a float datum (specials pass through). -/
def roundHalfFP : FP → FP
  | .fin q => roundHalfQ q
  | v => v

/-- bfloat16 rounding on a float datum (specials pass through). -/
def roundBF16FP : FP → FP
  | .fin q => roundBF16Q q
  | v => v

/-- Decode an `MLFloat16` bit pattern to its value: 1 sign bit, 5 exponent
bits (bias 15), 10 mantissa bits.  This is the conversion performed by
`static_cast<float>(MLFloat16)`, by Eigen's `half` to `float` cast, and by
the MLAS bulk conversion routine; it is exact (every binary16 value is a
binary32 value). -/
def halfToFloat (h : Fin 65536) : FP :=
  let s := h.val / 32768
  let e := h.val / 1024 % 32
  let m := h.val % 1024
  if e = 31 then
    if m = 0 then (if s = 1 then .ninf else .inf) else .nan
  else
    let mag : ℚ :=
      if e = 0 then (m : ℚ) * (2 : ℚ) ^ (-24 : ℤ)
      else ((1024 + m : ℕ) : ℚ) * (2 : ℚ) ^ ((e : ℤ) - 25)
    .fin (if s = 1 then -mag else mag)

/-- Decode a `BFloat16` bit pattern to its value: 1 sign bit, 8 exponent bits
(bias 127), 7 mantissa bits; exact as a binary32/double value. -/
def bfloatToFloat (h : Fin 65536) : FP :=
  let s := h.val / 32768
  let e := h.val / 128 % 256
  let m := h.val % 128
  if e = 255 then
    if m = 0 then (if s = 1 then .ninf else .inf) else .nan
  else
    let mag : ℚ :=
      if e = 0 then (m : ℚ) * (2 : ℚ) ^ (-133 : ℤ)
      else ((128 + m : ℕ) : ℚ) * (2 : ℚ) ^ ((e : ℤ) - 134)
    .fin (if s = 1 then -mag else mag)

/-- Encode a float value as an `MLFloat16` bit pattern
(`static_cast<MLFloat16>(float)`): round to binary16, then pack the bits
(quiet NaN pattern `0x7E00`). -/
def encodeHalf (v : FP) : Fin 65536 :=
  let bits : ℕ :=
    match roundHalfFP v with
    | .nan => 0x7E00
    | .inf => 0x7C00
    | .ninf => 0xFC00
    | .fin q =>
      if q = 0 then 0
      else
        let a := |q|
        let e := max (floorLogQ 2 a) (-14)
        let m := (a / (2 : ℚ) ^ (e - 10)).num.toNat
        let field : ℕ := if m < 1024 then 0 else (e + 15).toNat
        let mant : ℕ := if m < 1024 then m else m - 1024
        (if q < 0 then 32768 else 0) + field * 1024 + mant
  ⟨bits % 65536, Nat.mod_lt _ (by decide)⟩

/-- Encode a float value as a `BFloat16` bit pattern
(`static_cast<BFloat16>(float)`): round to bfloat16, then pack the bits
(quiet NaN pattern `0x7FC0`). -/
def encodeBFloat (v : FP) : Fin 65536 :=
  let bits : ℕ :=
    match roundBF16FP v with
    | .nan => 0x7FC0
    | .inf => 0x7F80
    | .ninf => 0xFF80
    | .fin q =>
      if q = 0 then 0
      else
        let a := |q|
        let e := max (floorLogQ 2 a) (-126)
        let m := (a / (2 : ℚ) ^ (e - 7)).num.toNat
        let field : ℕ := if m < 128 then 0 else (e + 127).toNat
        let mant : ℕ := if m < 128 then m else m - 128
        (if q < 0 then 32768 else 0) + field * 128 + mant
  ⟨bits % 65536, Nat.mod_lt _ (by decide)⟩

/-- Truncation of a rational toward zero, the C++ float-to-integer
conversion. -/
def ratTrunc (q : ℚ) : ℤ := Int.tdiv q.num q.den

/-- Truncation of a float value toward zero; converting NaN or an infinity to
an integer type is undefined behavior in C++, the model fixes the result 0
for those inputs (the choice is irrelevant to every theorem below: both
conversion paths of the kernel apply this same conversion). -/
def fpTrunc : FP → ℤ
  | .fin q => ratTrunc q
  | _ => 0

/-- Reduce an integer to a `w`-bit machine integer (two's complement when
`signed`), the value-level behavior of `gsl::narrow_cast` /
`static_cast` to a narrower integer type. -/
def wrapInt (w : ℕ) (signed : Bool) (v : ℤ) : ℤ :=
  let m := v % (2 ^ w : ℤ)
  if signed = true ∧ (2 : ℤ) ^ (w - 1) ≤ m then m - 2 ^ w else m

/-- Width and signedness of the integer element kinds. -/
def intWidth : ElementKind → Option (ℕ × Bool)
  | .uint8 => some (8, false)
  | .uint16 => some (16, false)
  | .uint32 => some (32, false)
  | .uint64 => some (64, false)
  | .int8 => some (8, true)
  | .int16 => some (16, true)
  | .int32 => some (32, true)
  | .int64 => some (64, true)
  | _ => none

/-- The numeric value of a non-string scalar, as a float datum (bools read as
0/1, machine integers exactly, reduced-precision floats through their exact
decoding; a string scalar has no numeric value, the model returns 0). -/
def numValue : Scalar → FP
  | .b true => .fin 1
  | .b false => .fin 0
  | .i n => .fin n
  | .f v => v
  | .h bits => halfToFloat bits
  | .bf bits => bfloatToFloat bits
  | .s _ => .fin 0

/-- ASCII digit character for a digit value below 10. -/
def digitChar (d : ℕ) : Char := Char.ofNat (48 + d)

/-- Fueled little-endian decimal digits of a natural number (empty for 0);
any fuel of at least `n` suffices. -/
def natDecRev : ℕ → ℕ → List ℕ
  | 0, _ => []
  | f + 1, n => if n = 0 then [] else n % 10 :: natDecRev f (n / 10)

/-- Big-endian decimal digit values of `n` (empty for 0). -/
def natDigits (n : ℕ) : List ℕ := (natDecRev n n).reverse

/-- Decimal rendering of a natural number (0 renders as "0"). -/
def natDecChars (n : ℕ) : List Char :=
  if n = 0 then ['0'] else (natDigits n).map digitChar

/-- Decimal rendering of an integer — the behavior of `operator<<` on the
integral types of width at least 16. -/
def intToDecString (v : ℤ) : String :=
  String.mk (if v < 0 then '-' :: natDecChars v.natAbs else natDecChars v.natAbs)

/-- Remove trailing zero digits (the default float notation suppresses
them). -/
def stripTrailZeros (ds : List ℕ) : List ℕ :=
  (ds.reverse.dropWhile (fun d => d == 0)).reverse

/-- Significand/exponent decomposition of a positive rational rounded to 8
significant decimal digits: returns `(m, e)` with rounded value
`m * 10 ^ (e - 7)`; for `0 < a`, `10 ^ 7 ≤ m < 10 ^ 8`. -/
def sig8 (a : ℚ) : ℕ × ℤ :=
  if roundHE (a / (10 : ℚ) ^ (floorLogQ 10 a - 7)) = 10 ^ 8 then
    (10 ^ 7, floorLogQ 10 a + 1)
  else ((roundHE (a / (10 : ℚ) ^ (floorLogQ 10 a - 7))).toNat, floorLogQ 10 a)

/-- A rational rounded to 8 significant decimal digits — the value denoted by
the `setprecision(8)` rendering. -/
def round8 (q : ℚ) : ℚ :=
  if q = 0 then 0
  else (if q < 0 then -1 else 1) * ((sig8 |q|).1 : ℚ) * (10 : ℚ) ^ ((sig8 |q|).2 - 7)

/-- Render stripped significant digits `ds` (decimal point after the first
digit, scaled by `10 ^ e`) in fixed notation, as the default float notation
does for exponents in [-4, precision). -/
def formatFixed (ds : List ℕ) (e : ℤ) : List Char :=
  if 0 ≤ e then
    let k := e.toNat + 1
    if ds.length ≤ k then ds.map digitChar ++ List.replicate (k - ds.length) '0'
    else (ds.take k).map digitChar ++ '.' :: (ds.drop k).map digitChar
  else '0' :: '.' :: (List.replicate (e.natAbs - 1) '0' ++ ds.map digitChar)

/-- Render in scientific notation (`d[.ddd]e±XX`, exponent sign always
printed, at least two exponent digits). -/
def formatSci (ds : List ℕ) (e : ℤ) : List Char :=
  let mant :=
    match ds with
    | [] => ['0']
    | [d] => [digitChar d]
    | d :: rest => digitChar d :: '.' :: rest.map digitChar
  let ex := natDecChars e.natAbs
  let ex2 := if ex.length < 2 then '0' :: ex else ex
  mant ++ 'e' :: (if e < 0 then '-' else '+') :: ex2

/-- Default-notation rendering of a finite floating value at precision 8: the
behavior of `std::ostringstream` insertion after `std::setprecision(8)`
(like `printf %g`): round to 8 significant decimal digits, strip trailing
zeros, fixed notation when the decimal exponent is in [-4, 8), scientific
notation otherwise.  The model renders the exact 8-digit rounding of the
mathematical value (ties to even). -/
def defaultFormat8 (q : ℚ) : String :=
  if q = 0 then "0"
  else
    String.mk
      (if q < 0 then
        '-' :: (if -4 ≤ (sig8 |q|).2 ∧ (sig8 |q|).2 < 8
          then formatFixed (stripTrailZeros (natDigits (sig8 |q|).1)) (sig8 |q|).2
          else formatSci (stripTrailZeros (natDigits (sig8 |q|).1)) (sig8 |q|).2)
      else
        (if -4 ≤ (sig8 |q|).2 ∧ (sig8 |q|).2 < 8
          then formatFixed (stripTrailZeros (natDigits (sig8 |q|).1)) (sig8 |q|).2
          else formatSci (stripTrailZeros (natDigits (sig8 |q|).1)) (sig8 |q|).2))

/-- `CastToString` for floating sources (cast_op.cc lines 58-75): "NaN" when
`std::isnan`; for an infinite input, "-INF" when it is below
`numeric_limits::lowest()` (that is, for negative infinity) and "INF"
otherwise; finite values stream at precision 8. -/
def castToStringFloating : FP → String
  | .nan => "NaN"
  | .inf => "INF"
  | .ninf => "-INF"
  | .fin q => defaultFormat8 q

/-- `CastToString` at each source kind (cast_op.cc lines 58-92): floating
sources (the reduced-precision kinds promote to float first, lines 86-92)
use the floating rule; a `bool` streams as `1`/`0`; the 8-bit integral kinds
are character types, which `operator<<` inserts as one raw character, not as
a number; the wider integral kinds stream in decimal.  A scalar whose
constructor does not match the kind renders as "" (unreachable from the
operator). -/
def castToString : ElementKind → Scalar → String
  | .bool, .b v => if v then "1" else "0"
  | .float, .f v => castToStringFloating v
  | .double, .f v => castToStringFloating v
  | .float16, .h bits => castToStringFloating (halfToFloat bits)
  | .bfloat16, .bf bits => castToStringFloating (bfloatToFloat bits)
  | .uint8, .i v => String.mk [Char.ofNat (wrapInt 8 false v).toNat]
  | .int8, .i v => String.mk [Char.ofNat (wrapInt 8 false v).toNat]
  | .uint16, .i v => intToDecString v
  | .uint32, .i v => intToDecString v
  | .uint64, .i v => intToDecString v
  | .int16, .i v => intToDecString v
  | .int32, .i v => intToDecString v
  | .int64, .i v => intToDecString v
  | .string, .s t => t
  | _, _ => ""

/-- Characters the C locale treats as whitespace, skipped by the `strto*`
parsers before the number. -/
def isSpaceChar (c : Char) : Bool :=
  c == ' ' || c == '\t' || c == '\n' || c == '\x0b' || c == '\x0c' || c == '\r'

/-- Decimal digit test. -/
def isDigitChar (c : Char) : Bool := '0' ≤ c && c ≤ '9'

/-- Digit value of a digit character. -/
def digitVal (c : Char) : ℕ := c.toNat - 48

/-- Split off the maximal leading run of decimal digits. -/
def spanDigits (cs : List Char) : List Char × List Char :=
  (cs.takeWhile isDigitChar, cs.dropWhile isDigitChar)

/-- Value of a big-endian digit-character run. -/
def natOfDigits (ds : List Char) : ℕ := ds.foldl (fun a c => a * 10 + digitVal c) 0

/-- Lex an optional sign; returns whether the value is negated, and the
rest. -/
def lexSign : List Char → Bool × List Char
  | '-' :: rest => (true, rest)
  | '+' :: rest => (false, rest)
  | cs => (false, cs)

/-- Lex a base-10 integer the way `strtoll`/`strtoull` do: skip whitespace,
an optional sign, then a nonempty digit run (longest valid prefix; trailing
characters are ignored).  `none` when no conversion can be performed. -/
def lexInteger (cs : List Char) : Option (Bool × List Char) :=
  let cs1 := cs.dropWhile isSpaceChar
  let sp := lexSign cs1
  let ds := (spanDigits sp.2).1
  if ds.isEmpty then none else some (sp.1, ds)

/-- Model of `std::stoll` (base 10): `std::invalid_argument` when no
conversion can be performed, `std::out_of_range` when the value does not fit
in `long long`. -/
def stollModel (s : String) : Except CastError ℤ :=
  match lexInteger s.data with
  | none => .error .invalidArgument
  | some (neg, ds) =>
    let v : ℤ := (if neg then -1 else 1) * (natOfDigits ds : ℤ)
    if v < -(2 ^ 63) ∨ 2 ^ 63 - 1 < v then .error .outOfRange else .ok v

/-- Model of `std::stoull` (base 10): the digit value must not exceed
`ULLONG_MAX` (`std::out_of_range`); a minus sign is accepted and negates the
value modulo 2^64, as `strtoull` specifies. -/
def stoullModel (s : String) : Except CastError ℤ :=
  match lexInteger s.data with
  | none => .error .invalidArgument
  | some (neg, ds) =>
    let n : ℕ := natOfDigits ds
    if 2 ^ 64 - 1 < n then .error .outOfRange
    else .ok (if neg then ((2 : ℤ) ^ 64 - (n : ℤ)) % 2 ^ 64 else (n : ℤ))

/-- Case-insensitive keyword match at the head of the input (keyword given in
lowercase). -/
def matchesKw : List Char → List Char → Bool
  | [], _ => true
  | _ :: _, [] => false
  | k :: ks, c :: cs => k == c.toLower && matchesKw ks cs

/-- Lex the exponent part after the `e`: optional sign and digits; when the
digit run is empty `strtod` does not consume the exponent, leaving the value
unscaled (exponent 0). -/
def lexExp (cs : List Char) : ℤ :=
  let sp := lexSign cs
  let ds := (spanDigits sp.2).1
  if ds.isEmpty then 0
  else (if sp.1 then -1 else 1) * (natOfDigits ds : ℤ)

/-- Hexadecimal digit test (both cases), for `strtod`'s hexadecimal
production. -/
def isHexDigit (c : Char) : Bool :=
  ('0' ≤ c && c ≤ '9') || ('a' ≤ c && c ≤ 'f') || ('A' ≤ c && c ≤ 'F')

/-- Value of a hexadecimal digit character. -/
def hexVal (c : Char) : ℕ :=
  if '0' ≤ c && c ≤ '9' then c.toNat - 48
  else if 'a' ≤ c && c ≤ 'f' then c.toNat - 87
  else c.toNat - 55

/-- Value of a big-endian hexadecimal digit-character run. -/
def natOfHexDigits (ds : List Char) : ℕ :=
  ds.foldl (fun a c => a * 16 + hexVal c) 0

/-- The hexadecimal-significand part of `strtod`'s grammar, after the `0x` /
`0X` prefix has been consumed: hex digits with an optional period
(`hexdigits[.hexdigits]`, at least one digit on one side), then an optional
binary exponent `p`/`P` with sign and decimal digits (an empty exponent
digit run leaves the exponent unconsumed, scale 1).  `none` when no hex
digit follows the prefix, in which case `strtod` instead consumes the
decimal prefix `0`. -/
def lexHexBody (neg : Bool) (cs : List Char) : Option FP :=
  let d1 := cs.takeWhile isHexDigit
  let r1 := cs.dropWhile isHexDigit
  let d2 :=
    match r1 with
    | '.' :: rest => rest.takeWhile isHexDigit
    | _ => []
  let r2 :=
    match r1 with
    | '.' :: rest => rest.dropWhile isHexDigit
    | _ => r1
  if d1.isEmpty && d2.isEmpty then none
  else
    let mant : ℚ := (natOfHexDigits d1 : ℚ) + (natOfHexDigits d2 : ℚ) / (16 : ℚ) ^ d2.length
    let ex : ℤ :=
      match r2 with
      | 'p' :: rest => lexExp rest
      | 'P' :: rest => lexExp rest
      | _ => 0
    some (.fin ((if neg then -1 else 1) * (mant * (2 : ℚ) ^ ex)))

/-- `strtod`'s hexadecimal-float production: a `0x`/`0X` prefix followed by a
hexadecimal significand.  `none` when the input does not start with the
prefix or no hex digit follows it. -/
def lexHex (neg : Bool) : List Char → Option FP
  | c1 :: c2 :: rest =>
    if c1 = '0' ∧ (c2 = 'x' ∨ c2 = 'X') then lexHexBody neg rest else none
  | _ => none

/-- Lex a floating literal the way `strtod` does: skip whitespace, optional
sign, then case-insensitive `inf`/`infinity`, case-insensitive `nan`, the
hexadecimal form `0x hexdigits[.hexdigits][p[sign]digits]`, or a decimal
form `digits[.digits][e[sign]digits]` with at least one mantissa digit
(longest valid prefix; trailing characters ignored).  Returns the exact
denoted value.  `lexDecimal` is the decimal-form part, after whitespace and
sign have been consumed. -/
def lexDecimal (neg : Bool) (cs : List Char) : Option FP :=
  let d1 := (spanDigits cs).1
  let r1 := (spanDigits cs).2
  let d2 :=
    match r1 with
    | '.' :: rest => (spanDigits rest).1
    | _ => []
  let r2 :=
    match r1 with
    | '.' :: rest => (spanDigits rest).2
    | _ => r1
  if d1.isEmpty && d2.isEmpty then none
  else
    let mant : ℚ := (natOfDigits d1 : ℚ) + (natOfDigits d2 : ℚ) / (10 : ℚ) ^ d2.length
    let ex : ℤ :=
      match r2 with
      | 'e' :: rest => lexExp rest
      | 'E' :: rest => lexExp rest
      | _ => 0
    some (.fin ((if neg then -1 else 1) * (mant * (10 : ℚ) ^ ex)))

def lexFloat (cs : List Char) : Option FP :=
  let cs1 := cs.dropWhile isSpaceChar
  let sp := lexSign cs1
  if matchesKw ['i', 'n', 'f'] sp.2 then some (if sp.1 then .ninf else .inf)
  else if matchesKw ['n', 'a', 'n'] sp.2 then some .nan
  else
    match lexHex sp.1 sp.2 with
    | some v => some v
    | none => lexDecimal sp.1 sp.2

/-- The smallest positive normal double, `2 ^ (-1022)`. -/
def minNormalDouble : ℚ := (2 : ℚ) ^ (-(1022 : ℤ))

/-- The rounding boundary above the largest finite double: decimal values at
least `2 ^ 1024 - 2 ^ 970` round to infinity. -/
def doubleOverflowBound : ℚ := (2 : ℚ) ^ (1024 : ℤ) - (2 : ℚ) ^ (970 : ℤ)

/-- Model of `std::stod`: lex a floating literal; `std::invalid_argument`
when no conversion can be performed; `std::out_of_range` when `strtod` sets
`ERANGE`, i.e. when a finite value reaches the double overflow boundary and —
as the mainstream C libraries behave — when a nonzero text underflows: its
correctly rounded binary64 result (`gridRound 52 (-1022)` of the magnitude)
falls below the smallest normal double.  In-range values are returned
exactly (the model does not round the returned value to binary64). -/
def stodModel (s : String) : Except CastError FP :=
  match lexFloat s.data with
  | none => .error .invalidArgument
  | some (.fin q) =>
    if doubleOverflowBound ≤ |q| then .error .outOfRange
    else if q ≠ 0 ∧ gridRound 52 (-1022) |q| < minNormalDouble then .error .outOfRange
    else .ok (.fin q)
  | some v => .ok v

/-- `CastFromString` at each destination kind (cast_op.cc lines 94-129):
floating destinations parse with `std::stod` and narrow with
`gsl::narrow_cast`; unsigned integral destinations (including `bool`) parse
with `std::stoull` and narrow; signed integral destinations parse with
`std::stoll` and narrow; the reduced-precision kinds parse a float
intermediate first (lines 119-129) and convert down.  A string destination is
never dispatched together with a string source; the model passes the text
through. -/
def castFromString : ElementKind → String → Except CastError Scalar
  | .double, s => (stodModel s).map .f
  | .float, s => (stodModel s).map (fun v => .f (roundFloatFP v))
  | .bool, s => (stoullModel s).map (fun v => .b (decide (v ≠ 0)))
  | .uint8, s => (stoullModel s).map (fun v => .i (wrapInt 8 false v))
  | .uint16, s => (stoullModel s).map (fun v => .i (wrapInt 16 false v))
  | .uint32, s => (stoullModel s).map (fun v => .i (wrapInt 32 false v))
  | .uint64, s => (stoullModel s).map (fun v => .i (wrapInt 64 false v))
  | .int8, s => (stollModel s).map (fun v => .i (wrapInt 8 true v))
  | .int16, s => (stollModel s).map (fun v => .i (wrapInt 16 true v))
  | .int32, s => (stollModel s).map (fun v => .i (wrapInt 32 true v))
  | .int64, s => (stollModel s).map (fun v => .i (wrapInt 64 true v))
  | .float16, s => (stodModel s).map (fun v => .h (encodeHalf (roundFloatFP v)))
  | .bfloat16, s => (stodModel s).map (fun v => .bf (encodeBFloat (roundFloatFP v)))
  | .string, s => .ok (.s s)

/-- Conversion of a float datum to a destination kind, the value-level
behavior of the C++ conversions the casters perform on each element:
float-to-bool is a zero test (NaN and the infinities convert to true);
float-to-integer truncates toward zero and the model wraps out-of-range and
non-finite results (undefined behavior in C++; both conversion paths of the
kernel apply this same function, so the choice does not affect any theorem);
float-to-float32 rounds to binary32; float-to-double is exact; the
reduced-precision kinds round and encode; a string destination formats with
the floating `CastToString` rule (the only float-to-string conversion the
kernel performs). -/
def convertFP (d : ElementKind) (v : FP) : Scalar :=
  match d with
  | .bool => .b (match v with | .fin q => decide (q ≠ 0) | _ => true)
  | .float => .f (roundFloatFP v)
  | .double => .f v
  | .uint8 => .i (wrapInt 8 false (fpTrunc v))
  | .uint16 => .i (wrapInt 16 false (fpTrunc v))
  | .uint32 => .i (wrapInt 32 false (fpTrunc v))
  | .uint64 => .i (wrapInt 64 false (fpTrunc v))
  | .int8 => .i (wrapInt 8 true (fpTrunc v))
  | .int16 => .i (wrapInt 16 true (fpTrunc v))
  | .int32 => .i (wrapInt 32 true (fpTrunc v))
  | .int64 => .i (wrapInt 64 true (fpTrunc v))
  | .float16 => .h (encodeHalf v)
  | .bfloat16 => .bf (encodeBFloat v)
  | .string => .s (castToStringFloating v)

/-- The scalar conversion applied to each element by the generic
`TensorCaster<SrcType, DstType>` (cast_op.cc lines 147-160): the Eigen
elementwise cast, which converts the source element's numeric value to the
destination kind (Eigen's `half` and `bfloat16` casts convert through
`float`, exactly). -/
def numericScalarCast (d : ElementKind) (v : Scalar) : Scalar :=
  convertFP d (numValue v)

/-- `TensorCaster<SrcType, std::string>` (lines 163-173): elementwise
`CastToString` into the output buffer. -/
def castTensorToString (src : ElementKind) (xs : List Scalar) : List Scalar :=
  xs.map (fun v => .s (castToString src v))

/-- The `std::string` payload of a string scalar. -/
def strVal : Scalar → String
  | .s t => t
  | _ => ""

/-- `TensorCaster<std::string, DstType>` (lines 176-186): elementwise
`CastFromString`; a parse failure propagates out of the loop (the C++
exception aborts the invocation). -/
def castTensorFromString (d : ElementKind) (xs : List Scalar) :
    Except CastError (List Scalar) :=
  xs.mapM (fun v => castFromString d (strVal v))

/-- Modelled from the spec: `MlasConvertHalfToFloatBuffer` (declared in
core/mlas/inc/mlas.h; its implementation is outside the analyzed source) is
the hardware-accelerated bulk conversion of an `MLFloat16` buffer to a
`float` buffer — elementwise exact binary16-to-binary32 conversion. -/
def mlasConvertHalfToFloatBuffer (xs : List (Fin 65536)) : List FP :=
  xs.map halfToFloat

/-- `CastMLFloat16ThroughFloat<DstType>` (lines 191-201): run the MLAS bulk
routine into a transient float tensor, then run `TensorCaster<float,
DstType>` from the intermediate tensor to the output. -/
def castMLFloat16ThroughFloat (d : ElementKind) (xs : List (Fin 65536)) :
    List Scalar :=
  let intermediate : List Scalar := (mlasConvertHalfToFloatBuffer xs).map .f
  if d = .string then castTensorToString .float intermediate
  else intermediate.map (numericScalarCast d)

/-- The fast-path `TensorCaster<MLFloat16, DstType>` family compiled when
`_M_AMD64` is defined (lines 188-229): the direct MLAS bulk conversion for
`DstType = float` (lines 212-220), `CastMLFloat16ThroughFloat` for every
other destination (lines 204-209 and 223-228). -/
def fastHalfCaster (d : ElementKind) (xs : List (Fin 65536)) : List Scalar :=
  if d = .float then (mlasConvertHalfToFloatBuffer xs).map .f
  else castMLFloat16ThroughFloat d xs

/-- The generic `TensorCaster<MLFloat16, DstType>` instantiated directly (the
build without `_M_AMD64`): for a string destination the
`TensorCaster<SrcType, std::string>` specialization with the
`CastToString(MLFloat16)` overload (promote to float, then the floating
rule); for every other destination the generic Eigen elementwise cast. -/
def genericHalfCaster (d : ElementKind) (xs : List (Fin 65536)) : List Scalar :=
  if d = .string then castTensorToString .float16 (xs.map .h)
  else xs.map (fun bits => numericScalarCast d (.h bits))

/-- Execute the caster dispatched for an (src, dst) pair over a buffer: the
string-source and string-destination specializations where they apply, else
the generic numeric elementwise cast.  (For MLFloat16 sources the AMD64 build
substitutes the fast path; `fastpath_matches_generic` proves its output equal
to the generic form used here.) -/
def castBuffer (s d : ElementKind) (xs : List Scalar) :
    Except CastError (List Scalar) :=
  if s = .string then castTensorFromString d xs
  else if d = .string then .ok (castTensorToString s xs)
  else .ok (xs.map (numericScalarCast d))

/-- A tensor: an element kind, a shape, and the flat buffer contents. -/
structure TensorModel where
  kind : ElementKind
  shape : List ℕ
  data : List Scalar
  deriving DecidableEq

/-- `TensorShape::Size()`: the element count, the product of the dims. -/
def TensorModel.size (t : TensorModel) : ℕ := t.shape.prod

/-- Which branch one invocation of `Cast::Compute` took. -/
inductive ComputePath where
  | emptyInput
  | sameTypeCopy
  | dispatched (s d : ElementKind)
  deriving DecidableEq

/-- `Cast::Compute` (cast_op.cc lines 263-284): obtain the output tensor with
the input's shape; if the element count is 0, return success immediately; if
the input's element type equals the configured destination type, copy the
buffer (`CopyCpuTensor`, a no-op when the buffers alias); otherwise run the
two-level dispatch and the selected caster.  The second component records
which branch ran. -/
def computeCast (toKind : ElementKind) (X : TensorModel) :
    Except CastError (TensorModel × ComputePath) :=
  if X.size = 0 then .ok (⟨toKind, X.shape, []⟩, .emptyInput)
  else if X.kind = toKind then .ok (⟨toKind, X.shape, X.data⟩, .sameTypeCopy)
  else do
    let p ← srcDispatcher X.kind toKind
    let ys ← castBuffer p.1 p.2 X.data
    return (⟨toKind, X.shape, ys⟩, .dispatched p.1 p.2)

/-- The buffers a single invocation can touch: the source tensor's buffer,
the destination tensor's buffer, and the call-scoped intermediate buffer of
the fast path. -/
structure BufferState where
  src : List Scalar
  dst : List Scalar
  scratch : List Scalar
  deriving DecidableEq

/-- The generic numeric `TensorCaster` as a state transformer over the
buffers: reads `src`, writes `dst`. -/
def runGenericCaster (d : ElementKind) (st : BufferState) : BufferState :=
  { st with dst := st.src.map (numericScalarCast d) }

/-- The `TensorCaster<SrcType, std::string>` specialization as a state
transformer. -/
def runToStringCaster (s : ElementKind) (st : BufferState) : BufferState :=
  { st with dst := castTensorToString s st.src }

/-- The `TensorCaster<std::string, DstType>` specialization as a state
transformer (fallible: parsing may throw). -/
def runFromStringCaster (d : ElementKind) (st : BufferState) :
    Except CastError BufferState :=
  (castTensorFromString d st.src).map (fun ys => { st with dst := ys })

/-- The `MLFloat16` bit pattern of a scalar. -/
def halfBits : Scalar → Fin 65536
  | .h v => v
  | _ => 0

/-- The AMD64 fast-path caster as a state transformer: fills the call-scoped
intermediate buffer with the MLAS bulk conversion, then writes `dst` from the
intermediate buffer. -/
def runFastPathCaster (d : ElementKind) (st : BufferState) : BufferState :=
  let inter : List Scalar := (mlasConvertHalfToFloatBuffer (st.src.map halfBits)).map .f
  { src := st.src
    dst := if d = .string then castTensorToString .float inter
           else inter.map (numericScalarCast d)
    scratch := inter }

/-- Value of a big-endian digit-value run. -/
def natOfDigitVals (ds : List ℕ) : ℕ := ds.foldl (fun a d => a * 10 + d) 0

/-- Value of a little-endian digit-value run. -/
def valRev : List ℕ → ℕ
  | [] => 0
  | d :: ds => d + 10 * valRev ds

/-- The parser categories of §4.1 of the specification: every numeric
destination uses the widest primitive parser of its category. -/
inductive ParseCategory where
  | floating
  | unsignedInt
  | signedInt
  deriving DecidableEq

/-- The parser category of each numeric destination kind (`bool` is an
unsigned integral type in C++ and takes the unsigned parser); the string
kind has none. -/
def parseCategoryOf : ElementKind → Option ParseCategory
  | .float => some .floating
  | .double => some .floating
  | .float16 => some .floating
  | .bfloat16 => some .floating
  | .bool => some .unsignedInt
  | .uint8 => some .unsignedInt
  | .uint16 => some .unsignedInt
  | .uint32 => some .unsignedInt
  | .uint64 => some .unsignedInt
  | .int8 => some .signedInt
  | .int16 => some .signedInt
  | .int32 => some .signedInt
  | .int64 => some .signedInt
  | .string => none

/-- The result of a widest-primitive parser: a double value or a 64-bit
integer value. -/
inductive WideValue where
  | fp (v : FP)
  | int (v : ℤ)
  deriving DecidableEq

/-- Described from the spec (§4.1 Text→numeric): run the widest primitive
parser of a category — the double parser for floating destinations, the
widest unsigned parser for unsigned destinations, the widest signed parser
for signed destinations. -/
def wideParse : ParseCategory → String → Except CastError WideValue
  | .floating, s => (stodModel s).map .fp
  | .unsignedInt, s => (stoullModel s).map .int
  | .signedInt, s => (stollModel s).map .int

/-- Described from the spec (§4.1): narrow a widest-parser result to the
destination kind; reduced-precision float destinations convert into a 32-bit
float first and then down.  Category-mismatched combinations are unreachable
and map to a dummy scalar. -/
def narrowWide : ElementKind → WideValue → Scalar
  | .double, .fp v => .f v
  | .float, .fp v => .f (roundFloatFP v)
  | .float16, .fp v => .h (encodeHalf (roundFloatFP v))
  | .bfloat16, .fp v => .bf (encodeBFloat (roundFloatFP v))
  | .bool, .int v => .b (decide (v ≠ 0))
  | .uint8, .int v => .i (wrapInt 8 false v)
  | .uint16, .int v => .i (wrapInt 16 false v)
  | .uint32, .int v => .i (wrapInt 32 false v)
  | .uint64, .int v => .i (wrapInt 64 false v)
  | .int8, .int v => .i (wrapInt 8 true v)
  | .int16, .int v => .i (wrapInt 16 true v)
  | .int32, .int v => .i (wrapInt 32 true v)
  | .int64, .int v => .i (wrapInt 64 true v)
  | _, _ => .s ""

/-- Well-formedness of a text for a numeric destination kind: the text lexes
to a number under the relevant widest parser's grammar, and the denoted value
lies in that parser's result range (for the floating category: finite values
must stay below the double overflow boundary and, when nonzero, their
correctly rounded binary64 result must not underflow below the smallest
normal double).  For the string kind every text is well-formed. -/
def WellFormedNumericText (d : ElementKind) (s : String) : Prop :=
  match parseCategoryOf d with
  | none => True
  | some .floating =>
    ∃ v, lexFloat s.data = some v ∧
      ∀ q, v = .fin q → |q| < doubleOverflowBound ∧
        (q ≠ 0 → minNormalDouble ≤ gridRound 52 (-1022) |q|)
  | some .unsignedInt =>
    ∃ p, lexInteger s.data = some p ∧ natOfDigits p.2 ≤ 2 ^ 64 - 1
  | some .signedInt =>
    ∃ p, lexInteger s.data = some p ∧
      -(2 ^ 63) ≤ (if p.1 then -1 else 1) * (natOfDigits p.2 : ℤ) ∧
      (if p.1 then -1 else 1) * (natOfDigits p.2 : ℤ) ≤ 2 ^ 63 - 1

/-- C2: for the type pairs that reach the dispatcher (`Cast::Compute` only
dispatches when the source kind differs from the configured destination kind,
line 274), dispatch fails with the unsupported-type error exactly when the
source kind is outside `EnabledSrcTypes` or the destination kind is outside
`EnabledDstTypes`; and every successful dispatch selects the caster for
exactly the requested (source, destination) pair. -/
theorem dispatch_fails_iff_disabled (s d : ElementKind) (hne : s ≠ d) :
    ((srcDispatcher s d).isOk = false ↔
      (s ∉ enabledSrcTypes ∨ d ∉ enabledDstTypes)) ∧
    (∀ p, srcDispatcher s d = .ok p → p = (s, d)) := by
  revert hne
  revert s d
  decide

/-- Witness: the (float, int32) pair is dispatched to the (float, int32)
caster, and its dispatch does not fail. -/
theorem dispatch_fails_iff_disabled_witness :
    ((srcDispatcher .float .int32).isOk = false ↔
      (ElementKind.float ∉ enabledSrcTypes ∨ ElementKind.int32 ∉ enabledDstTypes)) ∧
    (∀ p, srcDispatcher .float .int32 = .ok p → p = (.float, .int32)) :=
  dispatch_fails_iff_disabled .float .int32 (by decide)


/-- The wrapped value is congruent to the original modulo `2 ^ w`. -/
theorem wrapInt_emod (w : ℕ) (sg : Bool) (v : ℤ) :
    wrapInt w sg v % 2 ^ w = v % 2 ^ w := by
  unfold wrapInt
  by_cases h : sg = true ∧ (2 : ℤ) ^ (w - 1) ≤ v % 2 ^ w
  · rw [if_pos h, Int.emod_sub_cancel, Int.emod_emod_of_dvd _ dvd_rfl]
  · rw [if_neg h, Int.emod_emod_of_dvd _ dvd_rfl]

/-- The wrapped value lies in the destination kind's range. -/
theorem wrapInt_bounds (w : ℕ) (sg : Bool) (v : ℤ) (hw : 1 ≤ w) :
    (sg = true → -(2 ^ (w - 1)) ≤ wrapInt w sg v ∧ wrapInt w sg v < 2 ^ (w - 1)) ∧
    (sg = false → 0 ≤ wrapInt w sg v ∧ wrapInt w sg v < 2 ^ w) := by
  have hpos : (0 : ℤ) < 2 ^ w := by positivity
  have hpos2 : (0 : ℤ) ≤ 2 ^ (w - 1) := by positivity
  have hm0 : 0 ≤ v % 2 ^ w := Int.emod_nonneg v (by positivity)
  have hm1 : v % 2 ^ w < 2 ^ w := Int.emod_lt_of_pos v hpos
  have hsplit : (2 : ℤ) ^ w = 2 ^ (w - 1) * 2 := by
    rw [← pow_succ]
    congr 1
    omega
  simp only [wrapInt]
  constructor
  · rintro rfl
    by_cases h : (2 : ℤ) ^ (w - 1) ≤ v % 2 ^ w
    · rw [if_pos ⟨rfl, h⟩]
      omega
    · rw [if_neg (fun hc => h hc.2)]
      omega
  · rintro rfl
    rw [if_neg (fun hc => Bool.noConfusion hc.1)]
    exact ⟨hm0, hm1⟩

/-- C7: when the input tensor's element kind equals the configured
destination kind, `Cast::Compute` succeeds with output equal to the input
tensor (same kind, same shape, byte-for-byte identical buffer), and neither
the dispatcher nor any caster runs: the nonempty case takes the
`CopyCpuTensor` branch (one plain buffer copy, a no-op when the buffers
alias — cast_op.cc lines 274-278), the empty case returns immediately. -/
theorem same_kind_cast_is_copy (toKind : ElementKind) (X : TensorModel)
    (hk : X.kind = toKind) (hdata : X.data.length = X.size) :
    ∃ p, computeCast toKind X = .ok (X, p) ∧ (∀ s d, p ≠ .dispatched s d) ∧
      (0 < X.size → p = .sameTypeCopy) := by
  subst hk
  by_cases hsz : X.size = 0
  · have hnil : X.data = [] := List.length_eq_zero.mp (by rw [hdata, hsz])
    refine ⟨.emptyInput, ?_, by simp, ?_⟩
    · unfold computeCast
      rw [if_pos hsz, ← hnil]
    · intro h
      rw [hsz] at h
      exact absurd h (lt_irrefl 0)
  · exact ⟨.sameTypeCopy, by unfold computeCast; rw [if_neg hsz, if_pos rfl],
      by simp, fun _ => rfl⟩

/-- Witness for C7: casting a concrete nonempty float tensor to float copies
it unchanged. -/
theorem same_kind_cast_is_copy_witness :
    ∃ p, computeCast .float ⟨.float, [2], [.f (.fin 1), .f (.fin 2)]⟩ =
        .ok (⟨.float, [2], [.f (.fin 1), .f (.fin 2)]⟩, p) ∧
      (∀ s d, p ≠ .dispatched s d) ∧
      (0 < TensorModel.size ⟨.float, [2], [.f (.fin 1), .f (.fin 2)]⟩ →
        p = .sameTypeCopy) :=
  same_kind_cast_is_copy .float ⟨.float, [2], [.f (.fin 1), .f (.fin 2)]⟩ rfl
    (by decide)

/-- C8: for every destination kind and every input tensor with element count
0, `Cast::Compute` returns success immediately (cast_op.cc lines 268-270)
with a well-formed empty output — the destination kind, the input's shape, no
elements — and the returned path records that neither the dispatcher nor any
caster ran. -/
theorem empty_tensor_cast (toKind : ElementKind) (X : TensorModel)
    (h : X.size = 0) :
    computeCast toKind X = .ok (⟨toKind, X.shape, []⟩, .emptyInput) := by
  unfold computeCast
  rw [if_pos h]

/-- Witness for C8: casting an empty float tensor (shape [0, 3]) to int32
returns the empty int32 tensor via the empty-input branch. -/
theorem empty_tensor_cast_witness :
    computeCast .int32 ⟨.float, [0, 3], []⟩ =
      .ok (⟨.int32, [0, 3], []⟩, .emptyInput) :=
  empty_tensor_cast .int32 ⟨.float, [0, 3], []⟩ (by decide)

/-- C9: no caster writes the source buffer.  Each caster shape of the kernel
— the generic numeric caster, the to-string and from-string specializations,
and the AMD64 fast path (which additionally fills only its call-scoped
intermediate buffer) — is modelled as a transformer over the three buffers an
invocation can touch, and each leaves the source buffer untouched. -/
theorem casters_never_write_source (d s : ElementKind) (st : BufferState) :
    (runGenericCaster d st).src = st.src ∧
    (runToStringCaster s st).src = st.src ∧
    (∀ st2, runFromStringCaster d st = .ok st2 → st2.src = st.src) ∧
    (runFastPathCaster d st).src = st.src := by
  refine ⟨rfl, rfl, ?_, rfl⟩
  intro st2 h
  unfold runFromStringCaster at h
  cases hc : castTensorFromString d st.src with
  | ok ys =>
    rw [hc] at h
    cases h
    rfl
  | error e =>
    rw [hc] at h
    cases h

/-- Witness for C9: a concrete buffer state through the from-string caster
keeps its source buffer. -/
theorem casters_never_write_source_witness :
    (runGenericCaster .int32 ⟨[.s "7"], [], []⟩).src = [Scalar.s "7"] ∧
    (runToStringCaster .bool ⟨[.s "7"], [], []⟩).src = [Scalar.s "7"] ∧
    (∀ st2, runFromStringCaster .int32 ⟨[.s "7"], [], []⟩ = .ok st2 →
      st2.src = [Scalar.s "7"]) ∧
    (runFastPathCaster .int32 ⟨[.s "7"], [], []⟩).src = [Scalar.s "7"] :=
  casters_never_write_source .int32 .bool ⟨[.s "7"], [], []⟩

/-- C10: when the widest parser for an integer destination kind succeeds, the
conversion never raises an error regardless of the destination kind's
narrower range: `gsl::narrow_cast` performs an unchecked narrowing, so the
destination receives the parsed value reduced modulo `2 ^ w` (two's
complement for signed kinds), within the destination's range. -/
theorem narrowing_wraps_modulo (d : ElementKind) (w : ℕ) (sg : Bool)
    (s : String) (v : ℤ) (hw : intWidth d = some (w, sg))
    (hparse : (if sg then stollModel s else stoullModel s) = .ok v) :
    castFromString d s = .ok (.i (wrapInt w sg v)) ∧
    wrapInt w sg v % 2 ^ w = v % 2 ^ w ∧
    (sg = true → -(2 ^ (w - 1)) ≤ wrapInt w sg v ∧ wrapInt w sg v < 2 ^ (w - 1)) ∧
    (sg = false → 0 ≤ wrapInt w sg v ∧ wrapInt w sg v < 2 ^ w) := by
  have h1 : (1 : ℕ) ≤ w := by
    cases d <;> simp only [intWidth, Option.some.injEq, Prod.mk.injEq] at hw <;>
      first
        | exact Option.noConfusion hw
        | omega
  refine ⟨?_, wrapInt_emod w sg v, wrapInt_bounds w sg v h1⟩
  cases d <;>
    first
      | exact Option.noConfusion hw
      | (simp only [intWidth, Option.some.injEq, Prod.mk.injEq] at hw
         obtain ⟨rfl, rfl⟩ := hw
         simp only [Bool.false_eq_true, if_false, if_true, if_pos, if_neg,
           Bool.true_eq_false, ite_true, ite_false] at hparse
         simp [castFromString, hparse, Except.map])

/-- Witness for C10: parsing "300" for the int8 destination succeeds and
delivers 300 mod 256 = 44. -/
theorem narrowing_wraps_modulo_witness :
    castFromString .int8 "300" = .ok (.i 44) := by
  have h := narrowing_wraps_modulo .int8 8 true "300" 300 (by decide) (by decide)
  rw [h.1]
  decide

/-- C6: `CastFromString` factors exactly as the spec describes: every numeric
destination kind parses with the widest primitive parser of its category
(double parser for floating kinds, `stoull` for unsigned integral kinds
including bool, `stoll` for signed integral kinds) and then narrows; the
reduced-precision kinds narrow the double to a 32-bit float first and then
convert down. -/
theorem parse_via_widest_then_narrow (d : ElementKind) (c : ParseCategory)
    (s : String) (hc : parseCategoryOf d = some c) :
    castFromString d s = (wideParse c s).map (narrowWide d) := by
  cases d <;> cases c <;> simp_all [parseCategoryOf] <;>
    [cases h : stoullModel s; cases h : stodModel s; cases h : stodModel s;
     cases h : stoullModel s; cases h : stoullModel s; cases h : stoullModel s;
     cases h : stoullModel s; cases h : stollModel s; cases h : stollModel s;
     cases h : stollModel s; cases h : stollModel s; cases h : stodModel s;
     cases h : stodModel s] <;>
    simp [castFromString, wideParse, narrowWide, h, Except.map]

/-- Witness for C6: the float16 destination at a concrete string parses via
the double parser and narrows through float. -/
theorem parse_via_widest_then_narrow_witness :
    castFromString .float16 "1.5" =
      (wideParse .floating "1.5").map (narrowWide .float16) :=
  parse_via_widest_then_narrow .float16 .floating "1.5" (by decide)

/-- Rounding-to-nearest of an integer is exact. -/
theorem roundHE_intCast (n : ℤ) : roundHE (n : ℚ) = n := by
  simp [roundHE, Int.floor_intCast]

/-- Rounding to nearest moves the value by at most 1/2. -/
theorem roundHE_err (x : ℚ) : |(roundHE x : ℚ) - x| ≤ 1 / 2 := by
  have h0 : (⌊x⌋ : ℚ) ≤ x := Int.floor_le x
  have h1 : x < ⌊x⌋ + 1 := Int.lt_floor_add_one x
  simp only [roundHE]
  by_cases hc1 : x - ⌊x⌋ < 1 / 2
  · rw [if_pos hc1, abs_le]
    constructor <;> linarith
  · rw [if_neg hc1]
    by_cases hc2 : 1 / 2 < x - ⌊x⌋
    · rw [if_pos hc2, abs_le]
      push_cast
      constructor <;> linarith
    · rw [if_neg hc2]
      have heq : x - ⌊x⌋ = 1 / 2 := le_antisymm (not_lt.mp hc2) (not_lt.mp hc1)
      by_cases hc3 : 2 ∣ ⌊x⌋
      · rw [if_pos hc3, abs_le]
        constructor <;> linarith
      · rw [if_neg hc3, abs_le]
        push_cast
        constructor <;> linarith

/-- Correctness of the fueled floor-log helper on arguments at least 1. -/
theorem floorLogUp_correct (b : ℚ) (hb : 2 ≤ b) :
    ∀ (f : ℕ) (a : ℚ), 1 ≤ a → a < b ^ f →
      b ^ floorLogUp b f a ≤ a ∧ a < b ^ (floorLogUp b f a + 1) := by
  have hb0 : (0 : ℚ) < b := by linarith
  have hbne : b ≠ 0 := ne_of_gt hb0
  intro f
  induction f with
  | zero =>
    intro a ha1 ha2
    rw [pow_zero] at ha2
    linarith
  | succ f ih =>
    intro a ha1 ha2
    simp only [floorLogUp]
    by_cases hab : a < b
    · rw [if_pos hab]
      refine ⟨by simpa using ha1, by simpa using hab⟩
    · rw [if_neg hab]
      have h1 : 1 ≤ a / b := by
        rw [le_div_iff₀ hb0]
        simpa using not_lt.mp hab
      have h2 : a / b < b ^ f := by
        rw [div_lt_iff₀ hb0]
        calc a < b ^ (f + 1) := ha2
          _ = b ^ f * b := by rw [pow_succ]
      obtain ⟨c1, c2⟩ := ih (a / b) h1 h2
      constructor
      · rw [zpow_add_one₀ hbne]
        calc b ^ floorLogUp b f (a / b) * b ≤ a / b * b := by
              exact mul_le_mul_of_nonneg_right c1 (le_of_lt hb0)
          _ = a := div_mul_cancel₀ a hbne
      · rw [add_right_comm, zpow_add_one₀ hbne]
        calc a = a / b * b := (div_mul_cancel₀ a hbne).symm
          _ < b ^ (floorLogUp b f (a / b) + 1) * b := by
              exact mul_lt_mul_of_pos_right c2 hb0

/-- The down helper returns 0 as soon as its argument reaches 1. -/
theorem floorLogDown_of_one_le (b : ℚ) (f : ℕ) (x : ℚ) (hx : 1 ≤ x) :
    floorLogDown b f x = 0 := by
  cases f <;> simp [floorLogDown, hx]

/-- Correctness of the fueled floor-log helper on arguments below 1. -/
theorem floorLogDown_correct (b : ℚ) (hb : 2 ≤ b) :
    ∀ (f : ℕ) (a : ℚ), 0 < a → ¬1 ≤ a → 1 ≤ a * b ^ f →
      b ^ floorLogDown b f a ≤ a ∧ a < b ^ (floorLogDown b f a + 1) := by
  have hb0 : (0 : ℚ) < b := by linarith
  have hbne : b ≠ 0 := ne_of_gt hb0
  intro f
  induction f with
  | zero =>
    intro a ha0 ha1 hfuel
    rw [pow_zero, mul_one] at hfuel
    exact absurd hfuel ha1
  | succ f ih =>
    intro a ha0 ha1 hfuel
    simp only [floorLogDown, if_neg ha1]
    by_cases hab : 1 ≤ a * b
    · rw [floorLogDown_of_one_le b f _ hab]
      constructor
      · rw [zero_sub, zpow_neg, zpow_one, inv_le_iff_one_le_mul₀ hb0]
        linarith [hab]
      · rw [zero_sub, neg_add_cancel, zpow_zero]
        linarith [not_le.mp ha1]
    · have hfuel2 : 1 ≤ a * b * b ^ f := by
        calc (1 : ℚ) ≤ a * b ^ (f + 1) := hfuel
          _ = a * b * b ^ f := by rw [pow_succ]; ring
      obtain ⟨c1, c2⟩ := ih (a * b) (by positivity) hab hfuel2
      have hinv : (0 : ℚ) < b⁻¹ := by positivity
      constructor
      · rw [zpow_sub_one₀ hbne]
        calc b ^ floorLogDown b f (a * b) * b⁻¹ ≤ a * b * b⁻¹ := by gcongr
          _ = a := by field_simp
      · have h3 : a * b * b⁻¹ < b ^ (floorLogDown b f (a * b) + 1) * b⁻¹ := by gcongr
        have h4 : a * b * b⁻¹ = a := by field_simp
        have h5 : b ^ (floorLogDown b f (a * b) + 1) * b⁻¹ =
            b ^ (floorLogDown b f (a * b)) := by
          rw [zpow_add_one₀ hbne]
          field_simp
        have h6 : (floorLogDown b f (a * b) - 1) + 1 = floorLogDown b f (a * b) := by
          omega
        rw [h6]
        linarith

/-- The fuel `logFuel a` suffices for the up helper. -/
theorem lt_pow_logFuel (b : ℚ) (hb : 2 ≤ b) (a : ℚ) (ha : 1 ≤ a) :
    a < b ^ logFuel a := by
  have hden : (1 : ℚ) ≤ (a.den : ℚ) := by
    exact_mod_cast Nat.one_le_iff_ne_zero.mpr a.den_nz
  have hnum0 : (0 : ℚ) ≤ (a.num : ℚ) := by
    exact_mod_cast Rat.num_nonneg.mpr (by linarith)
  have hnumZ : 0 ≤ a.num := Rat.num_nonneg.mpr (by linarith)
  have h1 : a ≤ (a.num : ℚ) := by
    conv_lhs => rw [← Rat.num_div_den a]
    calc (a.num : ℚ) / a.den ≤ (a.num : ℚ) / 1 := by gcongr
      _ = a.num := by rw [div_one]
  have h2 : (a.num : ℚ) = (a.num.natAbs : ℚ) := by
    push_cast [Int.cast_natAbs]
    exact (abs_of_nonneg hnum0).symm
  have h3 : (a.num.natAbs : ℚ) < 2 ^ a.num.natAbs := by
    exact_mod_cast Nat.lt_two_pow a.num.natAbs
  have h4 : (2 : ℚ) ^ a.num.natAbs ≤ 2 ^ logFuel a := by
    apply pow_le_pow_right₀ one_le_two
    simp [logFuel]
  have h5 : (2 : ℚ) ^ logFuel a ≤ b ^ logFuel a := by
    exact pow_le_pow_left₀ (by norm_num) hb _
  calc a ≤ (a.num : ℚ) := h1
    _ = (a.num.natAbs : ℚ) := h2
    _ < 2 ^ a.num.natAbs := h3
    _ ≤ 2 ^ logFuel a := h4
    _ ≤ b ^ logFuel a := h5

/-- The fuel `logFuel a` suffices for the down helper. -/
theorem one_le_mul_pow_logFuel (b : ℚ) (hb : 2 ≤ b) (a : ℚ) (ha : 0 < a) :
    1 ≤ a * b ^ logFuel a := by
  have hden0 : (0 : ℚ) < (a.den : ℚ) := by exact_mod_cast a.pos
  have hnum1 : (1 : ℚ) ≤ (a.num : ℚ) := by
    exact_mod_cast Rat.num_pos.mpr ha
  have h1 : (1 : ℚ) / a.den ≤ a := by
    conv_rhs => rw [← Rat.num_div_den a]
    gcongr
  have h2 : ((a.den : ℕ) : ℚ) < 2 ^ (a.den : ℕ) := by
    exact_mod_cast Nat.lt_two_pow (a.den : ℕ)
  have h4 : (2 : ℚ) ^ (a.den : ℕ) ≤ b ^ logFuel a := by
    calc (2 : ℚ) ^ (a.den : ℕ) ≤ 2 ^ logFuel a := by
          apply pow_le_pow_right₀ one_le_two
          simp [logFuel]
      _ ≤ b ^ logFuel a := pow_le_pow_left₀ (by norm_num) hb _
  have h5 : (a.den : ℚ) ≤ b ^ logFuel a := by linarith
  calc (1 : ℚ) = (1 / a.den) * a.den := by field_simp
    _ ≤ a * b ^ logFuel a := by
        apply mul_le_mul h1 h5 (le_of_lt hden0) (le_of_lt ha)

/-- Correctness of `floorLogQ`: it computes the floor logarithm. -/
theorem floorLogQ_correct (b a : ℚ) (hb : 2 ≤ b) (ha : 0 < a) :
    b ^ floorLogQ b a ≤ a ∧ a < b ^ (floorLogQ b a + 1) := by
  unfold floorLogQ
  by_cases h1 : 1 ≤ a
  · rw [if_pos h1]
    exact floorLogUp_correct b hb (logFuel a) a h1 (lt_pow_logFuel b hb a h1)
  · rw [if_neg h1]
    exact floorLogDown_correct b hb (logFuel a) a ha h1
      (one_le_mul_pow_logFuel b hb a ha)

/-- Uniqueness: any exponent `k` with `b ^ k ≤ a < b ^ (k + 1)` is the floor
logarithm. -/
theorem floorLogQ_eq_of (b a : ℚ) (k : ℤ) (hb : 2 ≤ b) (ha : 0 < a)
    (h1 : b ^ k ≤ a) (h2 : a < b ^ (k + 1)) : floorLogQ b a = k := by
  obtain ⟨c1, c2⟩ := floorLogQ_correct b a hb ha
  have hb1 : (1 : ℚ) ≤ b := by linarith
  by_contra hne
  rcases lt_or_gt_of_ne hne with h | h
  · have : b ^ (floorLogQ b a + 1) ≤ b ^ k := by
      apply zpow_le_zpow_right₀ hb1
      omega
    linarith
  · have : b ^ (k + 1) ≤ b ^ floorLogQ b a := by
      apply zpow_le_zpow_right₀ hb1
      omega
    linarith

/-- Upper bound for the floor logarithm from an upper bound on the value. -/
theorem floorLogQ_le (b x : ℚ) (k : ℤ) (hb : 2 ≤ b) (hx : 0 < x)
    (h : x < b ^ (k + 1)) : floorLogQ b x ≤ k := by
  obtain ⟨c1, c2⟩ := floorLogQ_correct b x hb hx
  by_contra hcon
  push_neg at hcon
  have : b ^ (k + 1) ≤ b ^ floorLogQ b x :=
    zpow_le_zpow_right₀ (by linarith) (by omega)
  linarith

/-- Lower bound for the floor logarithm from a lower bound on the value. -/
theorem floorLogQ_ge (b x : ℚ) (k : ℤ) (hb : 2 ≤ b) (hx : 0 < x)
    (h : b ^ k ≤ x) : k ≤ floorLogQ b x := by
  obtain ⟨c1, c2⟩ := floorLogQ_correct b x hb hx
  by_contra hcon
  push_neg at hcon
  have : b ^ (floorLogQ b x + 1) ≤ b ^ k :=
    zpow_le_zpow_right₀ (by linarith) (by omega)
  linarith

/-- Round-to-nearest returns the integer strictly within half a unit. -/
theorem roundHE_eq_of_near (x : ℚ) (n : ℤ) (h : |x - (n : ℚ)| < 1 / 2) :
    roundHE x = n := by
  rw [abs_lt] at h
  have h1 : (⌊x⌋ : ℚ) ≤ x := Int.floor_le x
  have h2 : x < ⌊x⌋ + 1 := Int.lt_floor_add_one x
  have hfl : ⌊x⌋ = n ∨ ⌊x⌋ = n - 1 := by
    have hl : n - 1 ≤ ⌊x⌋ := by
      by_contra hc
      push_neg at hc
      have : (⌊x⌋ : ℚ) ≤ (n : ℚ) - 2 := by
        exact_mod_cast (by omega : ⌊x⌋ ≤ n - 2)
      linarith
    have hu : ⌊x⌋ ≤ n := by
      by_contra hc
      push_neg at hc
      have : (n : ℚ) + 1 ≤ (⌊x⌋ : ℚ) := by
        exact_mod_cast (by omega : n + 1 ≤ ⌊x⌋)
      linarith
    omega
  simp only [roundHE]
  rcases hfl with hfl | hfl
  · rw [hfl, if_pos (by linarith)]
  · have hcast : ((⌊x⌋ : ℤ) : ℚ) = (n : ℚ) - 1 := by
      rw [hfl]
      push_cast
      ring
    rw [hfl] at hcast ⊢
    rw [if_neg (by rw [hcast]; linarith), if_pos (by rw [hcast]; linarith)]
    omega

/-- Exactness of grid rounding: a value already on the format's grid (at most
`mbits + 1` significant bits, scale at least the subnormal grid) is fixed by
`gridRound`. -/
theorem gridRound_exact (mbits : ℕ) (emin : ℤ) (m : ℕ) (t : ℤ)
    (hm0 : 0 < m) (hm1 : m < 2 ^ (mbits + 1)) (ht : emin - mbits ≤ t) :
    gridRound mbits emin ((m : ℚ) * (2 : ℚ) ^ t) = (m : ℚ) * (2 : ℚ) ^ t := by
  have h2ne : (2 : ℚ) ≠ 0 := by norm_num
  have hm0Q : (0 : ℚ) < m := by exact_mod_cast hm0
  have hm1Q : (m : ℚ) < (2 : ℚ) ^ (mbits + 1) := by exact_mod_cast hm1
  have ha0 : (0 : ℚ) < (m : ℚ) * (2 : ℚ) ^ t := by positivity
  have hup : (m : ℚ) * (2 : ℚ) ^ t < (2 : ℚ) ^ ((mbits : ℤ) + 1 + t) := by
    have hcast : ((mbits : ℤ) + 1 + t) = ((mbits + 1 : ℕ) : ℤ) + t := by
      push_cast
      ring
    rw [hcast, zpow_add₀ h2ne, zpow_natCast]
    exact mul_lt_mul_of_pos_right hm1Q (zpow_pos (by norm_num) t)
  obtain ⟨c1, c2⟩ := floorLogQ_correct 2 ((m : ℚ) * (2 : ℚ) ^ t) (by norm_num) ha0
  have hflog : floorLogQ 2 ((m : ℚ) * (2 : ℚ) ^ t) ≤ (mbits : ℤ) + t := by
    by_contra hcon
    push_neg at hcon
    have hle : (2 : ℚ) ^ ((mbits : ℤ) + 1 + t) ≤
        (2 : ℚ) ^ (floorLogQ 2 ((m : ℚ) * (2 : ℚ) ^ t)) := by
      apply zpow_le_zpow_right₀ one_le_two
      omega
    linarith
  have he1 : fmtExp emin ((m : ℚ) * (2 : ℚ) ^ t) - mbits ≤ t := by
    have hmax := max_le hflog (show emin ≤ (mbits : ℤ) + t by omega)
    simp only [fmtExp]
    omega
  set e := fmtExp emin ((m : ℚ) * (2 : ℚ) ^ t) with hedef
  have hd0 : 0 ≤ t - (e - mbits) := by omega
  have hNval : (((m : ℤ) * 2 ^ (t - (e - mbits)).toNat : ℤ) : ℚ) =
      (m : ℚ) * (2 : ℚ) ^ (t - (e - mbits)) := by
    push_cast
    rw [← zpow_natCast (2 : ℚ) (t - (e - mbits)).toNat, Int.toNat_of_nonneg hd0]
  have hdiv : (m : ℚ) * (2 : ℚ) ^ t / (2 : ℚ) ^ (e - mbits) =
      (((m : ℤ) * 2 ^ (t - (e - mbits)).toNat : ℤ) : ℚ) := by
    rw [hNval, div_eq_iff (zpow_ne_zero _ h2ne), mul_assoc, ← zpow_add₀ h2ne,
      sub_add_cancel]
  unfold gridRound
  rw [← hedef, hdiv, roundHE_intCast, hNval, mul_assoc, ← zpow_add₀ h2ne,
    sub_add_cancel]

/-- A value whose magnitude is on the format's grid and within the format's
finite range is fixed by `roundToFormat`. -/
theorem roundToFormat_exact (mbits : ℕ) (emin emax : ℤ) (q : ℚ) (m : ℕ) (t : ℤ)
    (hm0 : 0 < m) (hm1 : m < 2 ^ (mbits + 1)) (ht : emin - mbits ≤ t)
    (habs : |q| = (m : ℚ) * (2 : ℚ) ^ t)
    (hmax : (m : ℚ) * (2 : ℚ) ^ t ≤ fmtMax mbits emax) :
    roundToFormat mbits emin emax q = .fin q := by
  have hm0Q : (0 : ℚ) < m := by exact_mod_cast hm0
  have ha0 : (0 : ℚ) < |q| := by
    rw [habs]
    positivity
  have hq0 : q ≠ 0 := by
    intro h
    rw [h] at ha0
    simp at ha0
  have hgrid : gridRound mbits emin |q| = |q| := by
    rw [habs]
    exact gridRound_exact mbits emin m t hm0 hm1 ht
  unfold roundToFormat
  rw [if_neg hq0, hgrid, if_pos (by rw [habs]; exact hmax)]
  rcases lt_or_ge q 0 with hq | hq
  · rw [if_pos hq, abs_of_neg hq, neg_neg]
  · rw [if_neg (not_lt.mpr hq), abs_of_nonneg hq]

/-- Every `MLFloat16` value is exactly representable in binary32, so the
float32 rounding fixes the decoded value (the heart of the fast-path
equivalence at destination `float`: the MLAS bulk conversion and the Eigen
elementwise cast produce identical results). -/
theorem roundFloatFP_halfToFloat (h : Fin 65536) :
    roundFloatFP (halfToFloat h) = halfToFloat h := by
  have hmlt : h.val % 1024 < 1024 := Nat.mod_lt _ (by norm_num)
  have helt : h.val / 1024 % 32 < 32 := Nat.mod_lt _ (by norm_num)
  simp only [halfToFloat]
  by_cases h31 : h.val / 1024 % 32 = 31
  · rw [if_pos h31]
    by_cases hm0 : h.val % 1024 = 0
    · rw [if_pos hm0]
      by_cases hs : h.val / 32768 = 1
      · rw [if_pos hs]
        rfl
      · rw [if_neg hs]
        rfl
    · rw [if_neg hm0]
      rfl
  · rw [if_neg h31]
    by_cases he0 : h.val / 1024 % 32 = 0
    · rw [if_pos he0]
      by_cases hm0 : h.val % 1024 = 0
      · simp [hm0, roundFloatFP, roundFloatQ, roundToFormat]
      · have hmpos : 0 < h.val % 1024 := Nat.pos_of_ne_zero hm0
        have hm1 : h.val % 1024 < 2 ^ (23 + 1) := lt_trans hmlt (by norm_num)
        have hmax : ((h.val % 1024 : ℕ) : ℚ) * (2 : ℚ) ^ (-24 : ℤ) ≤
            fmtMax 23 127 := by
          have hb : ((h.val % 1024 : ℕ) : ℚ) ≤ 1024 := by
            exact_mod_cast hmlt.le
          calc ((h.val % 1024 : ℕ) : ℚ) * (2 : ℚ) ^ (-24 : ℤ)
              ≤ 1024 * (2 : ℚ) ^ (-24 : ℤ) := by gcongr
            _ ≤ fmtMax 23 127 := by norm_num [fmtMax]
        by_cases hs : h.val / 32768 = 1
        · rw [if_pos hs]
          simp only [roundFloatFP]
          show roundToFormat 23 (-126) 127 _ = _
          apply roundToFormat_exact 23 (-126) 127 _ (h.val % 1024) (-24) hmpos
            hm1 (by norm_num)
          · rw [abs_neg, abs_of_nonneg (by positivity)]
          · exact hmax
        · rw [if_neg hs]
          simp only [roundFloatFP]
          show roundToFormat 23 (-126) 127 _ = _
          apply roundToFormat_exact 23 (-126) 127 _ (h.val % 1024) (-24) hmpos
            hm1 (by norm_num)
          · rw [abs_of_nonneg (by positivity)]
          · exact hmax
    · rw [if_neg he0]
      have hepos : 0 < h.val / 1024 % 32 := Nat.pos_of_ne_zero he0
      have he30 : h.val / 1024 % 32 ≤ 30 := by omega
      have hm1 : 1024 + h.val % 1024 < 2 ^ (23 + 1) := by
        have : 1024 + h.val % 1024 < 2048 := by omega
        exact lt_trans this (by norm_num)
      have hmpos : 0 < 1024 + h.val % 1024 := by omega
      have htle : ((h.val / 1024 % 32 : ℕ) : ℤ) - 25 ≤ 5 := by
        have : ((h.val / 1024 % 32 : ℕ) : ℤ) ≤ 30 := by exact_mod_cast he30
        omega
      have ht : (-126 : ℤ) - 23 ≤ ((h.val / 1024 % 32 : ℕ) : ℤ) - 25 := by
        have : (0 : ℤ) ≤ ((h.val / 1024 % 32 : ℕ) : ℤ) := Int.natCast_nonneg _
        omega
      have hmax : ((1024 + h.val % 1024 : ℕ) : ℚ) *
          (2 : ℚ) ^ (((h.val / 1024 % 32 : ℕ) : ℤ) - 25) ≤ fmtMax 23 127 := by
        have hb : ((1024 + h.val % 1024 : ℕ) : ℚ) ≤ 2048 := by
          exact_mod_cast (by omega : 1024 + h.val % 1024 ≤ 2048)
        have hz : (2 : ℚ) ^ (((h.val / 1024 % 32 : ℕ) : ℤ) - 25) ≤
            (2 : ℚ) ^ (5 : ℤ) := zpow_le_zpow_right₀ one_le_two htle
        calc ((1024 + h.val % 1024 : ℕ) : ℚ) *
              (2 : ℚ) ^ (((h.val / 1024 % 32 : ℕ) : ℤ) - 25)
            ≤ 2048 * (2 : ℚ) ^ (5 : ℤ) := by
              apply mul_le_mul hb hz (by positivity) (by norm_num)
          _ ≤ fmtMax 23 127 := by norm_num [fmtMax]
      by_cases hs : h.val / 32768 = 1
      · rw [if_pos hs]
        simp only [roundFloatFP]
        show roundToFormat 23 (-126) 127 _ = _
        apply roundToFormat_exact 23 (-126) 127 _ (1024 + h.val % 1024)
          (((h.val / 1024 % 32 : ℕ) : ℤ) - 25) hmpos hm1 ht
        · rw [abs_neg, abs_of_nonneg (by positivity)]
        · exact hmax
      · rw [if_neg hs]
        simp only [roundFloatFP]
        show roundToFormat 23 (-126) 127 _ = _
        apply roundToFormat_exact 23 (-126) 127 _ (1024 + h.val % 1024)
          (((h.val / 1024 % 32 : ℕ) : ℤ) - 25) hmpos hm1 ht
        · rw [abs_of_nonneg (by positivity)]
        · exact hmax

/-- C1: for every enabled destination kind `d` other than MLFloat16 and every
MLFloat16 input buffer, the AMD64 fast path (`TensorCaster<MLFloat16, d>`
built on the MLAS bulk half-to-float conversion, going through a transient
float buffer when `d` is not `float`) produces exactly the same output as the
generic elementwise `TensorCaster<MLFloat16, d>` instantiated directly: the
choice of path never changes the observable output. -/
theorem fastpath_matches_generic (d : ElementKind) (hd : d ∈ enabledDstTypes)
    (hne : d ≠ .float16) (xs : List (Fin 65536)) :
    fastHalfCaster d xs = genericHalfCaster d xs := by
  cases d <;>
    first
      | exact absurd rfl hne
      | simp [fastHalfCaster, genericHalfCaster, castMLFloat16ThroughFloat,
          mlasConvertHalfToFloatBuffer, castTensorToString, castToString,
          numericScalarCast, numValue, convertFP, List.map_map, Function.comp,
          roundFloatFP_halfToFloat]

/-- Witness for C1: a concrete one-element MLFloat16 buffer (bit pattern
0x4D00, the value 20.0) casts to int32 identically on both paths. -/
theorem fastpath_matches_generic_witness :
    fastHalfCaster .int32 [(⟨19712, by norm_num⟩ : Fin 65536)] =
      genericHalfCaster .int32 [⟨19712, by norm_num⟩] :=
  fastpath_matches_generic .int32 (by decide) (by decide) _

/-- Digit/character basics. -/
theorem digitVal_digitChar (d : ℕ) (hd : d < 10) : digitVal (digitChar d) = d := by
  interval_cases d <;> decide

/-- A digit character passes the digit test. -/
theorem isDigitChar_digitChar (d : ℕ) (hd : d < 10) :
    isDigitChar (digitChar d) = true := by
  interval_cases d <;> decide

/-- A digit character is not whitespace. -/
theorem isSpaceChar_digitChar (d : ℕ) (hd : d < 10) :
    isSpaceChar (digitChar d) = false := by
  interval_cases d <;> decide

/-- The sign lexer does not consume a digit character. -/
theorem lexSign_digitChar (d : ℕ) (hd : d < 10) (r : List Char) :
    lexSign (digitChar d :: r) = (false, digitChar d :: r) := by
  interval_cases d <;> rfl

/-- A keyword match fails as soon as its first character differs. -/
theorem matchesKw_cons_false (k : Char) (ks : List Char) (c : Char)
    (r : List Char) (h : (k == c.toLower) = false) :
    matchesKw (k :: ks) (c :: r) = false := by
  simp [matchesKw, h]

/-- Digit characters do not lower-case to `i`. -/
theorem digit_not_lower_i (d : ℕ) (hd : d < 10) :
    ('i' == (digitChar d).toLower) = false := by
  interval_cases d <;> decide

/-- Digit characters do not lower-case to `n`. -/
theorem digit_not_lower_n (d : ℕ) (hd : d < 10) :
    ('n' == (digitChar d).toLower) = false := by
  interval_cases d <;> decide

/-- Correctness of the little-endian digit expansion. -/
theorem valRev_natDecRev : ∀ (f n : ℕ), n ≤ f → valRev (natDecRev f n) = n := by
  intro f
  induction f with
  | zero =>
    intro n hn
    simp only [natDecRev, valRev]
    omega
  | succ f ih =>
    intro n hn
    by_cases hn0 : n = 0
    · subst hn0
      simp [natDecRev, valRev]
    · simp only [natDecRev, if_neg hn0, valRev]
      rw [ih (n / 10) (by omega)]
      omega

/-- The digit expansion produces digits below 10. -/
theorem natDecRev_digit_lt : ∀ (f n : ℕ), ∀ d ∈ natDecRev f n, d < 10 := by
  intro f
  induction f with
  | zero =>
    intro n d hd
    simp [natDecRev] at hd
  | succ f ih =>
    intro n d hd
    by_cases hn0 : n = 0
    · subst hn0
      simp [natDecRev] at hd
    · simp only [natDecRev, if_neg hn0, List.mem_cons] at hd
      rcases hd with h | h
      · omega
      · exact ih _ d h

/-- Folding the digit-value accumulator from an arbitrary start. -/
theorem natOfDigitVals_init (ds : List ℕ) : ∀ (a : ℕ),
    ds.foldl (fun x d => x * 10 + d) a = a * 10 ^ ds.length + natOfDigitVals ds := by
  induction ds with
  | nil =>
    intro a
    simp [natOfDigitVals]
  | cons d ds ih =>
    intro a
    show ds.foldl _ (a * 10 + d) = _
    rw [ih (a * 10 + d)]
    have h2 : natOfDigitVals (d :: ds) = d * 10 ^ ds.length + natOfDigitVals ds := by
      show ds.foldl _ (0 * 10 + d) = _
      rw [ih (0 * 10 + d)]
      ring_nf
    rw [h2, List.length_cons, pow_succ]
    ring

/-- Digit-run value of a concatenation. -/
theorem natOfDigitVals_append (xs ys : List ℕ) :
    natOfDigitVals (xs ++ ys) =
      natOfDigitVals xs * 10 ^ ys.length + natOfDigitVals ys := by
  show List.foldl _ 0 (xs ++ ys) = _
  rw [List.foldl_append]
  exact natOfDigitVals_init ys _

/-- Big-endian value of a reversed list is the little-endian value. -/
theorem natOfDigitVals_reverse (l : List ℕ) :
    natOfDigitVals l.reverse = valRev l := by
  induction l with
  | nil => rfl
  | cons d l ih =>
    rw [List.reverse_cons, natOfDigitVals_append, ih]
    have h1 : natOfDigitVals [d] = d := by
      simp [natOfDigitVals]
    rw [h1]
    simp [valRev]
    ring

/-- The decimal digit expansion denotes its input. -/
theorem natOfDigitVals_natDigits (n : ℕ) : natOfDigitVals (natDigits n) = n := by
  unfold natDigits
  rw [natOfDigitVals_reverse]
  exact valRev_natDecRev n n le_rfl

/-- Digits of the decimal expansion are below 10. -/
theorem natDigits_digit_lt (n : ℕ) : ∀ d ∈ natDigits n, d < 10 := by
  intro d hd
  unfold natDigits at hd
  exact natDecRev_digit_lt n n d (List.mem_reverse.mp hd)

/-- Upper length bound of the digit expansion. -/
theorem natDecRev_length_le : ∀ (f n k : ℕ), n < 10 ^ k →
    (natDecRev f n).length ≤ k := by
  intro f
  induction f with
  | zero =>
    intro n k _
    simp [natDecRev]
  | succ f ih =>
    intro n k h
    by_cases hn0 : n = 0
    · subst hn0
      simp [natDecRev]
    · simp only [natDecRev, if_neg hn0, List.length_cons]
      cases k with
      | zero =>
        simp at h
        omega
      | succ k =>
        rw [pow_succ] at h
        have hlt : n / 10 < 10 ^ k := by
          rw [Nat.div_lt_iff_lt_mul (by norm_num)]
          exact h
        exact Nat.succ_le_succ (ih _ k hlt)

/-- Lower length bound of the digit expansion. -/
theorem natDecRev_length_ge : ∀ (f n k : ℕ), 10 ^ k ≤ n → n ≤ f →
    k < (natDecRev f n).length := by
  intro f
  induction f with
  | zero =>
    intro n k h hf
    have := Nat.one_le_pow k 10 (by norm_num)
    omega
  | succ f ih =>
    intro n k h hf
    have hn0 : n ≠ 0 := by
      have := Nat.one_le_pow k 10 (by norm_num)
      omega
    simp only [natDecRev, if_neg hn0, List.length_cons]
    cases k with
    | zero => omega
    | succ k =>
      have h1 : 10 ^ k ≤ n / 10 := by
        rw [Nat.le_div_iff_mul_le (by norm_num)]
        calc 10 ^ k * 10 = 10 ^ (k + 1) := (pow_succ 10 k).symm
          _ ≤ n := h
      have h2 : n / 10 ≤ f := by omega
      exact Nat.succ_lt_succ (ih _ k h1 h2)

/-- Exact length of the decimal expansion. -/
theorem natDigits_length (n k : ℕ) (h1 : 10 ^ k ≤ n) (h2 : n < 10 ^ (k + 1)) :
    (natDigits n).length = k + 1 := by
  unfold natDigits
  rw [List.length_reverse]
  have a := natDecRev_length_le n n (k + 1) h2
  have b := natDecRev_length_ge n n k h1 le_rfl
  omega

/-- The value of a run of zero digits is zero. -/
theorem natOfDigitVals_replicate_zero (k : ℕ) :
    natOfDigitVals (List.replicate k 0) = 0 := by
  induction k with
  | zero => rfl
  | succ k ih =>
    show List.foldl _ (0 * 10 + 0) (List.replicate k 0) = 0
    simpa [natOfDigitVals] using ih

/-- Appending zero digits multiplies the value by the matching power of 10. -/
theorem natOfDigitVals_append_zeros (xs : List ℕ) (k : ℕ) :
    natOfDigitVals (xs ++ List.replicate k 0) = natOfDigitVals xs * 10 ^ k := by
  rw [natOfDigitVals_append, natOfDigitVals_replicate_zero, List.length_replicate]
  omega

/-- Leading zero digits do not change the value. -/
theorem natOfDigitVals_zeros_append (k : ℕ) (xs : List ℕ) :
    natOfDigitVals (List.replicate k 0 ++ xs) = natOfDigitVals xs := by
  rw [natOfDigitVals_append, natOfDigitVals_replicate_zero]
  omega

/-- Stripping trailing zeros decomposes the digit list. -/
theorem stripTrail_decomp (ds : List ℕ) :
    ∃ k, ds = stripTrailZeros ds ++ List.replicate k 0 := by
  refine ⟨(ds.reverse.takeWhile (fun d => d == 0)).length, ?_⟩
  have h0 : ds.reverse.takeWhile (fun d => d == 0) ++
      ds.reverse.dropWhile (fun d => d == 0) = ds.reverse :=
    List.takeWhile_append_dropWhile _ _
  have h2 : ds.reverse.takeWhile (fun d => d == 0) =
      List.replicate (ds.reverse.takeWhile (fun d => d == 0)).length 0 := by
    apply List.eq_replicate_length.mpr
    intro b hb
    have hpb := List.mem_takeWhile_imp hb
    simpa using hpb
  conv_lhs => rw [← List.reverse_reverse ds, ← h0]
  rw [List.reverse_append]
  unfold stripTrailZeros
  conv_lhs => rw [h2, List.reverse_replicate]

/-- Stripping keeps the value up to a power of 10, keeps digit bounds and
drops nothing when the value is nonzero. -/
theorem stripTrail_val (ds : List ℕ) :
    ∃ k, ds = stripTrailZeros ds ++ List.replicate k 0 ∧
      natOfDigitVals ds = natOfDigitVals (stripTrailZeros ds) * 10 ^ k ∧
      ds.length = (stripTrailZeros ds).length + k := by
  obtain ⟨k, hk⟩ := stripTrail_decomp ds
  refine ⟨k, hk, ?_, ?_⟩
  · conv_lhs => rw [hk]
    exact natOfDigitVals_append_zeros _ k
  · conv_lhs => rw [hk]
    simp [List.length_append]

/-- A digit list with nonzero value strips to a nonempty list. -/
theorem stripTrail_ne_nil (ds : List ℕ) (h : natOfDigitVals ds ≠ 0) :
    stripTrailZeros ds ≠ [] := by
  intro hnil
  obtain ⟨k, hk, hv, _⟩ := stripTrail_val ds
  rw [hnil] at hv
  simp [natOfDigitVals] at hv
  exact h hv

/-- Members of the stripped list are members of the original. -/
theorem stripTrail_subset (ds : List ℕ) :
    ∀ d ∈ stripTrailZeros ds, d ∈ ds := by
  intro d hd
  obtain ⟨k, hk, _, _⟩ := stripTrail_val ds
  rw [hk]
  exact List.mem_append_left _ hd

/-- Folding digit characters equals folding digit values. -/
theorem foldl_digitChar_eq : ∀ (ds : List ℕ), (∀ d ∈ ds, d < 10) → ∀ (a : ℕ),
    List.foldl (fun x c => x * 10 + digitVal c) a (ds.map digitChar) =
      List.foldl (fun x d => x * 10 + d) a ds := by
  intro ds
  induction ds with
  | nil =>
    intro _ a
    rfl
  | cons d ds ih =>
    intro h a
    simp only [List.map_cons, List.foldl_cons]
    rw [digitVal_digitChar d (h d (by simp))]
    exact ih (fun x hx => h x (by simp [hx])) _

/-- The char-level digit-run value agrees with the digit-value run. -/
theorem natOfDigits_map (ds : List ℕ) (h : ∀ d ∈ ds, d < 10) :
    natOfDigits (ds.map digitChar) = natOfDigitVals ds := by
  unfold natOfDigits
  exact foldl_digitChar_eq ds h 0

/-- `spanDigits` splits a digit run followed by a non-digit remainder. -/
theorem spanDigits_eq : ∀ (A rest : List Char), (∀ c ∈ A, isDigitChar c = true) →
    (∀ c cs, rest = c :: cs → isDigitChar c = false) →
    spanDigits (A ++ rest) = (A, rest) := by
  intro A
  induction A with
  | nil =>
    intro rest _ hr
    cases rest with
    | nil => rfl
    | cons c cs =>
      simp [spanDigits, List.takeWhile_cons, List.dropWhile_cons, hr c cs rfl]
  | cons a A ih =>
    intro rest hA hr
    have ha : isDigitChar a = true := hA a (by simp)
    have h2 := ih rest (fun c hc => hA c (by simp [hc])) hr
    rw [Prod.mk.injEq] at h2
    simp only [spanDigits, List.cons_append, List.takeWhile_cons,
      List.dropWhile_cons, ha, if_true, Prod.mk.injEq] at *
    exact ⟨by rw [h2.1], h2.2⟩

/-- Mapped digit lists consist of digit characters. -/
theorem map_digitChar_digits (ds : List ℕ) (h : ∀ d ∈ ds, d < 10) :
    ∀ c ∈ ds.map digitChar, isDigitChar c = true := by
  intro c hc
  obtain ⟨d, hd, rfl⟩ := List.mem_map.mp hc
  exact isDigitChar_digitChar d (h d hd)

/-- `lexInteger` on a pure digit run. -/
theorem lexInteger_digits (A : List ℕ) (hA : ∀ d ∈ A, d < 10) (hne : A ≠ []) :
    lexInteger (A.map digitChar) = some (false, A.map digitChar) := by
  cases A with
  | nil => exact absurd rfl hne
  | cons d ds =>
    have hd : d < 10 := hA d (by simp)
    have hspan : spanDigits ((d :: ds).map digitChar ++ []) =
        ((d :: ds).map digitChar, []) :=
      spanDigits_eq _ [] (map_digitChar_digits _ hA) (by intro c cs h; cases h)
    rw [List.append_nil] at hspan
    simp only [lexInteger, List.map_cons]
    rw [List.dropWhile_cons, isSpaceChar_digitChar d hd]
    simp only [Bool.false_eq_true, if_false, lexSign_digitChar d hd]
    simp only [List.map_cons] at hspan
    rw [hspan]
    simp

/-- `lexInteger` on a minus sign followed by a digit run. -/
theorem lexInteger_neg_digits (A : List ℕ) (hA : ∀ d ∈ A, d < 10)
    (hne : A ≠ []) :
    lexInteger ('-' :: A.map digitChar) = some (true, A.map digitChar) := by
  cases A with
  | nil => exact absurd rfl hne
  | cons d ds =>
    have hd : d < 10 := hA d (by simp)
    have hspan : spanDigits ((d :: ds).map digitChar ++ []) =
        ((d :: ds).map digitChar, []) :=
      spanDigits_eq _ [] (map_digitChar_digits _ hA) (by intro c cs h; cases h)
    rw [List.append_nil] at hspan
    simp only [List.map_cons] at hspan ⊢
    show (if ((spanDigits (digitChar d :: List.map digitChar ds)).1).isEmpty = true
        then none
        else some (true, (spanDigits (digitChar d :: List.map digitChar ds)).1)) =
      some (true, digitChar d :: List.map digitChar ds)
    rw [hspan]
    simp

/-- The decimal rendering of a natural denotes it. -/
theorem natOfDigits_natDecChars (n : ℕ) : natOfDigits (natDecChars n) = n := by
  unfold natDecChars
  by_cases h : n = 0
  · subst h
    decide
  · rw [if_neg h, natOfDigits_map _ (natDigits_digit_lt n), natOfDigitVals_natDigits]

/-- The decimal rendering is a nonempty digit run. -/
theorem natDecChars_digits (n : ℕ) :
    ∃ ds, natDecChars n = ds.map digitChar ∧ (∀ d ∈ ds, d < 10) ∧ ds ≠ [] := by
  by_cases h : n = 0
  · subst h
    exact ⟨[0], rfl, by simp, by simp⟩
  · refine ⟨natDigits n, by simp [natDecChars, h], natDigits_digit_lt n, ?_⟩
    have hlen : 0 < (natDigits n).length := by
      unfold natDigits
      rw [List.length_reverse]
      exact Nat.lt_of_lt_of_le (natDecRev_length_ge n n 0 (by omega) le_rfl) le_rfl
    intro hnil
    rw [hnil] at hlen
    simp at hlen

/-- Reduction of `stollModel` once the lexed digits are known. -/
theorem stollModel_of_lex (s : String) (neg : Bool) (dsC : List Char)
    (h : lexInteger s.data = some (neg, dsC)) :
    stollModel s =
      if (if neg then -1 else 1) * (natOfDigits dsC : ℤ) < -(2 ^ 63) ∨
          2 ^ 63 - 1 < (if neg then -1 else 1) * (natOfDigits dsC : ℤ)
        then .error .outOfRange
        else .ok ((if neg then -1 else 1) * (natOfDigits dsC : ℤ)) := by
  unfold stollModel
  rw [h]

/-- Reduction of `stoullModel` once the lexed digits are known. -/
theorem stoullModel_of_lex (s : String) (neg : Bool) (dsC : List Char)
    (h : lexInteger s.data = some (neg, dsC)) :
    stoullModel s =
      if 2 ^ 64 - 1 < natOfDigits dsC then .error .outOfRange
      else .ok (if neg then ((2 : ℤ) ^ 64 - (natOfDigits dsC : ℤ)) % 2 ^ 64
                else (natOfDigits dsC : ℤ)) := by
  unfold stoullModel
  rw [h]

/-- An in-range value is fixed by signed wrapping. -/
theorem wrapInt_eq_self_signed (w : ℕ) (v : ℤ) (hw : 1 ≤ w)
    (hl : -(2 ^ (w - 1)) ≤ v) (hr : v < 2 ^ (w - 1)) : wrapInt w true v = v := by
  have hsplit : (2 : ℤ) ^ w = 2 ^ (w - 1) * 2 := by
    rw [← pow_succ]
    congr 1
    omega
  have hpos2 : (0 : ℤ) < 2 ^ (w - 1) := by positivity
  by_cases h0 : 0 ≤ v
  · have hv : v % 2 ^ w = v := Int.emod_eq_of_lt h0 (by omega)
    simp only [wrapInt, hv]
    rw [if_neg (fun hc => absurd hc.2 (not_le.mpr (by omega)))]
  · push_neg at h0
    have hv : v % 2 ^ w = v + 2 ^ w := by
      calc v % 2 ^ w = (v + 2 ^ w) % 2 ^ w := (Int.add_emod_self).symm
        _ = v + 2 ^ w := Int.emod_eq_of_lt (by omega) (by omega)
    simp only [wrapInt, hv]
    rw [if_pos ⟨trivial, by omega⟩]
    omega

/-- An in-range value is fixed by unsigned wrapping. -/
theorem wrapInt_eq_self_unsigned (w : ℕ) (v : ℤ)
    (hl : 0 ≤ v) (hr : v < 2 ^ w) : wrapInt w false v = v := by
  have hv : v % 2 ^ w = v := Int.emod_eq_of_lt hl hr
  simp only [wrapInt, hv]
  rw [if_neg (fun hc => Bool.noConfusion hc.1)]

/-- Parsing the decimal rendering of an in-range integer with `stoll`
recovers it. -/
theorem stoll_intToDecString (v : ℤ) (h1 : -(2 ^ 63) ≤ v) (h2 : v ≤ 2 ^ 63 - 1) :
    stollModel (intToDecString v) = .ok v := by
  obtain ⟨ds, hds, hlt, hne⟩ := natDecChars_digits v.natAbs
  have hval : (natOfDigits (ds.map digitChar) : ℤ) = (v.natAbs : ℤ) := by
    rw [← hds, natOfDigits_natDecChars]
  by_cases hv : v < 0
  · have hlex : lexInteger (intToDecString v).data = some (true, ds.map digitChar) := by
      have hdata : (intToDecString v).data = '-' :: ds.map digitChar := by
        unfold intToDecString
        rw [if_pos hv, hds]
      rw [hdata]
      exact lexInteger_neg_digits ds hlt hne
    rw [stollModel_of_lex _ true _ hlex]
    have habs : (v.natAbs : ℤ) = -v := Int.ofNat_natAbs_of_nonpos (le_of_lt hv)
    have hv2 : (if (true : Bool) = true then (-1 : ℤ) else 1) *
        (natOfDigits (ds.map digitChar) : ℤ) = v := by
      rw [if_pos rfl, hval, habs]
      ring
    rw [hv2, if_neg (not_or.mpr ⟨not_lt.mpr h1, not_lt.mpr h2⟩)]
  · have hlex : lexInteger (intToDecString v).data = some (false, ds.map digitChar) := by
      have hdata : (intToDecString v).data = ds.map digitChar := by
        unfold intToDecString
        rw [if_neg hv, hds]
      rw [hdata]
      exact lexInteger_digits ds hlt hne
    rw [stollModel_of_lex _ false _ hlex]
    have hv2 : (if (false : Bool) = true then (-1 : ℤ) else 1) *
        (natOfDigits (ds.map digitChar) : ℤ) = v := by
      rw [if_neg (by simp), hval, Int.natAbs_of_nonneg (not_lt.mp hv)]
      ring
    rw [hv2, if_neg (not_or.mpr ⟨not_lt.mpr h1, not_lt.mpr h2⟩)]

/-- Parsing the decimal rendering of an in-range nonnegative integer with
`stoull` recovers it. -/
theorem stoull_intToDecString (v : ℤ) (h0 : 0 ≤ v) (h2 : v ≤ 2 ^ 64 - 1) :
    stoullModel (intToDecString v) = .ok v := by
  obtain ⟨ds, hds, hlt, hne⟩ := natDecChars_digits v.natAbs
  have hvnat : (natOfDigits (ds.map digitChar) : ℤ) = v := by
    rw [← hds, natOfDigits_natDecChars, Int.natAbs_of_nonneg h0]
  have hlex : lexInteger (intToDecString v).data = some (false, ds.map digitChar) := by
    have hdata : (intToDecString v).data = ds.map digitChar := by
      unfold intToDecString
      rw [if_neg (not_lt.mpr h0), hds]
    rw [hdata]
    exact lexInteger_digits ds hlt hne
  rw [stoullModel_of_lex _ false _ hlex]
  rw [if_neg (by omega), if_neg (by simp), hvnat]

/-- The 8-significant-digit decomposition of a positive rational: the
significand has exactly 8 digits and the decomposition denotes the rounded
scaled value. -/
theorem sig8_main (a : ℚ) (ha : 0 < a) :
    10 ^ 7 ≤ (sig8 a).1 ∧ (sig8 a).1 < 10 ^ 8 ∧
    ((sig8 a).1 : ℚ) * (10 : ℚ) ^ ((sig8 a).2 - 7) =
      (roundHE (a / (10 : ℚ) ^ (floorLogQ 10 a - 7)) : ℚ) *
        (10 : ℚ) ^ (floorLogQ 10 a - 7) := by
  obtain ⟨c1, c2⟩ := floorLogQ_correct 10 a (by norm_num) ha
  set E := floorLogQ 10 a with hE
  set x := a / (10 : ℚ) ^ (E - 7) with hx
  have h10 : (0 : ℚ) < (10 : ℚ) ^ (E - 7) := zpow_pos (by norm_num) _
  have hx1 : (10000000 : ℚ) ≤ x := by
    rw [hx, le_div_iff₀ h10]
    calc (10000000 : ℚ) * (10 : ℚ) ^ (E - 7)
        = (10 : ℚ) ^ (7 : ℤ) * (10 : ℚ) ^ (E - 7) := by norm_num
      _ = (10 : ℚ) ^ (7 + (E - 7)) := (zpow_add₀ (by norm_num) _ _).symm
      _ = (10 : ℚ) ^ E := by congr 1; omega
      _ ≤ a := c1
  have hx2 : x < (100000000 : ℚ) := by
    rw [hx, div_lt_iff₀ h10]
    calc a < (10 : ℚ) ^ (E + 1) := c2
      _ = (10 : ℚ) ^ (8 + (E - 7)) := by congr 1; omega
      _ = (10 : ℚ) ^ (8 : ℤ) * (10 : ℚ) ^ (E - 7) := zpow_add₀ (by norm_num) _ _
      _ = (100000000 : ℚ) * (10 : ℚ) ^ (E - 7) := by norm_num
  have herr := roundHE_err x
  rw [abs_le] at herr
  have hm_low : (10 ^ 7 : ℤ) ≤ roundHE x := by
    have h' : ((10 ^ 7 - 1 : ℤ) : ℚ) < (roundHE x : ℚ) := by
      push_cast
      linarith [herr.1]
    have h'' : (10 ^ 7 - 1 : ℤ) < roundHE x := by exact_mod_cast h'
    omega
  have hm_high : roundHE x ≤ 10 ^ 8 := by
    have h' : (roundHE x : ℚ) < ((10 ^ 8 + 1 : ℤ) : ℚ) := by
      push_cast
      linarith [herr.2]
    have h'' : roundHE x < 10 ^ 8 + 1 := by exact_mod_cast h'
    omega
  unfold sig8
  rw [← hE, ← hx]
  by_cases hc : roundHE x = 10 ^ 8
  · rw [if_pos hc]
    refine ⟨by norm_num, by norm_num, ?_⟩
    show ((10 ^ 7 : ℕ) : ℚ) * (10 : ℚ) ^ (E + 1 - 7) = _
    rw [hc]
    push_cast
    rw [show (E + 1 - 7 : ℤ) = 1 + (E - 7) by omega,
      zpow_add₀ (by norm_num : (10 : ℚ) ≠ 0)]
    ring_nf
  · rw [if_neg hc]
    have hnn : (0 : ℤ) ≤ roundHE x := by omega
    refine ⟨by omega, by omega, ?_⟩
    show (((roundHE x).toNat : ℕ) : ℚ) * (10 : ℚ) ^ (E - 7) = _
    have hcast : (((roundHE x).toNat : ℕ) : ℚ) = ((roundHE x : ℤ) : ℚ) := by
      have h1 : ((roundHE x).toNat : ℤ) = roundHE x := Int.toNat_of_nonneg hnn
      exact_mod_cast congrArg (fun z : ℤ => (z : ℚ)) h1
    rw [hcast]

/-- On positive inputs `round8` is the sig8 decomposition's value. -/
theorem round8_pos (q : ℚ) (hq : 0 < q) :
    round8 q = ((sig8 q).1 : ℚ) * (10 : ℚ) ^ ((sig8 q).2 - 7) := by
  unfold round8
  rw [if_neg (ne_of_gt hq), if_neg (not_lt.mpr (le_of_lt hq)), abs_of_pos hq]
  ring

/-- On negative inputs `round8` is the negated decomposition value of the
magnitude. -/
theorem round8_neg (q : ℚ) (hq : q < 0) :
    round8 q = -(((sig8 |q|).1 : ℚ) * (10 : ℚ) ^ ((sig8 |q|).2 - 7)) := by
  unfold round8
  rw [if_neg (ne_of_lt hq), if_pos hq]
  ring

/-- Rounding to 8 significant digits moves a value by at most half a unit in
the 8th significant digit. -/
theorem round8_dev (q : ℚ) (h0 : q ≠ 0) :
    |round8 q - q| ≤ 1 / 2 * (10 : ℚ) ^ (floorLogQ 10 |q| - 7) := by
  have ha : 0 < |q| := abs_pos.mpr h0
  obtain ⟨_, _, hval⟩ := sig8_main |q| ha
  set E := floorLogQ 10 |q| with hE
  set x := |q| / (10 : ℚ) ^ (E - 7) with hx
  have h10 : (0 : ℚ) < (10 : ℚ) ^ (E - 7) := zpow_pos (by norm_num) _
  have herr := roundHE_err x
  have hdiff : ((sig8 |q|).1 : ℚ) * (10 : ℚ) ^ ((sig8 |q|).2 - 7) - |q| =
      ((roundHE x : ℚ) - x) * (10 : ℚ) ^ (E - 7) := by
    rw [hval, sub_mul, hx, div_mul_cancel₀ _ (ne_of_gt h10)]
  have hbound : abs (((sig8 |q|).1 : ℚ) * (10 : ℚ) ^ ((sig8 |q|).2 - 7) - |q|) ≤
      1 / 2 * (10 : ℚ) ^ (E - 7) := by
    rw [hdiff, abs_mul, abs_of_pos h10]
    exact mul_le_mul_of_nonneg_right herr (le_of_lt h10)
  rcases lt_trichotomy q 0 with hq | hq | hq
  · rw [round8_neg q hq]
    have habs : q = -|q| := by
      rw [abs_of_neg hq, neg_neg]
    calc abs (-(((sig8 |q|).1 : ℚ) * (10 : ℚ) ^ ((sig8 |q|).2 - 7)) - q)
        = abs (((sig8 |q|).1 : ℚ) * (10 : ℚ) ^ ((sig8 |q|).2 - 7) - |q|) := by
          have h1 : -(((sig8 |q|).1 : ℚ) * (10 : ℚ) ^ ((sig8 |q|).2 - 7)) - q =
              -((((sig8 |q|).1 : ℚ) * (10 : ℚ) ^ ((sig8 |q|).2 - 7)) - |q|) := by
            rw [abs_of_neg hq]
            ring
          rw [h1, abs_neg]
      _ ≤ 1 / 2 * (10 : ℚ) ^ (E - 7) := hbound
  · exact absurd hq h0
  · rw [round8_pos q hq]
    have habs : |q| = q := abs_of_pos hq
    rw [← habs]
    exact hbound

/-- `spanDigits` consumes a full digit run. -/
theorem spanDigits_all (D : List ℕ) (hD : ∀ d ∈ D, d < 10) :
    spanDigits (D.map digitChar) = (D.map digitChar, []) := by
  have h := spanDigits_eq (D.map digitChar) [] (map_digitChar_digits D hD)
    (by intro c cs hcs; cases hcs)
  simpa using h

/-- `spanDigits` stops a digit run at a dot. -/
theorem spanDigits_until_dot (D : List ℕ) (hD : ∀ d ∈ D, d < 10)
    (rest : List Char) :
    spanDigits (D.map digitChar ++ '.' :: rest) = (D.map digitChar, '.' :: rest) :=
  spanDigits_eq _ _ (map_digitChar_digits D hD)
    (by intro c cs hcs; cases hcs; decide)

/-- `spanDigits` stops a digit run at an `e`. -/
theorem spanDigits_until_e (D : List ℕ) (hD : ∀ d ∈ D, d < 10)
    (rest : List Char) :
    spanDigits (D.map digitChar ++ 'e' :: rest) = (D.map digitChar, 'e' :: rest) :=
  spanDigits_eq _ _ (map_digitChar_digits D hD)
    (by intro c cs hcs; cases hcs; decide)

/-- `lexExp` on an explicit sign and digit run. -/
theorem lexExp_signed (pos : Bool) (E : List ℕ) (hE : ∀ d ∈ E, d < 10)
    (hne : E ≠ []) :
    lexExp ((if pos then '+' else '-') :: E.map digitChar) =
      (if pos then 1 else -1) * (natOfDigitVals E : ℤ) := by
  have hspan := spanDigits_all E hE
  have hmapne : E.map digitChar ≠ [] := fun h => hne (List.map_eq_nil_iff.mp h)
  have hval := natOfDigits_map E hE
  cases pos
  · show lexExp ('-' :: E.map digitChar) = _
    unfold lexExp
    rw [show lexSign ('-' :: E.map digitChar) = (true, E.map digitChar) from rfl]
    simp [hspan, hval, hmapne]
  · show lexExp ('+' :: E.map digitChar) = _
    unfold lexExp
    rw [show lexSign ('+' :: E.map digitChar) = (false, E.map digitChar) from rfl]
    simp [hspan, hval, hmapne]

/-- The empty digit run denotes 0. -/
theorem natOfDigits_nil : natOfDigits [] = 0 := rfl

/-- `lexDecimal` on a pure digit run. -/
theorem lexDecimal_digits (neg : Bool) (D : List ℕ) (hD : ∀ d ∈ D, d < 10)
    (hne : D ≠ []) :
    lexDecimal neg (D.map digitChar) =
      some (.fin ((if neg then -1 else 1) * (natOfDigitVals D : ℚ))) := by
  have hspan := spanDigits_all D hD
  have hmapne : D.map digitChar ≠ [] := fun h => hne (List.map_eq_nil_iff.mp h)
  have hval := natOfDigits_map D hD
  unfold lexDecimal
  rw [hspan]
  simp [hval, hmapne, natOfDigits_nil]

/-- `lexDecimal` on a digit run, a decimal point and a fraction run. -/
theorem lexDecimal_point (neg : Bool) (A B : List ℕ) (hA : ∀ d ∈ A, d < 10)
    (hB : ∀ d ∈ B, d < 10) (hAne : A ≠ []) :
    lexDecimal neg (A.map digitChar ++ '.' :: B.map digitChar) =
      some (.fin ((if neg then -1 else 1) *
        ((natOfDigitVals A : ℚ) + (natOfDigitVals B : ℚ) / (10 : ℚ) ^ B.length))) := by
  have hspan1 := spanDigits_until_dot A hA (B.map digitChar)
  have hspan2 := spanDigits_all B hB
  have hAmapne : A.map digitChar ≠ [] := fun h => hAne (List.map_eq_nil_iff.mp h)
  unfold lexDecimal
  rw [hspan1]
  simp [hspan2, natOfDigits_map A hA, natOfDigits_map B hB, hAmapne]

/-- `lexDecimal` on a digit run followed by a signed exponent. -/
theorem lexDecimal_digits_exp (neg pos : Bool) (A E : List ℕ)
    (hA : ∀ d ∈ A, d < 10) (hE : ∀ d ∈ E, d < 10) (hAne : A ≠ [])
    (hEne : E ≠ []) :
    lexDecimal neg
        (A.map digitChar ++ 'e' :: (if pos then '+' else '-') :: E.map digitChar) =
      some (.fin ((if neg then -1 else 1) *
        ((natOfDigitVals A : ℚ) *
          (10 : ℚ) ^ ((if pos then 1 else -1) * (natOfDigitVals E : ℤ))))) := by
  have hspan1 := spanDigits_until_e A hA ((if pos then '+' else '-') :: E.map digitChar)
  have hexp := lexExp_signed pos E hE hEne
  have hAmapne : A.map digitChar ≠ [] := fun h => hAne (List.map_eq_nil_iff.mp h)
  unfold lexDecimal
  rw [hspan1]
  simp [hexp, natOfDigits_map A hA, hAmapne, natOfDigits_nil]

/-- `lexDecimal` on a digit run, point, fraction and signed exponent. -/
theorem lexDecimal_point_exp (neg pos : Bool) (A B E : List ℕ)
    (hA : ∀ d ∈ A, d < 10) (hB : ∀ d ∈ B, d < 10) (hE : ∀ d ∈ E, d < 10)
    (hAne : A ≠ []) (hEne : E ≠ []) :
    lexDecimal neg
        (A.map digitChar ++ '.' :: (B.map digitChar ++
          'e' :: (if pos then '+' else '-') :: E.map digitChar)) =
      some (.fin ((if neg then -1 else 1) *
        (((natOfDigitVals A : ℚ) + (natOfDigitVals B : ℚ) / (10 : ℚ) ^ B.length) *
          (10 : ℚ) ^ ((if pos then 1 else -1) * (natOfDigitVals E : ℤ))))) := by
  have hspan1 := spanDigits_until_dot A hA (B.map digitChar ++ 'e' :: (if pos then '+' else '-') :: E.map digitChar)
  have hspan2 := spanDigits_until_e B hB ((if pos then '+' else '-') :: E.map digitChar)
  have hexp := lexExp_signed pos E hE hEne
  have hAmapne : A.map digitChar ≠ [] := fun h => hAne (List.map_eq_nil_iff.mp h)
  unfold lexDecimal
  rw [hspan1]
  simp [hspan2, hexp, natOfDigits_map A hA, natOfDigits_map B hB, hAmapne]

/-- Splitting a natural power of 10 along an integer exponent identity. -/
theorem qpow_natCast_eq (a b : ℕ) (c : ℤ) (h : (a : ℤ) = (b : ℤ) + c) :
    ((10 : ℚ)) ^ a = (10 : ℚ) ^ b * (10 : ℚ) ^ c := by
  calc (10 : ℚ) ^ a = (10 : ℚ) ^ ((a : ℤ)) := (zpow_natCast (10 : ℚ) a).symm
    _ = (10 : ℚ) ^ ((b : ℤ) + c) := by rw [h]
    _ = (10 : ℚ) ^ ((b : ℤ)) * (10 : ℚ) ^ c := zpow_add₀ (by norm_num) _ _
    _ = (10 : ℚ) ^ b * (10 : ℚ) ^ c := by rw [zpow_natCast]

/-- A product of powers of 10 with exponents summing to zero is the inverse
of the remaining power. -/
theorem qpow_mul_inv (L zz : ℕ) (c : ℤ) (h : (L : ℤ) + (zz : ℤ) + c = 0) :
    (10 : ℚ) ^ zz * (10 : ℚ) ^ c = ((10 : ℚ) ^ L)⁻¹ := by
  have h10 : (10 : ℚ) ≠ 0 := by norm_num
  have hone : (10 : ℚ) ^ L * ((10 : ℚ) ^ zz * (10 : ℚ) ^ c) = 1 := by
    rw [← zpow_natCast (10 : ℚ) L, ← zpow_natCast (10 : ℚ) zz,
      ← zpow_add₀ h10, ← zpow_add₀ h10, ← zpow_zero (10 : ℚ)]
    congr 1
    omega
  have ha : ((10 : ℚ) ^ L) ≠ 0 := by positivity
  field_simp
  linear_combination hone

/-- A nonempty mapped digit run starts with a digit character. -/
theorem map_digitChar_head (D : List ℕ) (hne : D ≠ []) :
    ∃ d r, D.map digitChar = digitChar d :: r ∧ d ∈ D := by
  cases D with
  | nil => exact absurd rfl hne
  | cons d rest => exact ⟨d, rest.map digitChar, rfl, by simp⟩

/-- Digit characters are not the hexadecimal prefix markers. -/
theorem digitChar_ne_x (d : ℕ) (hd : d < 10) :
    digitChar d ≠ 'x' ∧ digitChar d ≠ 'X' := by
  interval_cases d <;> exact ⟨by decide, by decide⟩

/-- The hex production fails when the second character is not a marker. -/
theorem lexHex_none_of_second (neg : Bool) (c1 c2 : Char) (r : List Char)
    (h : c2 ≠ 'x' ∧ c2 ≠ 'X') : lexHex neg (c1 :: c2 :: r) = none := by
  show (if c1 = '0' ∧ (c2 = 'x' ∨ c2 = 'X') then lexHexBody neg r else none) = none
  rw [if_neg]
  rintro ⟨-, h2 | h2⟩
  exacts [h.1 h2, h.2 h2]

/-- The hex production fails on a single-character input. -/
theorem lexHex_none_single (neg : Bool) (c : Char) : lexHex neg [c] = none := rfl

/-- On the digit-led texts the formatter produces — a nonempty digit run
followed by nothing, a period or an `e` exponent marker — the hexadecimal
production fails. -/
theorem lexHex_digits_suffix (neg : Bool) (D : List ℕ) (r2 : List Char)
    (hD : ∀ x ∈ D, x < 10) (hne : D ≠ [])
    (hsuf : r2 = [] ∨ (∃ r', r2 = '.' :: r') ∨ (∃ r', r2 = 'e' :: r')) :
    lexHex neg (D.map digitChar ++ r2) = none := by
  cases D with
  | nil => exact absurd rfl hne
  | cons d0 D' =>
    cases D' with
    | cons d1 D2 =>
      simp only [List.map_cons, List.cons_append]
      exact lexHex_none_of_second neg _ _ _ (digitChar_ne_x d1 (hD d1 (by simp)))
    | nil =>
      simp only [List.map_cons, List.map_nil, List.cons_append, List.nil_append]
      rcases hsuf with rfl | ⟨r', rfl⟩ | ⟨r', rfl⟩
      · exact lexHex_none_single neg _
      · exact lexHex_none_of_second neg _ _ _ ⟨by decide, by decide⟩
      · exact lexHex_none_of_second neg _ _ _ ⟨by decide, by decide⟩

/-- Parsing the fixed-notation rendering recovers the denoted value
`m * 10 ^ (E - 7)`. -/
theorem parse_formatFixed (ds : List ℕ) (E : ℤ) (m z : ℕ)
    (hlt : ∀ d ∈ ds, d < 10) (hne : ds ≠ [])
    (hV : natOfDigitVals ds * 10 ^ z = m)
    (hk : ds.length + z = 8)
    (hE1 : -4 ≤ E) (hE2 : E < 8) :
    (∃ d r, formatFixed ds E = digitChar d :: r ∧ d < 10 ∧
      ∀ neg : Bool, lexHex neg (digitChar d :: r) = none) ∧
    ∀ neg : Bool, lexDecimal neg (formatFixed ds E) =
      some (.fin ((if neg then -1 else 1) * ((m : ℚ) * (10 : ℚ) ^ (E - 7)))) := by
  have h0c : digitChar 0 = '0' := by decide
  by_cases he0 : 0 ≤ E
  · have hEnat : ((E.toNat : ℕ) : ℤ) = E := Int.toNat_of_nonneg he0
    by_cases hlk : ds.length ≤ E.toNat + 1
    · have hform : formatFixed ds E =
          (ds ++ List.replicate (E.toNat + 1 - ds.length) 0).map digitChar := by
        simp only [formatFixed, if_pos he0, if_pos hlk]
        rw [List.map_append, List.map_replicate, h0c]
      have hDlt : ∀ d ∈ ds ++ List.replicate (E.toNat + 1 - ds.length) 0, d < 10 := by
        intro d hd
        rcases List.mem_append.mp hd with h | h
        · exact hlt d h
        · rw [List.eq_of_mem_replicate h]
          norm_num
      have hDne : ds ++ List.replicate (E.toNat + 1 - ds.length) 0 ≠ [] := by
        intro h
        exact hne (List.append_eq_nil.mp h).1
      constructor
      · obtain ⟨d, r, heq, hdm⟩ :=
          map_digitChar_head (ds ++ List.replicate (E.toNat + 1 - ds.length) 0) hDne
        refine ⟨d, r, by rw [hform, heq], hDlt d hdm, fun neg => ?_⟩
        have hx := lexHex_digits_suffix neg
          (ds ++ List.replicate (E.toNat + 1 - ds.length) 0) [] hDlt hDne (Or.inl rfl)
        rw [List.append_nil] at hx
        rwa [← heq]
      · intro neg
        rw [hform, lexDecimal_digits neg _ hDlt hDne]
        have hval : ((natOfDigitVals (ds ++ List.replicate (E.toNat + 1 - ds.length) 0) : ℕ) : ℚ) =
            (m : ℚ) * (10 : ℚ) ^ (E - 7) := by
          rw [natOfDigitVals_append_zeros, ← hV]
          push_cast
          rw [qpow_natCast_eq (E.toNat + 1 - ds.length) z (E - 7) (by omega)]
          ring
        rw [hval]
    · push_neg at hlk
      have htake : ∀ d ∈ ds.take (E.toNat + 1), d < 10 :=
        fun d hd => hlt d (List.mem_of_mem_take hd)
      have hdrop : ∀ d ∈ ds.drop (E.toNat + 1), d < 10 :=
        fun d hd => hlt d (List.mem_of_mem_drop hd)
      have htlen : (ds.take (E.toNat + 1)).length = E.toNat + 1 := by
        rw [List.length_take]
        omega
      have hdlen : (ds.drop (E.toNat + 1)).length = ds.length - (E.toNat + 1) := by
        rw [List.length_drop]
      have htne : ds.take (E.toNat + 1) ≠ [] := by
        intro h
        rw [h] at htlen
        simp at htlen
      have hform : formatFixed ds E =
          (ds.take (E.toNat + 1)).map digitChar ++
            '.' :: (ds.drop (E.toNat + 1)).map digitChar := by
        simp only [formatFixed, if_pos he0, if_neg (not_le.mpr hlk)]
      constructor
      · obtain ⟨d, r, heq, hdm⟩ := map_digitChar_head (ds.take (E.toNat + 1)) htne
        refine ⟨d, r ++ '.' :: (ds.drop (E.toNat + 1)).map digitChar, ?_,
          htake d hdm, fun neg => ?_⟩
        · rw [hform, heq]
          rfl
        · have hx := lexHex_digits_suffix neg (ds.take (E.toNat + 1))
            ('.' :: (ds.drop (E.toNat + 1)).map digitChar) htake htne
            (Or.inr (Or.inl ⟨_, rfl⟩))
          rw [heq] at hx
          exact hx
      · intro neg
        rw [hform, lexDecimal_point neg _ _ htake hdrop htne]
        have hsplit : natOfDigitVals (ds.take (E.toNat + 1)) *
            10 ^ (ds.drop (E.toNat + 1)).length +
            natOfDigitVals (ds.drop (E.toNat + 1)) = natOfDigitVals ds := by
          rw [← natOfDigitVals_append, List.take_append_drop]
        have hval : ((natOfDigitVals (ds.take (E.toNat + 1)) : ℕ) : ℚ) +
            ((natOfDigitVals (ds.drop (E.toNat + 1)) : ℕ) : ℚ) /
              (10 : ℚ) ^ (ds.drop (E.toNat + 1)).length =
            (m : ℚ) * (10 : ℚ) ^ (E - 7) := by
          have hmq : (m : ℚ) = ((natOfDigitVals (ds.take (E.toNat + 1)) : ℕ) : ℚ) *
              (10 : ℚ) ^ (ds.drop (E.toNat + 1)).length * (10 : ℚ) ^ z +
              ((natOfDigitVals (ds.drop (E.toNat + 1)) : ℕ) : ℚ) * (10 : ℚ) ^ z := by
            rw [← hV, ← hsplit]
            push_cast
            ring
          have hexp : ((ds.drop (E.toNat + 1)).length : ℤ) + (z : ℤ) + (E - 7) = 0 := by
            rw [hdlen]
            push_cast [Nat.cast_sub (le_of_lt hlk)]
            omega
          have hinv := qpow_mul_inv (ds.drop (E.toNat + 1)).length z (E - 7) hexp
          have hone : (10 : ℚ) ^ (ds.drop (E.toNat + 1)).length *
              ((10 : ℚ) ^ z * (10 : ℚ) ^ (E - 7)) = 1 := by
            rw [hinv]
            exact mul_inv_cancel₀ (by positivity)
          rw [hmq, div_eq_mul_inv, ← hinv]
          linear_combination (-((natOfDigitVals (ds.take (E.toNat + 1)) : ℕ) : ℚ)) * hone
        rw [hval]
  · push_neg at he0
    have hza : E.natAbs - 1 + 1 = E.natAbs := by omega
    have hB : ∀ d ∈ List.replicate (E.natAbs - 1) 0 ++ ds, d < 10 := by
      intro d hd
      rcases List.mem_append.mp hd with h | h
      · rw [List.eq_of_mem_replicate h]
        norm_num
      · exact hlt d h
    have hform : formatFixed ds E =
        [0].map digitChar ++ '.' ::
          (List.replicate (E.natAbs - 1) 0 ++ ds).map digitChar := by
      simp only [formatFixed, if_neg (not_le.mpr he0)]
      rw [List.map_append, List.map_replicate, h0c]
      rfl
    constructor
    · refine ⟨0, '.' :: (List.replicate (E.natAbs - 1) 0 ++ ds).map digitChar,
        ?_, by norm_num, fun neg => ?_⟩
      · rw [hform]
        rfl
      · exact lexHex_none_of_second neg _ _ _ ⟨by decide, by decide⟩
    · intro neg
      rw [hform, lexDecimal_point neg [0] _ (by norm_num) hB (by simp)]
      have hlenB : (List.replicate (E.natAbs - 1) 0 ++ ds).length =
          (E.natAbs - 1) + ds.length := by
        simp
      have hVB : natOfDigitVals (List.replicate (E.natAbs - 1) 0 ++ ds) =
          natOfDigitVals ds := natOfDigitVals_zeros_append _ _
      have hval : ((natOfDigitVals [0] : ℕ) : ℚ) +
          ((natOfDigitVals (List.replicate (E.natAbs - 1) 0 ++ ds) : ℕ) : ℚ) /
            (10 : ℚ) ^ (List.replicate (E.natAbs - 1) 0 ++ ds).length =
          (m : ℚ) * (10 : ℚ) ^ (E - 7) := by
        have h00 : ((natOfDigitVals [0] : ℕ) : ℚ) = 0 := by
          norm_num [natOfDigitVals]
        have hexp : (((E.natAbs - 1) + ds.length : ℕ) : ℤ) + (z : ℤ) + (E - 7) = 0 := by
          have hna : ((E.natAbs : ℕ) : ℤ) = -E := Int.ofNat_natAbs_of_nonpos (le_of_lt he0)
          push_cast [Nat.cast_sub (by omega : 1 ≤ E.natAbs)]
          push_cast at hna
          omega
        have hinv := qpow_mul_inv ((E.natAbs - 1) + ds.length) z (E - 7) hexp
        rw [h00, hVB, hlenB, zero_add, div_eq_mul_inv, ← hinv, ← hV]
        push_cast
        ring
      rw [hval]

/-- Digit-run value of a cons. -/
theorem natOfDigitVals_cons (d : ℕ) (ds : List ℕ) :
    natOfDigitVals (d :: ds) = d * 10 ^ ds.length + natOfDigitVals ds := by
  show ds.foldl _ (0 * 10 + d) = _
  rw [natOfDigitVals_init]
  ring_nf

/-- Parsing the scientific-notation rendering recovers the denoted value
`m * 10 ^ (E - 7)`. -/
theorem parse_formatSci (ds : List ℕ) (E : ℤ) (m z : ℕ)
    (hlt : ∀ d ∈ ds, d < 10) (hne : ds ≠ [])
    (hV : natOfDigitVals ds * 10 ^ z = m)
    (hk : ds.length + z = 8) :
    (∃ d r, formatSci ds E = digitChar d :: r ∧ d < 10 ∧
      ∀ neg : Bool, lexHex neg (digitChar d :: r) = none) ∧
    ∀ neg : Bool, lexDecimal neg (formatSci ds E) =
      some (.fin ((if neg then -1 else 1) * ((m : ℚ) * (10 : ℚ) ^ (E - 7)))) := by
  have h10ne : (10 : ℚ) ≠ 0 := by norm_num
  have h0c : digitChar 0 = '0' := by decide
  obtain ⟨X, hX, hXlt, hXne⟩ := natDecChars_digits E.natAbs
  have hXval : natOfDigitVals X = E.natAbs := by
    have h1 := natOfDigits_natDecChars E.natAbs
    rw [hX, natOfDigits_map X hXlt] at h1
    exact h1
  set X2 : List ℕ := if (natDecChars E.natAbs).length < 2 then 0 :: X else X with hX2def
  have hX2lt : ∀ d ∈ X2, d < 10 := by
    rw [hX2def]
    split
    · intro d hd
      rcases List.mem_cons.mp hd with h | h
      · omega
      · exact hXlt d h
    · exact hXlt
  have hX2ne : X2 ≠ [] := by
    rw [hX2def]
    split
    · simp
    · exact hXne
  have hX2val : natOfDigitVals X2 = E.natAbs := by
    rw [hX2def]
    split
    · have : (0 : ℕ) :: X = List.replicate 1 0 ++ X := rfl
      rw [this, natOfDigitVals_zeros_append, hXval]
    · exact hXval
  have hex2 : (if (natDecChars E.natAbs).length < 2
      then '0' :: natDecChars E.natAbs else natDecChars E.natAbs) =
      X2.map digitChar := by
    rw [hX2def]
    split
    · rw [hX, List.map_cons, h0c]
    · rw [hX]
  have hsgnval : ∀ hEpos : ¬E < 0, ((1 : ℤ)) * (natOfDigitVals X2 : ℤ) = E := by
    intro hEpos
    rw [hX2val, one_mul]
    omega
  have hsgnvalneg : ∀ hEneg : E < 0, ((-1 : ℤ)) * (natOfDigitVals X2 : ℤ) = E := by
    intro hEneg
    rw [hX2val]
    omega
  cases ds with
  | nil => exact absurd rfl hne
  | cons d rest =>
    have hd10 : d < 10 := hlt d (by simp)
    cases rest with
    | nil =>
      -- one significant digit: mantissa [d]
      have hz7 : z = 7 := by
        simp at hk
        omega
      have hval1 : ∀ ex : ℤ, ex = E →
          ((natOfDigitVals [d] : ℕ) : ℚ) * (10 : ℚ) ^ ex =
            (m : ℚ) * (10 : ℚ) ^ (E - 7) := by
        intro ex hex
        subst hex
        have hm : (m : ℚ) = ((natOfDigitVals [d] : ℕ) : ℚ) * (10 : ℚ) ^ (7 : ℕ) := by
          rw [← hV, hz7]
          push_cast
          ring
        rw [hm, mul_assoc]
        congr 1
        rw [← zpow_natCast (10 : ℚ) 7, ← zpow_add₀ h10ne]
        congr 1
        omega
      by_cases hEneg : E < 0
      · have hform : formatSci [d] E =
            List.map digitChar [d] ++ 'e' :: '-' :: List.map digitChar X2 := by
          simp only [formatSci, if_pos hEneg, hex2]
          rfl
        constructor
        · exact ⟨d, _, by rw [hform]; rfl, hd10,
            fun neg => lexHex_none_of_second neg _ _ _ ⟨by decide, by decide⟩⟩
        · intro neg
          have hpe := lexDecimal_digits_exp neg false [d] X2 (by
              intro x hx
              rcases List.mem_singleton.mp hx with rfl
              exact hd10) hX2lt (by simp) hX2ne
          simp only [Bool.false_eq_true, if_false] at hpe
          rw [hform, hpe, hval1 _ (hsgnvalneg hEneg)]
      · have hform : formatSci [d] E =
            List.map digitChar [d] ++ 'e' :: '+' :: List.map digitChar X2 := by
          simp only [formatSci, if_neg hEneg, hex2]
          rfl
        constructor
        · exact ⟨d, _, by rw [hform]; rfl, hd10,
            fun neg => lexHex_none_of_second neg _ _ _ ⟨by decide, by decide⟩⟩
        · intro neg
          have hpe := lexDecimal_digits_exp neg true [d] X2 (by
              intro x hx
              rcases List.mem_singleton.mp hx with rfl
              exact hd10) hX2lt (by simp) hX2ne
          simp only [reduceIte] at hpe
          rw [hform, hpe, hval1 _ (hsgnval hEneg)]
    | cons d2 rest2 =>
      have hRlt : ∀ x ∈ d2 :: rest2, x < 10 :=
        fun x hx => hlt x (List.mem_cons_of_mem d hx)
      have hdlt : ∀ x ∈ [d], x < 10 := by
        intro x hx
        rcases List.mem_singleton.mp hx with rfl
        exact hd10
      have hk7 : (d2 :: rest2).length + z = 7 := by
        simp only [List.length_cons] at hk ⊢
        omega
      have hL0 : ((10 : ℚ) ^ ((d2 :: rest2).length : ℕ)) ≠ 0 := by positivity
      have heq1 : (10 : ℚ) ^ ((d2 :: rest2).length : ℕ) *
          ((10 : ℚ) ^ (z : ℕ) * (10 : ℚ) ^ (E - 7)) = (10 : ℚ) ^ E := by
        rw [← zpow_natCast (10 : ℚ) (d2 :: rest2).length, ← zpow_natCast (10 : ℚ) z,
          ← zpow_add₀ h10ne, ← zpow_add₀ h10ne]
        congr 1
        omega
      have hval2 : ∀ ex : ℤ, ex = E →
          (((natOfDigitVals [d] : ℕ) : ℚ) +
            ((natOfDigitVals (d2 :: rest2) : ℕ) : ℚ) /
              (10 : ℚ) ^ (d2 :: rest2).length) * (10 : ℚ) ^ ex =
            (m : ℚ) * (10 : ℚ) ^ (E - 7) := by
        intro ex hex
        rw [hex]
        have h1d : ((natOfDigitVals [d] : ℕ) : ℚ) = (d : ℚ) := by
          simp [natOfDigitVals]
        have hm : (m : ℚ) = ((d : ℚ) * (10 : ℚ) ^ ((d2 :: rest2).length : ℕ) +
            ((natOfDigitVals (d2 :: rest2) : ℕ) : ℚ)) * (10 : ℚ) ^ (z : ℕ) := by
          rw [← hV, natOfDigitVals_cons]
          push_cast
          ring
        rw [h1d, hm, div_eq_mul_inv, ← heq1]
        linear_combination (((natOfDigitVals (d2 :: rest2) : ℕ) : ℚ) *
          ((10 : ℚ) ^ (z : ℕ) * (10 : ℚ) ^ (E - 7))) * (inv_mul_cancel₀ hL0)
      by_cases hEneg : E < 0
      · have hform : formatSci (d :: d2 :: rest2) E =
            List.map digitChar [d] ++ '.' :: ((d2 :: rest2).map digitChar ++
              'e' :: '-' :: List.map digitChar X2) := by
          simp only [formatSci, if_pos hEneg, hex2]
          rfl
        constructor
        · exact ⟨d, _, by rw [hform]; rfl, hd10,
            fun neg => lexHex_none_of_second neg _ _ _ ⟨by decide, by decide⟩⟩
        · intro neg
          have hpe := lexDecimal_point_exp neg false [d] (d2 :: rest2) X2 hdlt hRlt
            hX2lt (by simp) hX2ne
          simp only [Bool.false_eq_true, if_false] at hpe
          rw [hform, hpe, hval2 _ (hsgnvalneg hEneg)]
      · have hform : formatSci (d :: d2 :: rest2) E =
            List.map digitChar [d] ++ '.' :: ((d2 :: rest2).map digitChar ++
              'e' :: '+' :: List.map digitChar X2) := by
          simp only [formatSci, if_neg hEneg, hex2]
          rfl
        constructor
        · exact ⟨d, _, by rw [hform]; rfl, hd10,
            fun neg => lexHex_none_of_second neg _ _ _ ⟨by decide, by decide⟩⟩
        · intro neg
          have hpe := lexDecimal_point_exp neg true [d] (d2 :: rest2) X2 hdlt hRlt
            hX2lt (by simp) hX2ne
          simp only [reduceIte] at hpe
          rw [hform, hpe, hval2 _ (hsgnval hEneg)]

/-- The sign lexer consumes a minus sign. -/
theorem lexSign_minus (cs : List Char) : lexSign ('-' :: cs) = (true, cs) := rfl

/-- `lexFloat` on an input starting with a digit character, not a hex
prefix, reduces to the decimal lexer with no sign. -/
theorem lexFloat_digit_lead (d : ℕ) (hd : d < 10) (r : List Char)
    (hhex : lexHex false (digitChar d :: r) = none) :
    lexFloat (digitChar d :: r) = lexDecimal false (digitChar d :: r) := by
  simp only [lexFloat]
  rw [List.dropWhile_cons, isSpaceChar_digitChar d hd]
  simp only [Bool.false_eq_true, if_false, lexSign_digitChar d hd,
    matchesKw_cons_false _ _ _ _ (digit_not_lower_i d hd),
    matchesKw_cons_false _ _ _ _ (digit_not_lower_n d hd), hhex]

/-- `lexFloat` on a minus sign followed by a digit character, not a hex
prefix, reduces to the decimal lexer with the negative sign. -/
theorem lexFloat_neg_digit_lead (d : ℕ) (hd : d < 10) (r : List Char)
    (hhex : lexHex true (digitChar d :: r) = none) :
    lexFloat ('-' :: digitChar d :: r) = lexDecimal true (digitChar d :: r) := by
  have hsp : isSpaceChar '-' = false := by decide
  simp only [lexFloat]
  rw [List.dropWhile_cons, hsp]
  simp only [Bool.false_eq_true, if_false, lexSign_minus,
    matchesKw_cons_false _ _ _ _ (digit_not_lower_i d hd),
    matchesKw_cons_false _ _ _ _ (digit_not_lower_n d hd), hhex]

/-- Parsing the default-notation rendering of a nonzero rational recovers its
8-significant-digit rounding exactly. -/
theorem lexFloat_defaultFormat8 (q : ℚ) (h0 : q ≠ 0) :
    lexFloat (defaultFormat8 q).data = some (.fin (round8 q)) := by
  have ha : 0 < |q| := abs_pos.mpr h0
  obtain ⟨hM1, hM2, _⟩ := sig8_main |q| ha
  set M := (sig8 |q|).1 with hMdef
  set E := (sig8 |q|).2 with hEdef
  have hM0 : M ≠ 0 := by
    intro h
    rw [h] at hM1
    norm_num at hM1
  have hDval : natOfDigitVals (natDigits M) = M := natOfDigitVals_natDigits M
  obtain ⟨z, hdecomp, hval, hlen⟩ := stripTrail_val (natDigits M)
  set S := stripTrailZeros (natDigits M) with hSdef
  have hSne : S ≠ [] := stripTrail_ne_nil _ (by rw [hDval]; exact hM0)
  have hSlt : ∀ d ∈ S, d < 10 :=
    fun d hd => natDigits_digit_lt M d (stripTrail_subset _ d hd)
  have hSval : natOfDigitVals S * 10 ^ z = M := by rw [← hval, hDval]
  have hDlen : (natDigits M).length = 8 := natDigits_length M 7 hM1 hM2
  have hSlen : S.length + z = 8 := by omega
  by_cases hcond : -4 ≤ E ∧ E < 8
  · obtain ⟨⟨d, r, hform, hd10, hhex⟩, hparse⟩ :=
      parse_formatFixed S E M z hSlt hSne hSval hSlen hcond.1 hcond.2
    by_cases hqneg : q < 0
    · have hstr : (defaultFormat8 q).data = '-' :: formatFixed S E := by
        simp only [defaultFormat8, if_neg h0, if_pos hqneg]
        rw [← hMdef, ← hEdef, ← hSdef, if_pos hcond]
      rw [hstr, hform, lexFloat_neg_digit_lead d hd10 r (hhex true), ← hform,
        hparse true, round8_neg q hqneg, ← hMdef, ← hEdef]
      norm_num
    · have hqpos : 0 < q := lt_of_le_of_ne (not_lt.mp hqneg) (Ne.symm h0)
      have hsig : sig8 q = sig8 |q| := by rw [abs_of_pos hqpos]
      have hstr : (defaultFormat8 q).data = formatFixed S E := by
        simp only [defaultFormat8, if_neg h0, if_neg hqneg]
        rw [← hMdef, ← hEdef, ← hSdef, if_pos hcond]
      rw [hstr, hform, lexFloat_digit_lead d hd10 r (hhex false), ← hform,
        hparse false, round8_pos q hqpos, hsig, ← hMdef, ← hEdef]
      norm_num
  · obtain ⟨⟨d, r, hform, hd10, hhex⟩, hparse⟩ :=
      parse_formatSci S E M z hSlt hSne hSval hSlen
    by_cases hqneg : q < 0
    · have hstr : (defaultFormat8 q).data = '-' :: formatSci S E := by
        simp only [defaultFormat8, if_neg h0, if_pos hqneg]
        rw [← hMdef, ← hEdef, ← hSdef, if_neg hcond]
      rw [hstr, hform, lexFloat_neg_digit_lead d hd10 r (hhex true), ← hform,
        hparse true, round8_neg q hqneg, ← hMdef, ← hEdef]
      norm_num
    · have hqpos : 0 < q := lt_of_le_of_ne (not_lt.mp hqneg) (Ne.symm h0)
      have hsig : sig8 q = sig8 |q| := by rw [abs_of_pos hqpos]
      have hstr : (defaultFormat8 q).data = formatSci S E := by
        simp only [defaultFormat8, if_neg h0, if_neg hqneg]
        rw [← hMdef, ← hEdef, ← hSdef, if_neg hcond]
      rw [hstr, hform, lexFloat_digit_lead d hd10 r (hhex false), ← hform,
        hparse false, round8_pos q hqpos, hsig, ← hMdef, ← hEdef]
      norm_num

/-- `std::stod` applied to the default-notation rendering of a nonzero
rational returns its 8-significant-digit rounding exactly, whenever that
rounding lies in the parser's accepted finite range. -/
theorem stodModel_defaultFormat8 (q : ℚ) (h0 : q ≠ 0)
    (hlo : minNormalDouble ≤ gridRound 52 (-1022) |round8 q|)
    (hhi : |round8 q| < doubleOverflowBound) :
    stodModel (defaultFormat8 q) = .ok (.fin (round8 q)) := by
  simp only [stodModel, lexFloat_defaultFormat8 q h0]
  rw [if_neg (not_le.mpr hhi), if_neg (fun h => absurd h.2 (not_lt.mpr hlo))]

/-- C5: `CastToString` on a floating source renders NaN as "NaN", positive
infinity as "INF" and negative infinity as "-INF" (the code reaches the
"-INF" branch via `input < numeric_limits::lowest()` inside the `isinf`
test; a finite value of the type is never below `lowest()`, so the claim's
"finite value less than the minimum" clause describes no input beyond
negative infinity itself); every other finite nonzero value streams as the
precision-8 default rendering, a decimal string denoting exactly the
8-significant-digit rounding `round8 q` — its significand `(sig8 |q|).1` has
exactly 8 significant decimal digits and deviates from the value by at most
half a unit in the 8th digit; zero renders as "0". -/
theorem floating_to_string_rule (q : ℚ) (h0 : q ≠ 0) :
    castToStringFloating .nan = "NaN" ∧
    castToStringFloating .inf = "INF" ∧
    castToStringFloating .ninf = "-INF" ∧
    castToStringFloating (.fin 0) = "0" ∧
    castToStringFloating (.fin q) = defaultFormat8 q ∧
    lexFloat (defaultFormat8 q).data = some (.fin (round8 q)) ∧
    10 ^ 7 ≤ (sig8 |q|).1 ∧ (sig8 |q|).1 < 10 ^ 8 ∧
    |round8 q - q| ≤ 1 / 2 * (10 : ℚ) ^ (floorLogQ 10 |q| - 7) := by
  obtain ⟨h1, h2, _⟩ := sig8_main |q| (abs_pos.mpr h0)
  have hz : castToStringFloating (.fin 0) = "0" := by
    simp [castToStringFloating, defaultFormat8]
  exact ⟨rfl, rfl, rfl, hz, rfl, lexFloat_defaultFormat8 q h0, h1, h2,
    round8_dev q h0⟩

/-- Witness for C5: the special NaN rendering, obtained from the rule applied
at the nonzero finite value 3/2. -/
theorem floating_to_string_rule_witness :
    castToStringFloating FP.nan = "NaN" :=
  (floating_to_string_rule (3 / 2) (by norm_num)).1

/-- Mapping over an `Except` succeeds exactly when the underlying value
does. -/
theorem exists_ok_map {α β : Type} (x : Except CastError α) (f : α → β) :
    (∃ v, x.map f = .ok v) ↔ ∃ w, x = .ok w := by
  cases x <;> simp [Except.map]

/-- `stoll` succeeds exactly on text that lexes to an integer within the
`long long` range. -/
theorem stollModel_ok_iff (s : String) :
    (∃ v, stollModel s = .ok v) ↔
      ∃ p, lexInteger s.data = some p ∧
        -(2 ^ 63) ≤ (if p.1 then -1 else 1) * (natOfDigits p.2 : ℤ) ∧
        (if p.1 then -1 else 1) * (natOfDigits p.2 : ℤ) ≤ 2 ^ 63 - 1 := by
  cases h : lexInteger s.data with
  | none =>
    have hred : stollModel s = .error .invalidArgument := by
      unfold stollModel
      rw [h]
    simp [hred]
  | some p =>
    obtain ⟨neg, ds⟩ := p
    have hred := stollModel_of_lex s neg ds h
    constructor
    · rintro ⟨v, hv⟩
      rw [hred] at hv
      by_cases hc : ((if neg then -1 else 1) * (natOfDigits ds : ℤ) < -(2 ^ 63) ∨
          2 ^ 63 - 1 < (if neg then -1 else 1) * (natOfDigits ds : ℤ))
      · rw [if_pos hc] at hv
        exact absurd hv (by simp)
      · push_neg at hc
        exact ⟨(neg, ds), rfl, hc.1, hc.2⟩
    · rintro ⟨p', hp, h1, h2⟩
      injection hp with hp
      subst hp
      rw [hred, if_neg (by push_neg; exact ⟨h1, h2⟩)]
      exact ⟨_, rfl⟩

/-- `stoull` succeeds exactly on text that lexes to an integer whose digit
value fits `unsigned long long`. -/
theorem stoullModel_ok_iff (s : String) :
    (∃ v, stoullModel s = .ok v) ↔
      ∃ p, lexInteger s.data = some p ∧ natOfDigits p.2 ≤ 2 ^ 64 - 1 := by
  cases h : lexInteger s.data with
  | none =>
    have hred : stoullModel s = .error .invalidArgument := by
      unfold stoullModel
      rw [h]
    simp [hred]
  | some p =>
    obtain ⟨neg, ds⟩ := p
    have hred := stoullModel_of_lex s neg ds h
    constructor
    · rintro ⟨v, hv⟩
      rw [hred] at hv
      by_cases hc : 2 ^ 64 - 1 < natOfDigits ds
      · rw [if_pos hc] at hv
        exact absurd hv (by simp)
      · exact ⟨(neg, ds), rfl, not_lt.mp hc⟩
    · rintro ⟨p', hp, h1⟩
      injection hp with hp
      subst hp
      rw [hred, if_neg (not_lt.mpr h1)]
      exact ⟨_, rfl⟩

/-- `stod` succeeds exactly on text that lexes to a floating literal whose
finite value neither overflows the double range nor (when nonzero) underflows
the normal range. -/
theorem stodModel_ok_iff (s : String) :
    (∃ v, stodModel s = .ok v) ↔
      ∃ v, lexFloat s.data = some v ∧
        ∀ q, v = .fin q →
          |q| < doubleOverflowBound ∧
            (q ≠ 0 → minNormalDouble ≤ gridRound 52 (-1022) |q|) := by
  cases h : lexFloat s.data with
  | none =>
    have hred : stodModel s = .error .invalidArgument := by
      unfold stodModel
      rw [h]
    simp [hred]
  | some v =>
    cases v with
    | fin q =>
      have hred : stodModel s =
          (if doubleOverflowBound ≤ |q| then .error .outOfRange
           else if q ≠ 0 ∧ gridRound 52 (-1022) |q| < minNormalDouble then
             .error .outOfRange
           else .ok (.fin q)) := by
        unfold stodModel
        rw [h]
      constructor
      · rintro ⟨w, hw⟩
        rw [hred] at hw
        by_cases hc1 : doubleOverflowBound ≤ |q|
        · rw [if_pos hc1] at hw
          exact absurd hw (by simp)
        · by_cases hc2 : q ≠ 0 ∧ gridRound 52 (-1022) |q| < minNormalDouble
          · rw [if_neg hc1, if_pos hc2] at hw
            exact absurd hw (by simp)
          · refine ⟨.fin q, rfl, ?_⟩
            rintro q' hq'
            injection hq' with hq'
            subst hq'
            refine ⟨not_le.mp hc1, fun hq0 => ?_⟩
            by_contra hun
            exact hc2 ⟨hq0, not_le.mp hun⟩
      · rintro ⟨v', hv, hrange⟩
        injection hv with hv
        subst hv
        obtain ⟨ho, hu⟩ := hrange q rfl
        rw [hred, if_neg (not_le.mpr ho),
          if_neg (fun hc => absurd (hu hc.1) (not_le.mpr hc.2))]
        exact ⟨_, rfl⟩
    | nan =>
      have hred : stodModel s = .ok .nan := by
        unfold stodModel
        rw [h]
      exact ⟨fun _ => ⟨.nan, rfl, by rintro q ⟨⟩⟩, fun _ => ⟨_, hred⟩⟩
    | inf =>
      have hred : stodModel s = .ok .inf := by
        unfold stodModel
        rw [h]
      exact ⟨fun _ => ⟨.inf, rfl, by rintro q ⟨⟩⟩, fun _ => ⟨_, hred⟩⟩
    | ninf =>
      have hred : stodModel s = .ok .ninf := by
        unfold stodModel
        rw [h]
      exact ⟨fun _ => ⟨.ninf, rfl, by rintro q ⟨⟩⟩, fun _ => ⟨_, hred⟩⟩

/-- Element-level half of C4: `CastFromString` succeeds exactly on
well-formed text for the numeric destination kind. -/
theorem castFromString_ok_iff (d : ElementKind) (hd : d ≠ ElementKind.string)
    (s : String) :
    (∃ v, castFromString d s = .ok v) ↔ WellFormedNumericText d s := by
  cases d
  case string => exact absurd rfl hd
  all_goals
    first
      | exact (exists_ok_map (stollModel s) _).trans (stollModel_ok_iff s)
      | exact (exists_ok_map (stoullModel s) _).trans (stoullModel_ok_iff s)
      | exact (exists_ok_map (stodModel s) _).trans (stodModel_ok_iff s)

/-- A monadic map over `Except` succeeds exactly when every element
converts. -/
theorem mapM_ok_iff {α β : Type} (f : α → Except CastError β) (xs : List α) :
    (∃ ys, xs.mapM f = .ok ys) ↔ ∀ x ∈ xs, ∃ y, f x = .ok y := by
  induction xs with
  | nil => simp [List.mapM_nil]; exact ⟨[], rfl⟩
  | cons a as ih =>
    rw [List.mapM_cons]
    constructor
    · rintro ⟨ys, hys⟩
      cases hfa : f a with
      | error e =>
        rw [hfa] at hys
        exact absurd hys (by simp [Bind.bind, Except.bind])
      | ok y =>
        rw [hfa] at hys
        cases hmas : as.mapM f with
        | error e =>
          rw [hmas] at hys
          exact absurd hys (by simp [Bind.bind, Except.bind])
        | ok zs =>
          intro x hx
          rcases List.mem_cons.mp hx with rfl | hx
          exacts [⟨y, hfa⟩, (ih.mp ⟨zs, hmas⟩) x hx]
    · intro h
      obtain ⟨y, hy⟩ := h a (by simp)
      obtain ⟨zs, hzs⟩ := ih.mpr (fun x hx => h x (List.mem_cons_of_mem a hx))
      exact ⟨y :: zs, by rw [hy, hzs]; rfl⟩

/-- A monadic map over `Except` fails exactly with an error some element
produces. -/
theorem mapM_error_imp {α β : Type} (f : α → Except CastError β) (xs : List α)
    (e : CastError) (h : xs.mapM f = .error e) :
    ∃ x ∈ xs, f x = .error e := by
  induction xs with
  | nil =>
    have h2 : (Except.ok [] : Except CastError (List β)) = .error e := h
    exact absurd h2 (by simp)
  | cons a as ih =>
    rw [List.mapM_cons] at h
    cases hfa : f a with
    | error e' =>
      rw [hfa] at h
      have h2 : (Except.error e' : Except CastError (List β)) = .error e := h
      have he : e' = e := by injection h2
      exact ⟨a, by simp, by rw [hfa, he]⟩
    | ok y =>
      rw [hfa] at h
      cases hmas : as.mapM f with
      | error e' =>
        rw [hmas] at h
        have h2 : (Except.error e' : Except CastError (List β)) = .error e := h
        have he : e' = e := by injection h2
        obtain ⟨x, hx, hfx⟩ := ih (by rw [hmas, he])
        exact ⟨x, List.mem_cons_of_mem a hx, hfx⟩
      | ok zs =>
        rw [hmas] at h
        have h2 : (Except.ok (y :: zs) : Except CastError (List β)) = .error e := h
        exact absurd h2 (by simp)

/-- C4: text-to-numeric conversion fails exactly on malformed text, and the
error propagates.  For a numeric destination kind, `CastFromString` succeeds
on a text if and only if the text is well-formed for that kind (it lexes
under the relevant widest parser's grammar to a value in that parser's
range); for a nonempty string-kind tensor dispatched to the destination, the
whole invocation succeeds iff every element's text is well-formed, any parse
error surfaces as the result of `Cast::Compute` unchanged (propagated, never
swallowed), and a surfaced error is the error of some failing element. -/
theorem parse_error_iff_malformed (d : ElementKind) (hd : d ≠ ElementKind.string)
    (X : TensorModel) (hk : X.kind = ElementKind.string) (hsz : X.size ≠ 0) :
    (∀ s : String, (∃ v, castFromString d s = .ok v) ↔ WellFormedNumericText d s) ∧
    ((∃ R, computeCast d X = .ok R) ↔
      ∀ v ∈ X.data, WellFormedNumericText d (strVal v)) ∧
    (∀ e, computeCast d X = .error e ↔
      castTensorFromString d X.data = .error e) ∧
    (∀ e, castTensorFromString d X.data = .error e →
      ∃ v ∈ X.data, castFromString d (strVal v) = .error e) := by
  have hne2 : ¬(X.kind = d) := by
    rw [hk]
    exact fun h => hd h.symm
  have hdisp : srcDispatcher ElementKind.string d = .ok (ElementKind.string, d) := by
    cases d
    case string => exact absurd rfl hd
    all_goals decide
  have hcompute : computeCast d X =
      (castTensorFromString d X.data).map
        (fun ys => (⟨d, X.shape, ys⟩, ComputePath.dispatched ElementKind.string d)) := by
    have h1 : computeCast d X =
        (castTensorFromString d X.data).bind
          (fun ys =>
            .ok (⟨d, X.shape, ys⟩, ComputePath.dispatched ElementKind.string d)) := by
      unfold computeCast
      rw [if_neg hsz, if_neg hne2, hk, hdisp]
      rfl
    rw [h1]
    cases castTensorFromString d X.data <;> rfl
  refine ⟨castFromString_ok_iff d hd, ?_, ?_, ?_⟩
  · rw [hcompute]
    constructor
    · rintro ⟨R, hR⟩
      have hok : ∃ ys, castTensorFromString d X.data = .ok ys := by
        cases hres : castTensorFromString d X.data with
        | error e =>
          rw [hres] at hR
          exact absurd hR (by simp [Except.map])
        | ok ys => exact ⟨ys, rfl⟩
      have h2 := (mapM_ok_iff (fun v => castFromString d (strVal v)) X.data).mp hok
      intro v hv
      exact (castFromString_ok_iff d hd (strVal v)).mp (h2 v hv)
    · intro hwf
      have h2 : ∀ v ∈ X.data, ∃ y, castFromString d (strVal v) = .ok y :=
        fun v hv => (castFromString_ok_iff d hd (strVal v)).mpr (hwf v hv)
      obtain ⟨ys, hys⟩ :=
        (mapM_ok_iff (fun v => castFromString d (strVal v)) X.data).mpr h2
      refine ⟨(⟨d, X.shape, ys⟩, ComputePath.dispatched ElementKind.string d), ?_⟩
      rw [show castTensorFromString d X.data = .ok ys from hys]
      rfl
  · intro e
    rw [hcompute]
    cases castTensorFromString d X.data <;> simp [Except.map]
  · intro e he
    exact mapM_error_imp (fun v => castFromString d (strVal v)) X.data e he

/-- Witness for C4: the element-level equivalence instantiated at the int32
destination and a concrete text. -/
theorem parse_error_iff_malformed_witness :
    (∃ v, castFromString ElementKind.int32 "12" = .ok v) ↔
      WellFormedNumericText ElementKind.int32 "12" :=
  (parse_error_iff_malformed .int32 (by decide)
    ⟨ElementKind.string, [1], [.s "12"]⟩ rfl (by decide)).1 "12"

/-- Casting a natural power of two through ℚ. -/
theorem two_zpow_natCast (n : ℕ) : (2 : ℚ) ^ (n : ℤ) = ((2 ^ n : ℕ) : ℚ) := by
  rw [zpow_natCast]
  norm_cast

/-- A natural-successor exponent as an integer exponent. -/
theorem zpow_natCast_succ (x : ℚ) (n : ℕ) :
    x ^ ((n : ℤ) + 1) = x ^ (n + 1 : ℕ) := by
  rw [show ((n : ℤ) + 1) = ((n + 1 : ℕ) : ℤ) by push_cast; ring, zpow_natCast]

/-- Grid rounding moves a value by at most half a grid step. -/
theorem gridRound_err (mbits : ℕ) (emin : ℤ) (x : ℚ) :
    |gridRound mbits emin x - x| ≤
      1 / 2 * (2 : ℚ) ^ (fmtExp emin x - (mbits : ℤ)) := by
  have h2 : (0 : ℚ) < (2 : ℚ) ^ (fmtExp emin x - (mbits : ℤ)) :=
    zpow_pos (by norm_num) _
  have herr := roundHE_err (x / (2 : ℚ) ^ (fmtExp emin x - (mbits : ℤ)))
  have heq : gridRound mbits emin x - x =
      ((roundHE (x / (2 : ℚ) ^ (fmtExp emin x - (mbits : ℤ))) : ℚ) -
        x / (2 : ℚ) ^ (fmtExp emin x - (mbits : ℤ))) *
        (2 : ℚ) ^ (fmtExp emin x - (mbits : ℤ)) := by
    unfold gridRound
    rw [sub_mul, div_mul_cancel₀ _ (ne_of_gt h2)]
  rw [heq, abs_mul, abs_of_pos h2]
  exact mul_le_mul_of_nonneg_right herr (le_of_lt h2)

/-- In the normal range the grid is placed at the floor logarithm, which is
below the value. -/
theorem zpow_fmtExp_le (emin : ℤ) (x : ℚ) (hx : 0 < x)
    (hfl : emin ≤ floorLogQ 2 x) : (2 : ℚ) ^ fmtExp emin x ≤ x := by
  unfold fmtExp
  rw [max_eq_left hfl]
  exact (floorLogQ_correct 2 x (by norm_num) hx).1

/-- Relative error of grid rounding in the normal range. -/
theorem gridRound_err_rel (mbits : ℕ) (emin : ℤ) (x : ℚ) (hx : 0 < x)
    (hfl : emin ≤ floorLogQ 2 x) :
    |gridRound mbits emin x - x| ≤ x * (1 / 2 * (2 : ℚ) ^ (-(mbits : ℤ))) := by
  refine le_trans (gridRound_err mbits emin x) ?_
  have hsplit : (2 : ℚ) ^ (fmtExp emin x - (mbits : ℤ)) =
      (2 : ℚ) ^ fmtExp emin x * (2 : ℚ) ^ (-(mbits : ℤ)) := by
    rw [← zpow_add₀ (by norm_num : (2 : ℚ) ≠ 0), sub_eq_add_neg]
  rw [hsplit]
  have h1 := zpow_fmtExp_le emin x hx hfl
  have h2 : (0 : ℚ) < (2 : ℚ) ^ (-(mbits : ℤ)) := zpow_pos (by norm_num) _
  calc 1 / 2 * ((2 : ℚ) ^ fmtExp emin x * (2 : ℚ) ^ (-(mbits : ℤ)))
      ≤ 1 / 2 * (x * (2 : ℚ) ^ (-(mbits : ℤ))) := by
        apply mul_le_mul_of_nonneg_left _ (by norm_num)
        exact mul_le_mul_of_nonneg_right h1 (le_of_lt h2)
    _ = x * (1 / 2 * (2 : ℚ) ^ (-(mbits : ℤ))) := by ring

/-- When the chosen grid scale is the target's scale and the input is within
half a step of the target grid value, rounding lands on it. -/
theorem gridRound_near_at_scale (mbits : ℕ) (emin : ℤ) (m : ℕ) (t : ℤ) (x : ℚ)
    (hfmt : fmtExp emin x - (mbits : ℤ) = t)
    (hx : |x - (m : ℚ) * (2 : ℚ) ^ t| < 1 / 2 * (2 : ℚ) ^ t) :
    gridRound mbits emin x = (m : ℚ) * (2 : ℚ) ^ t := by
  have h2t : (0 : ℚ) < (2 : ℚ) ^ t := zpow_pos (by norm_num) _
  have hnear : |x / (2 : ℚ) ^ t - ((m : ℤ) : ℚ)| < 1 / 2 := by
    have heq : x / (2 : ℚ) ^ t - ((m : ℤ) : ℚ) =
        (x - (m : ℚ) * (2 : ℚ) ^ t) / (2 : ℚ) ^ t := by
      push_cast
      field_simp
      ring
    rw [heq, abs_div, abs_of_pos h2t, div_lt_iff₀ h2t]
    exact hx
  unfold gridRound
  rw [hfmt, roundHE_eq_of_near _ (m : ℤ) hnear]
  push_cast
  ring

/-- Grid rounding returns a grid value of the format whenever the input lies
strictly within a quarter grid step of it (a value below the normal-range
mantissa threshold only on the bottom, subnormal scale). -/
theorem gridRound_near (mbits : ℕ) (emin : ℤ) (m : ℕ) (t : ℤ) (x : ℚ)
    (hmb : 1 ≤ mbits)
    (hm0 : 0 < m) (hm1 : m < 2 ^ (mbits + 1)) (ht : emin - (mbits : ℤ) ≤ t)
    (hnorm : m < 2 ^ mbits → t = emin - (mbits : ℤ))
    (hx : |x - (m : ℚ) * (2 : ℚ) ^ t| < 1 / 4 * (2 : ℚ) ^ t) :
    gridRound mbits emin x = (m : ℚ) * (2 : ℚ) ^ t := by
  have h2ne : (2 : ℚ) ≠ 0 := by norm_num
  have h2t : (0 : ℚ) < (2 : ℚ) ^ t := zpow_pos (by norm_num) _
  have hmQ : (1 : ℚ) ≤ (m : ℚ) := by exact_mod_cast hm0
  have hm1Q : (m : ℚ) + 1 ≤ (2 : ℚ) ^ ((mbits : ℤ) + 1) := by
    rw [zpow_natCast_succ]
    exact_mod_cast hm1
  have hxlt := abs_lt.mp hx
  have hglb : (2 : ℚ) ^ t ≤ (m : ℚ) * (2 : ℚ) ^ t := by
    nth_rewrite 1 [← one_mul ((2 : ℚ) ^ t)]
    exact mul_le_mul_of_nonneg_right hmQ (le_of_lt h2t)
  have hx0 : 0 < x := by linarith
  have hhalf : |x - (m : ℚ) * (2 : ℚ) ^ t| < 1 / 2 * (2 : ℚ) ^ t := by
    have := abs_lt.mpr hxlt
    linarith [abs_nonneg (x - (m : ℚ) * (2 : ℚ) ^ t)]
  have hxub : x < ((m : ℚ) + 1 / 4) * (2 : ℚ) ^ t := by
    have := hxlt.2
    nlinarith [h2t]
  have hxlb : ((m : ℚ) - 1 / 4) * (2 : ℚ) ^ t < x := by
    have := hxlt.1
    nlinarith [h2t]
  by_cases hcase : 2 ^ mbits ≤ m
  · -- normal: the target has a full mantissa
    have hmlow : (2 : ℚ) ^ (mbits : ℤ) ≤ (m : ℚ) := by
      rw [two_zpow_natCast]
      exact_mod_cast hcase
    have hxub2 : x < (2 : ℚ) ^ (t + (mbits : ℤ) + 1) := by
      have h1 : ((m : ℚ) + 1 / 4) * (2 : ℚ) ^ t ≤
          (2 : ℚ) ^ ((mbits : ℤ) + 1) * (2 : ℚ) ^ t := by
        apply mul_le_mul_of_nonneg_right (by linarith) (le_of_lt h2t)
      have h2 : (2 : ℚ) ^ ((mbits : ℤ) + 1) * (2 : ℚ) ^ t =
          (2 : ℚ) ^ (t + (mbits : ℤ) + 1) := by
        rw [← zpow_add₀ h2ne]
        congr 1
        ring
      linarith
    by_cases hge : (2 : ℚ) ^ (t + (mbits : ℤ)) ≤ x
    · have hfl : floorLogQ 2 x = t + (mbits : ℤ) :=
        floorLogQ_eq_of 2 x (t + (mbits : ℤ)) (by norm_num) hx0 hge hxub2
      have hfmt : fmtExp emin x - (mbits : ℤ) = t := by
        unfold fmtExp
        rw [hfl, max_eq_left (by omega)]
        ring
      exact gridRound_near_at_scale mbits emin m t x hfmt hhalf
    · push_neg at hge
      have hm_eq : m = 2 ^ mbits := by
        by_contra hne
        have hm2 : 2 ^ mbits + 1 ≤ m := by omega
        have hm2Q : (2 : ℚ) ^ (mbits : ℤ) + 1 ≤ (m : ℚ) := by
          rw [two_zpow_natCast]
          exact_mod_cast hm2
        have h1 : (2 : ℚ) ^ (t + (mbits : ℤ)) =
            (2 : ℚ) ^ (mbits : ℤ) * (2 : ℚ) ^ t := by
          rw [← zpow_add₀ h2ne]
          congr 1
          ring
        have h2 : (2 : ℚ) ^ (mbits : ℤ) * (2 : ℚ) ^ t <
            ((m : ℚ) - 1 / 4) * (2 : ℚ) ^ t := by
          apply mul_lt_mul_of_pos_right (by linarith) h2t
        linarith
      have hmQpow : (m : ℚ) = (2 : ℚ) ^ (mbits : ℤ) := by
        rw [two_zpow_natCast]
        exact_mod_cast hm_eq
      have hgQ : (m : ℚ) * (2 : ℚ) ^ t = (2 : ℚ) ^ (t + (mbits : ℤ)) := by
        rw [hmQpow, ← zpow_add₀ h2ne]
        congr 1
        ring
      have hxlb2 : (2 : ℚ) ^ (t + (mbits : ℤ) - 1) ≤ x := by
        have h1 : (2 : ℚ) ^ (t + (mbits : ℤ) - 1) =
            (2 : ℚ) ^ ((mbits : ℤ) - 1) * (2 : ℚ) ^ t := by
          rw [← zpow_add₀ h2ne]
          congr 1
          ring
        have h2 : (2 : ℚ) ^ ((mbits : ℤ) - 1) ≤ (m : ℚ) - 1 / 4 := by
          have h3 : (2 : ℚ) ^ ((mbits : ℤ) - 1) + 1 / 4 ≤ (2 : ℚ) ^ (mbits : ℤ) := by
            have h4 : (2 : ℚ) ^ (mbits : ℤ) =
                2 * (2 : ℚ) ^ ((mbits : ℤ) - 1) := by
              rw [show (mbits : ℤ) = 1 + ((mbits : ℤ) - 1) by ring,
                zpow_add₀ h2ne]
              norm_num
            have h5 : (1 : ℚ) ≤ (2 : ℚ) ^ ((mbits : ℤ) - 1) :=
              one_le_zpow₀ (by norm_num) (by omega)
            linarith
          linarith [hmQpow ▸ h3]
        have h6 : (2 : ℚ) ^ ((mbits : ℤ) - 1) * (2 : ℚ) ^ t ≤
            ((m : ℚ) - 1 / 4) * (2 : ℚ) ^ t :=
          mul_le_mul_of_nonneg_right h2 (le_of_lt h2t)
        linarith
      have hfl : floorLogQ 2 x = t + (mbits : ℤ) - 1 := by
        refine floorLogQ_eq_of 2 x (t + (mbits : ℤ) - 1) (by norm_num) hx0 hxlb2 ?_
        rw [show t + (mbits : ℤ) - 1 + 1 = t + (mbits : ℤ) by ring]
        exact hge
      by_cases hclamp : emin ≤ t + (mbits : ℤ) - 1
      · have hfmt : fmtExp emin x - (mbits : ℤ) = t - 1 := by
          unfold fmtExp
          rw [hfl, max_eq_left hclamp]
          ring
        have hconv : ((2 ^ (mbits + 1) : ℕ) : ℚ) * (2 : ℚ) ^ (t - 1) =
            (m : ℚ) * (2 : ℚ) ^ t := by
          rw [← two_zpow_natCast (mbits + 1), hmQpow,
            ← zpow_add₀ h2ne, ← zpow_add₀ h2ne]
          congr 1
          push_cast
          ring
        have hnear2 : |x - ((2 ^ (mbits + 1) : ℕ) : ℚ) * (2 : ℚ) ^ (t - 1)| <
            1 / 2 * (2 : ℚ) ^ (t - 1) := by
          rw [hconv]
          have h1 : (2 : ℚ) ^ t = 2 * (2 : ℚ) ^ (t - 1) := by
            rw [show t = 1 + (t - 1) by ring, zpow_add₀ h2ne]
            norm_num
          have h2 : (0 : ℚ) < (2 : ℚ) ^ (t - 1) := zpow_pos (by norm_num) _
          calc |x - (m : ℚ) * (2 : ℚ) ^ t| < 1 / 4 * (2 : ℚ) ^ t := hx
            _ = 1 / 2 * (2 : ℚ) ^ (t - 1) := by
              rw [h1]
              ring
        have := gridRound_near_at_scale mbits emin (2 ^ (mbits + 1)) (t - 1) x
          hfmt hnear2
        rw [this, hconv]
      · push_neg at hclamp
        have heq : emin = t + (mbits : ℤ) := by omega
        have hfmt : fmtExp emin x - (mbits : ℤ) = t := by
          unfold fmtExp
          rw [hfl, max_eq_right (by omega)]
          omega
        exact gridRound_near_at_scale mbits emin m t x hfmt hhalf
  · -- subnormal: the target sits on the bottom scale
    push_neg at hcase
    have htt := hnorm hcase
    have hmhiQ : (m : ℚ) ≤ (2 : ℚ) ^ (mbits : ℤ) - 1 := by
      rw [two_zpow_natCast]
      have h1 : m ≤ 2 ^ mbits - 1 := by omega
      have h2 : (1 : ℕ) ≤ 2 ^ mbits := Nat.one_le_two_pow
      push_cast [Nat.cast_sub h2] at *
      exact_mod_cast h1
    have hxub2 : x < (2 : ℚ) ^ emin := by
      have h1 : ((m : ℚ) + 1 / 4) * (2 : ℚ) ^ t ≤
          ((2 : ℚ) ^ (mbits : ℤ) - 3 / 4) * (2 : ℚ) ^ t := by
        apply mul_le_mul_of_nonneg_right (by linarith) (le_of_lt h2t)
      have h2 : ((2 : ℚ) ^ (mbits : ℤ) - 3 / 4) * (2 : ℚ) ^ t <
          (2 : ℚ) ^ (mbits : ℤ) * (2 : ℚ) ^ t := by
        apply mul_lt_mul_of_pos_right (by norm_num) h2t
      have h3 : (2 : ℚ) ^ (mbits : ℤ) * (2 : ℚ) ^ t = (2 : ℚ) ^ emin := by
        rw [← zpow_add₀ h2ne]
        congr 1
        omega
      linarith
    have hfl : floorLogQ 2 x ≤ emin - 1 := by
      refine floorLogQ_le 2 x (emin - 1) (by norm_num) hx0 ?_
      rw [show emin - 1 + 1 = emin by ring]
      exact hxub2
    have hfmt : fmtExp emin x - (mbits : ℤ) = t := by
      unfold fmtExp
      rw [max_eq_right (by omega)]
      omega
    exact gridRound_near_at_scale mbits emin m t x hfmt hhalf

/-- The decoded magnitude of a finite nonzero `MLFloat16` bit pattern is a
grid value of the binary16 format within its finite range. -/
theorem halfToFloat_decomp (h : Fin 65536) (q : ℚ)
    (hdec : halfToFloat h = .fin q) (hq0 : q ≠ 0) :
    ∃ m : ℕ, ∃ t : ℤ,
      0 < m ∧ m < 2 ^ (10 + 1) ∧ (-14 : ℤ) - 10 ≤ t ∧
      (m < 2 ^ 10 → t = (-14 : ℤ) - 10) ∧
      |q| = (m : ℚ) * (2 : ℚ) ^ t ∧
      (m : ℚ) * (2 : ℚ) ^ t ≤ fmtMax 10 15 := by
  have hmlt : h.val % 1024 < 1024 := Nat.mod_lt _ (by norm_num)
  have helt : h.val / 1024 % 32 < 32 := Nat.mod_lt _ (by norm_num)
  simp only [halfToFloat] at hdec
  by_cases h31 : h.val / 1024 % 32 = 31
  · rw [if_pos h31] at hdec
    by_cases hm0 : h.val % 1024 = 0
    · rw [if_pos hm0] at hdec
      by_cases hs : h.val / 32768 = 1 <;> simp [hs] at hdec
    · rw [if_neg hm0] at hdec
      exact FP.noConfusion hdec
  · rw [if_neg h31] at hdec
    by_cases he0 : h.val / 1024 % 32 = 0
    · rw [if_pos he0] at hdec
      have hq : q = (if h.val / 32768 = 1
          then -(((h.val % 1024 : ℕ) : ℚ) * (2 : ℚ) ^ (-24 : ℤ))
          else ((h.val % 1024 : ℕ) : ℚ) * (2 : ℚ) ^ (-24 : ℤ)) := by
        injection hdec with h2
        exact h2.symm
      have hmm0 : h.val % 1024 ≠ 0 := by
        intro hz
        apply hq0
        rw [hq, hz]
        split <;> norm_num
      have hmagpos : (0 : ℚ) < ((h.val % 1024 : ℕ) : ℚ) * (2 : ℚ) ^ (-24 : ℤ) := by
        have hp : (0 : ℚ) < ((h.val % 1024 : ℕ) : ℚ) :=
          Nat.cast_pos.mpr (Nat.pos_of_ne_zero hmm0)
        positivity
      refine ⟨h.val % 1024, -24, Nat.pos_of_ne_zero hmm0,
        lt_trans hmlt (by norm_num), by norm_num, fun _ => by norm_num, ?_, ?_⟩
      · rw [hq]
        split
        · rw [abs_neg, abs_of_pos hmagpos]
        · rw [abs_of_pos hmagpos]
      · have hb : ((h.val % 1024 : ℕ) : ℚ) ≤ 1024 := by exact_mod_cast hmlt.le
        calc ((h.val % 1024 : ℕ) : ℚ) * (2 : ℚ) ^ (-24 : ℤ)
            ≤ 1024 * (2 : ℚ) ^ (-24 : ℤ) :=
              mul_le_mul_of_nonneg_right hb (by positivity)
          _ ≤ fmtMax 10 15 := by norm_num [fmtMax]
    · rw [if_neg he0] at hdec
      have hq : q = (if h.val / 32768 = 1
          then -(((1024 + h.val % 1024 : ℕ) : ℚ) *
            (2 : ℚ) ^ (((h.val / 1024 % 32 : ℕ) : ℤ) - 25))
          else ((1024 + h.val % 1024 : ℕ) : ℚ) *
            (2 : ℚ) ^ (((h.val / 1024 % 32 : ℕ) : ℤ) - 25)) := by
        injection hdec with h2
        exact h2.symm
      have hmagpos : (0 : ℚ) < ((1024 + h.val % 1024 : ℕ) : ℚ) *
          (2 : ℚ) ^ (((h.val / 1024 % 32 : ℕ) : ℤ) - 25) := by
        have hp : (0 : ℚ) < ((1024 + h.val % 1024 : ℕ) : ℚ) :=
          Nat.cast_pos.mpr (by omega)
        positivity
      have heZ : 1 ≤ ((h.val / 1024 % 32 : ℕ) : ℤ) := by
        exact_mod_cast Nat.pos_of_ne_zero he0
      have heZub : ((h.val / 1024 % 32 : ℕ) : ℤ) ≤ 30 := by
        exact_mod_cast (by omega : h.val / 1024 % 32 ≤ 30)
      refine ⟨1024 + h.val % 1024, ((h.val / 1024 % 32 : ℕ) : ℤ) - 25,
        by omega, by omega, by omega, fun hc => absurd hc (by omega), ?_, ?_⟩
      · rw [hq]
        split
        · rw [abs_neg, abs_of_pos hmagpos]
        · rw [abs_of_pos hmagpos]
      · have hb : ((1024 + h.val % 1024 : ℕ) : ℚ) ≤ 2047 := by
          exact_mod_cast (by omega : 1024 + h.val % 1024 ≤ 2047)
        have hz : (2 : ℚ) ^ (((h.val / 1024 % 32 : ℕ) : ℤ) - 25) ≤ (2 : ℚ) ^ (5 : ℤ) :=
          zpow_le_zpow_right₀ one_le_two (by omega)
        calc ((1024 + h.val % 1024 : ℕ) : ℚ) *
              (2 : ℚ) ^ (((h.val / 1024 % 32 : ℕ) : ℤ) - 25)
            ≤ (2047 : ℚ) * (2 : ℚ) ^ (5 : ℤ) :=
              mul_le_mul hb hz (by positivity) (by norm_num)
          _ ≤ fmtMax 10 15 := by norm_num [fmtMax]

/-- The decoded magnitude of a finite nonzero `BFloat16` bit pattern is a
grid value of the bfloat16 format within its finite range. -/
theorem bfloatToFloat_decomp (h : Fin 65536) (q : ℚ)
    (hdec : bfloatToFloat h = .fin q) (hq0 : q ≠ 0) :
    ∃ m : ℕ, ∃ t : ℤ,
      0 < m ∧ m < 2 ^ (7 + 1) ∧ (-126 : ℤ) - 7 ≤ t ∧
      (m < 2 ^ 7 → t = (-126 : ℤ) - 7) ∧
      |q| = (m : ℚ) * (2 : ℚ) ^ t ∧
      (m : ℚ) * (2 : ℚ) ^ t ≤ fmtMax 7 127 := by
  have hmlt : h.val % 128 < 128 := Nat.mod_lt _ (by norm_num)
  have helt : h.val / 128 % 256 < 256 := Nat.mod_lt _ (by norm_num)
  simp only [bfloatToFloat] at hdec
  by_cases h255 : h.val / 128 % 256 = 255
  · rw [if_pos h255] at hdec
    by_cases hm0 : h.val % 128 = 0
    · rw [if_pos hm0] at hdec
      by_cases hs : h.val / 32768 = 1 <;> simp [hs] at hdec
    · rw [if_neg hm0] at hdec
      exact FP.noConfusion hdec
  · rw [if_neg h255] at hdec
    by_cases he0 : h.val / 128 % 256 = 0
    · rw [if_pos he0] at hdec
      have hq : q = (if h.val / 32768 = 1
          then -(((h.val % 128 : ℕ) : ℚ) * (2 : ℚ) ^ (-133 : ℤ))
          else ((h.val % 128 : ℕ) : ℚ) * (2 : ℚ) ^ (-133 : ℤ)) := by
        injection hdec with h2
        exact h2.symm
      have hmm0 : h.val % 128 ≠ 0 := by
        intro hz
        apply hq0
        rw [hq, hz]
        split <;> norm_num
      have hmagpos : (0 : ℚ) < ((h.val % 128 : ℕ) : ℚ) * (2 : ℚ) ^ (-133 : ℤ) := by
        have hp : (0 : ℚ) < ((h.val % 128 : ℕ) : ℚ) :=
          Nat.cast_pos.mpr (Nat.pos_of_ne_zero hmm0)
        positivity
      refine ⟨h.val % 128, -133, Nat.pos_of_ne_zero hmm0,
        lt_trans hmlt (by norm_num), by norm_num, fun _ => by norm_num, ?_, ?_⟩
      · rw [hq]
        split
        · rw [abs_neg, abs_of_pos hmagpos]
        · rw [abs_of_pos hmagpos]
      · have hb : ((h.val % 128 : ℕ) : ℚ) ≤ 128 := by exact_mod_cast hmlt.le
        calc ((h.val % 128 : ℕ) : ℚ) * (2 : ℚ) ^ (-133 : ℤ)
            ≤ 128 * (2 : ℚ) ^ (-133 : ℤ) :=
              mul_le_mul_of_nonneg_right hb (by positivity)
          _ ≤ fmtMax 7 127 := by norm_num [fmtMax]
    · rw [if_neg he0] at hdec
      have hq : q = (if h.val / 32768 = 1
          then -(((128 + h.val % 128 : ℕ) : ℚ) *
            (2 : ℚ) ^ (((h.val / 128 % 256 : ℕ) : ℤ) - 134))
          else ((128 + h.val % 128 : ℕ) : ℚ) *
            (2 : ℚ) ^ (((h.val / 128 % 256 : ℕ) : ℤ) - 134)) := by
        injection hdec with h2
        exact h2.symm
      have hmagpos : (0 : ℚ) < ((128 + h.val % 128 : ℕ) : ℚ) *
          (2 : ℚ) ^ (((h.val / 128 % 256 : ℕ) : ℤ) - 134) := by
        have hp : (0 : ℚ) < ((128 + h.val % 128 : ℕ) : ℚ) :=
          Nat.cast_pos.mpr (by omega)
        positivity
      have heZ : 1 ≤ ((h.val / 128 % 256 : ℕ) : ℤ) := by
        exact_mod_cast Nat.pos_of_ne_zero he0
      have heZub : ((h.val / 128 % 256 : ℕ) : ℤ) ≤ 254 := by
        exact_mod_cast (by omega : h.val / 128 % 256 ≤ 254)
      refine ⟨128 + h.val % 128, ((h.val / 128 % 256 : ℕ) : ℤ) - 134,
        by omega, by omega, by omega, fun hc => absurd hc (by omega), ?_, ?_⟩
      · rw [hq]
        split
        · rw [abs_neg, abs_of_pos hmagpos]
        · rw [abs_of_pos hmagpos]
      · have hb : ((128 + h.val % 128 : ℕ) : ℚ) ≤ 255 := by
          exact_mod_cast (by omega : 128 + h.val % 128 ≤ 255)
        have hz : (2 : ℚ) ^ (((h.val / 128 % 256 : ℕ) : ℤ) - 134) ≤
            (2 : ℚ) ^ (120 : ℤ) :=
          zpow_le_zpow_right₀ one_le_two (by omega)
        calc ((128 + h.val % 128 : ℕ) : ℚ) *
              (2 : ℚ) ^ (((h.val / 128 % 256 : ℕ) : ℤ) - 134)
            ≤ (255 : ℚ) * (2 : ℚ) ^ (120 : ℤ) :=
              mul_le_mul hb hz (by positivity) (by norm_num)
          _ ≤ fmtMax 7 127 := by norm_num [fmtMax]

/-- Encoding is a left inverse of decoding on finite nonzero `MLFloat16`
patterns: any float datum whose binary16 rounding is the decoded value packs
back to the original bits. -/
theorem encodeHalf_decode (h : Fin 65536) (q : ℚ) (v : FP)
    (hdec : halfToFloat h = .fin q) (hq0 : q ≠ 0)
    (hround : roundHalfFP v = .fin q) :
    encodeHalf v = h := by
  have hmlt : h.val % 1024 < 1024 := Nat.mod_lt _ (by norm_num)
  have helt : h.val / 1024 % 32 < 32 := Nat.mod_lt _ (by norm_num)
  have hvlt : h.val < 65536 := h.isLt
  simp only [halfToFloat] at hdec
  refine Fin.ext ?_
  simp only [encodeHalf, hround]
  rw [if_neg hq0]
  by_cases h31 : h.val / 1024 % 32 = 31
  · rw [if_pos h31] at hdec
    by_cases hm0 : h.val % 1024 = 0
    · rw [if_pos hm0] at hdec
      by_cases hs : h.val / 32768 = 1 <;> simp [hs] at hdec
    · rw [if_neg hm0] at hdec
      exact FP.noConfusion hdec
  · rw [if_neg h31] at hdec
    by_cases he0 : h.val / 1024 % 32 = 0
    · -- subnormal pattern
      rw [if_pos he0] at hdec
      have hq : q = (if h.val / 32768 = 1
          then -(((h.val % 1024 : ℕ) : ℚ) * (2 : ℚ) ^ (-24 : ℤ))
          else ((h.val % 1024 : ℕ) : ℚ) * (2 : ℚ) ^ (-24 : ℤ)) := by
        injection hdec with h2
        exact h2.symm
      have hmm0 : h.val % 1024 ≠ 0 := by
        intro hz
        apply hq0
        rw [hq, hz]
        split <;> norm_num
      have hmmQ : (0 : ℚ) < ((h.val % 1024 : ℕ) : ℚ) :=
        Nat.cast_pos.mpr (Nat.pos_of_ne_zero hmm0)
      have hmagpos : (0 : ℚ) < ((h.val % 1024 : ℕ) : ℚ) * (2 : ℚ) ^ (-24 : ℤ) := by
        positivity
      have habsq : |q| = ((h.val % 1024 : ℕ) : ℚ) * (2 : ℚ) ^ (-24 : ℤ) := by
        rw [hq]
        split
        · rw [abs_neg, abs_of_pos hmagpos]
        · rw [abs_of_pos hmagpos]
      have hfle : floorLogQ 2 |q| ≤ -15 := by
        refine floorLogQ_le 2 |q| (-15) (by norm_num) (abs_pos.mpr hq0) ?_
        rw [habsq]
        have hb : ((h.val % 1024 : ℕ) : ℚ) ≤ 1023 := by
          exact_mod_cast (by omega : h.val % 1024 ≤ 1023)
        calc ((h.val % 1024 : ℕ) : ℚ) * (2 : ℚ) ^ (-24 : ℤ)
            ≤ 1023 * (2 : ℚ) ^ (-24 : ℤ) :=
              mul_le_mul_of_nonneg_right hb (by positivity)
          _ < (2 : ℚ) ^ ((-15 : ℤ) + 1) := by norm_num
      have hmaxe : max (floorLogQ 2 |q|) (-14) = -14 := max_eq_right (by omega)
      rw [hmaxe]
      have hdiv : |q| / (2 : ℚ) ^ ((-14 : ℤ) - 10) = ((h.val % 1024 : ℕ) : ℚ) := by
        rw [habsq, show ((-14 : ℤ) - 10) = (-24 : ℤ) by norm_num,
          mul_div_assoc, div_self (zpow_ne_zero _ (by norm_num)), mul_one]
      rw [hdiv]
      have hnum : (((h.val % 1024 : ℕ) : ℚ)).num.toNat = h.val % 1024 := by
        rw [Rat.num_natCast]
        exact Int.toNat_natCast _
      rw [hnum, if_pos hmlt, if_pos hmlt]
      by_cases hs : h.val / 32768 = 1
      · have hqneg : q < 0 := by
          rw [hq, if_pos hs]
          linarith
        rw [if_pos hqneg]
        omega
      · have hqpos : 0 < q := by
          rw [hq, if_neg hs]
          exact hmagpos
        rw [if_neg (not_lt.mpr (le_of_lt hqpos))]
        omega
    · -- normal pattern
      rw [if_neg he0] at hdec
      have hq : q = (if h.val / 32768 = 1
          then -(((1024 + h.val % 1024 : ℕ) : ℚ) *
            (2 : ℚ) ^ (((h.val / 1024 % 32 : ℕ) : ℤ) - 25))
          else ((1024 + h.val % 1024 : ℕ) : ℚ) *
            (2 : ℚ) ^ (((h.val / 1024 % 32 : ℕ) : ℤ) - 25)) := by
        injection hdec with h2
        exact h2.symm
      have heZ : 1 ≤ ((h.val / 1024 % 32 : ℕ) : ℤ) := by
        exact_mod_cast Nat.pos_of_ne_zero he0
      have hmagpos : (0 : ℚ) < ((1024 + h.val % 1024 : ℕ) : ℚ) *
          (2 : ℚ) ^ (((h.val / 1024 % 32 : ℕ) : ℤ) - 25) := by
        have hp : (0 : ℚ) < ((1024 + h.val % 1024 : ℕ) : ℚ) :=
          Nat.cast_pos.mpr (by omega)
        positivity
      have habsq : |q| = ((1024 + h.val % 1024 : ℕ) : ℚ) *
          (2 : ℚ) ^ (((h.val / 1024 % 32 : ℕ) : ℤ) - 25) := by
        rw [hq]
        split
        · rw [abs_neg, abs_of_pos hmagpos]
        · rw [abs_of_pos hmagpos]
      have hfl : floorLogQ 2 |q| = ((h.val / 1024 % 32 : ℕ) : ℤ) - 15 := by
        refine floorLogQ_eq_of 2 |q| _ (by norm_num) (abs_pos.mpr hq0) ?_ ?_
        · rw [habsq]
          have hb : (1024 : ℚ) ≤ ((1024 + h.val % 1024 : ℕ) : ℚ) := by
            exact_mod_cast (by omega : 1024 ≤ 1024 + h.val % 1024)
          have hsp : (2 : ℚ) ^ (((h.val / 1024 % 32 : ℕ) : ℤ) - 15) =
              1024 * (2 : ℚ) ^ (((h.val / 1024 % 32 : ℕ) : ℤ) - 25) := by
            rw [show (((h.val / 1024 % 32 : ℕ) : ℤ) - 15) =
              (10 : ℤ) + (((h.val / 1024 % 32 : ℕ) : ℤ) - 25) by ring,
              zpow_add₀ (by norm_num : (2 : ℚ) ≠ 0)]
            norm_num
          rw [hsp]
          exact mul_le_mul_of_nonneg_right hb (by positivity)
        · rw [habsq]
          have hb : ((1024 + h.val % 1024 : ℕ) : ℚ) < 2048 := by
            exact_mod_cast (by omega : 1024 + h.val % 1024 < 2048)
          have hsp : (2 : ℚ) ^ (((h.val / 1024 % 32 : ℕ) : ℤ) - 15 + 1) =
              2048 * (2 : ℚ) ^ (((h.val / 1024 % 32 : ℕ) : ℤ) - 25) := by
            rw [show (((h.val / 1024 % 32 : ℕ) : ℤ) - 15 + 1) =
              (11 : ℤ) + (((h.val / 1024 % 32 : ℕ) : ℤ) - 25) by ring,
              zpow_add₀ (by norm_num : (2 : ℚ) ≠ 0)]
            norm_num
          rw [hsp]
          exact mul_lt_mul_of_pos_right hb (by positivity)
      have hmaxe : max (floorLogQ 2 |q|) (-14) =
          ((h.val / 1024 % 32 : ℕ) : ℤ) - 15 := by
        rw [hfl]
        exact max_eq_left (by omega)
      rw [hmaxe]
      have hdiv : |q| / (2 : ℚ) ^ (((h.val / 1024 % 32 : ℕ) : ℤ) - 15 - 10) =
          ((1024 + h.val % 1024 : ℕ) : ℚ) := by
        rw [habsq, show (((h.val / 1024 % 32 : ℕ) : ℤ) - 15 - 10) =
          (((h.val / 1024 % 32 : ℕ) : ℤ) - 25) by ring,
          mul_div_assoc, div_self (zpow_ne_zero _ (by norm_num)), mul_one]
      rw [hdiv]
      have hnum : (((1024 + h.val % 1024 : ℕ) : ℚ)).num.toNat =
          1024 + h.val % 1024 := by
        rw [Rat.num_natCast]
        exact Int.toNat_natCast _
      rw [hnum, if_neg (show ¬(1024 + h.val % 1024 < 1024) by omega),
        if_neg (show ¬(1024 + h.val % 1024 < 1024) by omega)]
      have hfield : (((h.val / 1024 % 32 : ℕ) : ℤ) - 15 + 15).toNat =
          h.val / 1024 % 32 := by
        rw [show (((h.val / 1024 % 32 : ℕ) : ℤ) - 15 + 15) =
          ((h.val / 1024 % 32 : ℕ) : ℤ) by ring]
        exact Int.toNat_natCast _
      rw [hfield]
      by_cases hs : h.val / 32768 = 1
      · have hqneg : q < 0 := by
          rw [hq, if_pos hs]
          linarith
        rw [if_pos hqneg]
        omega
      · have hqpos : 0 < q := by
          rw [hq, if_neg hs]
          exact hmagpos
        rw [if_neg (not_lt.mpr (le_of_lt hqpos))]
        omega

/-- Encoding is a left inverse of decoding on finite nonzero `BFloat16`
patterns. -/
theorem encodeBFloat_decode (h : Fin 65536) (q : ℚ) (v : FP)
    (hdec : bfloatToFloat h = .fin q) (hq0 : q ≠ 0)
    (hround : roundBF16FP v = .fin q) :
    encodeBFloat v = h := by
  have hmlt : h.val % 128 < 128 := Nat.mod_lt _ (by norm_num)
  have helt : h.val / 128 % 256 < 256 := Nat.mod_lt _ (by norm_num)
  have hvlt : h.val < 65536 := h.isLt
  simp only [bfloatToFloat] at hdec
  refine Fin.ext ?_
  simp only [encodeBFloat, hround]
  rw [if_neg hq0]
  by_cases h255 : h.val / 128 % 256 = 255
  · rw [if_pos h255] at hdec
    by_cases hm0 : h.val % 128 = 0
    · rw [if_pos hm0] at hdec
      by_cases hs : h.val / 32768 = 1 <;> simp [hs] at hdec
    · rw [if_neg hm0] at hdec
      exact FP.noConfusion hdec
  · rw [if_neg h255] at hdec
    by_cases he0 : h.val / 128 % 256 = 0
    · -- subnormal pattern
      rw [if_pos he0] at hdec
      have hq : q = (if h.val / 32768 = 1
          then -(((h.val % 128 : ℕ) : ℚ) * (2 : ℚ) ^ (-133 : ℤ))
          else ((h.val % 128 : ℕ) : ℚ) * (2 : ℚ) ^ (-133 : ℤ)) := by
        injection hdec with h2
        exact h2.symm
      have hmm0 : h.val % 128 ≠ 0 := by
        intro hz
        apply hq0
        rw [hq, hz]
        split <;> norm_num
      have hmmQ : (0 : ℚ) < ((h.val % 128 : ℕ) : ℚ) :=
        Nat.cast_pos.mpr (Nat.pos_of_ne_zero hmm0)
      have hmagpos : (0 : ℚ) < ((h.val % 128 : ℕ) : ℚ) * (2 : ℚ) ^ (-133 : ℤ) := by
        positivity
      have habsq : |q| = ((h.val % 128 : ℕ) : ℚ) * (2 : ℚ) ^ (-133 : ℤ) := by
        rw [hq]
        split
        · rw [abs_neg, abs_of_pos hmagpos]
        · rw [abs_of_pos hmagpos]
      have hfle : floorLogQ 2 |q| ≤ -127 := by
        refine floorLogQ_le 2 |q| (-127) (by norm_num) (abs_pos.mpr hq0) ?_
        rw [habsq]
        have hb : ((h.val % 128 : ℕ) : ℚ) ≤ 127 := by
          exact_mod_cast (by omega : h.val % 128 ≤ 127)
        calc ((h.val % 128 : ℕ) : ℚ) * (2 : ℚ) ^ (-133 : ℤ)
            ≤ 127 * (2 : ℚ) ^ (-133 : ℤ) :=
              mul_le_mul_of_nonneg_right hb (by positivity)
          _ < (2 : ℚ) ^ ((-127 : ℤ) + 1) := by norm_num
      have hmaxe : max (floorLogQ 2 |q|) (-126) = -126 := max_eq_right (by omega)
      rw [hmaxe]
      have hdiv : |q| / (2 : ℚ) ^ ((-126 : ℤ) - 7) = ((h.val % 128 : ℕ) : ℚ) := by
        rw [habsq, show ((-126 : ℤ) - 7) = (-133 : ℤ) by norm_num,
          mul_div_assoc, div_self (zpow_ne_zero _ (by norm_num)), mul_one]
      rw [hdiv]
      have hnum : (((h.val % 128 : ℕ) : ℚ)).num.toNat = h.val % 128 := by
        rw [Rat.num_natCast]
        exact Int.toNat_natCast _
      rw [hnum, if_pos hmlt, if_pos hmlt]
      by_cases hs : h.val / 32768 = 1
      · have hqneg : q < 0 := by
          rw [hq, if_pos hs]
          linarith
        rw [if_pos hqneg]
        omega
      · have hqpos : 0 < q := by
          rw [hq, if_neg hs]
          exact hmagpos
        rw [if_neg (not_lt.mpr (le_of_lt hqpos))]
        omega
    · -- normal pattern
      rw [if_neg he0] at hdec
      have hq : q = (if h.val / 32768 = 1
          then -(((128 + h.val % 128 : ℕ) : ℚ) *
            (2 : ℚ) ^ (((h.val / 128 % 256 : ℕ) : ℤ) - 134))
          else ((128 + h.val % 128 : ℕ) : ℚ) *
            (2 : ℚ) ^ (((h.val / 128 % 256 : ℕ) : ℤ) - 134)) := by
        injection hdec with h2
        exact h2.symm
      have heZ : 1 ≤ ((h.val / 128 % 256 : ℕ) : ℤ) := by
        exact_mod_cast Nat.pos_of_ne_zero he0
      have hmagpos : (0 : ℚ) < ((128 + h.val % 128 : ℕ) : ℚ) *
          (2 : ℚ) ^ (((h.val / 128 % 256 : ℕ) : ℤ) - 134) := by
        have hp : (0 : ℚ) < ((128 + h.val % 128 : ℕ) : ℚ) :=
          Nat.cast_pos.mpr (by omega)
        positivity
      have habsq : |q| = ((128 + h.val % 128 : ℕ) : ℚ) *
          (2 : ℚ) ^ (((h.val / 128 % 256 : ℕ) : ℤ) - 134) := by
        rw [hq]
        split
        · rw [abs_neg, abs_of_pos hmagpos]
        · rw [abs_of_pos hmagpos]
      have hfl : floorLogQ 2 |q| = ((h.val / 128 % 256 : ℕ) : ℤ) - 127 := by
        refine floorLogQ_eq_of 2 |q| _ (by norm_num) (abs_pos.mpr hq0) ?_ ?_
        · rw [habsq]
          have hb : (128 : ℚ) ≤ ((128 + h.val % 128 : ℕ) : ℚ) := by
            exact_mod_cast (by omega : 128 ≤ 128 + h.val % 128)
          have hsp : (2 : ℚ) ^ (((h.val / 128 % 256 : ℕ) : ℤ) - 127) =
              128 * (2 : ℚ) ^ (((h.val / 128 % 256 : ℕ) : ℤ) - 134) := by
            rw [show (((h.val / 128 % 256 : ℕ) : ℤ) - 127) =
              (7 : ℤ) + (((h.val / 128 % 256 : ℕ) : ℤ) - 134) by ring,
              zpow_add₀ (by norm_num : (2 : ℚ) ≠ 0)]
            norm_num
          rw [hsp]
          exact mul_le_mul_of_nonneg_right hb (by positivity)
        · rw [habsq]
          have hb : ((128 + h.val % 128 : ℕ) : ℚ) < 256 := by
            exact_mod_cast (by omega : 128 + h.val % 128 < 256)
          have hsp : (2 : ℚ) ^ (((h.val / 128 % 256 : ℕ) : ℤ) - 127 + 1) =
              256 * (2 : ℚ) ^ (((h.val / 128 % 256 : ℕ) : ℤ) - 134) := by
            rw [show (((h.val / 128 % 256 : ℕ) : ℤ) - 127 + 1) =
              (8 : ℤ) + (((h.val / 128 % 256 : ℕ) : ℤ) - 134) by ring,
              zpow_add₀ (by norm_num : (2 : ℚ) ≠ 0)]
            norm_num
          rw [hsp]
          exact mul_lt_mul_of_pos_right hb (by positivity)
      have hmaxe : max (floorLogQ 2 |q|) (-126) =
          ((h.val / 128 % 256 : ℕ) : ℤ) - 127 := by
        rw [hfl]
        exact max_eq_left (by omega)
      rw [hmaxe]
      have hdiv : |q| / (2 : ℚ) ^ (((h.val / 128 % 256 : ℕ) : ℤ) - 127 - 7) =
          ((128 + h.val % 128 : ℕ) : ℚ) := by
        rw [habsq, show (((h.val / 128 % 256 : ℕ) : ℤ) - 127 - 7) =
          (((h.val / 128 % 256 : ℕ) : ℤ) - 134) by ring,
          mul_div_assoc, div_self (zpow_ne_zero _ (by norm_num)), mul_one]
      rw [hdiv]
      have hnum : (((128 + h.val % 128 : ℕ) : ℚ)).num.toNat =
          128 + h.val % 128 := by
        rw [Rat.num_natCast]
        exact Int.toNat_natCast _
      rw [hnum, if_neg (show ¬(128 + h.val % 128 < 128) by omega),
        if_neg (show ¬(128 + h.val % 128 < 128) by omega)]
      have hfield : (((h.val / 128 % 256 : ℕ) : ℤ) - 127 + 127).toNat =
          h.val / 128 % 256 := by
        rw [show (((h.val / 128 % 256 : ℕ) : ℤ) - 127 + 127) =
          ((h.val / 128 % 256 : ℕ) : ℤ) by ring]
        exact Int.toNat_natCast _
      rw [hfield]
      by_cases hs : h.val / 32768 = 1
      · have hqneg : q < 0 := by
          rw [hq, if_pos hs]
          linarith
        rw [if_pos hqneg]
        omega
      · have hqpos : 0 < q := by
          rw [hq, if_neg hs]
          exact hmagpos
        rw [if_neg (not_lt.mpr (le_of_lt hqpos))]
        omega

/-- Shared core of the reduced-precision round trips.  For a nonzero value
on the grid of a narrow format (at most 10 mantissa bits, binary32-compatible
exponent range), parsing the default rendering gives the 8-digit rounding
without a range error, the binary32 narrowing of that rounding is finite,
and rounding it once more to the narrow format recovers the value exactly:
the 8-digit decimal deviates from the value by well under a quarter of the
narrow format's grid step, and the binary32 station adds only another
relative `2^-24`. -/
theorem roundtrip_mag (mbits : ℕ) (emin emax : ℤ) (m : ℕ) (t : ℤ) (q : ℚ)
    (hmb1 : 1 ≤ mbits) (hmb2 : mbits ≤ 10)
    (hemin : -126 ≤ emin) (hemax : emax ≤ 127)
    (hm0 : 0 < m) (hm1 : m < 2 ^ (mbits + 1)) (ht : emin - (mbits : ℤ) ≤ t)
    (hnorm : m < 2 ^ mbits → t = emin - (mbits : ℤ))
    (habs : |q| = (m : ℚ) * (2 : ℚ) ^ t)
    (hfmax : (m : ℚ) * (2 : ℚ) ^ t ≤ fmtMax mbits emax) :
    stodModel (defaultFormat8 q) = .ok (.fin (round8 q)) ∧
    roundFloatFP (.fin (round8 q)) =
      .fin (if round8 q < 0 then -gridRound 23 (-126) |round8 q|
            else gridRound 23 (-126) |round8 q|) ∧
    roundToFormat mbits emin emax
      (if round8 q < 0 then -gridRound 23 (-126) |round8 q|
       else gridRound 23 (-126) |round8 q|) = .fin q := by
  have h2t : (0 : ℚ) < (2 : ℚ) ^ t := zpow_pos (by norm_num) _
  have hmQ1 : (1 : ℚ) ≤ (m : ℚ) := by exact_mod_cast hm0
  have hq0 : q ≠ 0 := by
    intro h0
    have hg0 : (0 : ℚ) < (m : ℚ) * (2 : ℚ) ^ t :=
      mul_pos (by exact_mod_cast hm0) h2t
    rw [h0, abs_zero] at habs
    linarith
  have ha0 : (0 : ℚ) < |q| := abs_pos.mpr hq0
  have hq_lb1 : (2 : ℚ) ^ t ≤ |q| := by
    rw [habs]
    nth_rewrite 1 [← one_mul ((2 : ℚ) ^ t)]
    exact mul_le_mul_of_nonneg_right hmQ1 (le_of_lt h2t)
  obtain ⟨z136, hz136⟩ : ∃ z : ℚ, z = (2 : ℚ) ^ (-(136 : ℤ)) := ⟨_, rfl⟩
  obtain ⟨z137, hz137⟩ : ∃ z : ℚ, z = (2 : ℚ) ^ (-(137 : ℤ)) := ⟨_, rfl⟩
  obtain ⟨z125, hz125⟩ : ∃ z : ℚ, z = (2 : ℚ) ^ (-(125 : ℤ)) := ⟨_, rfl⟩
  obtain ⟨z126, hz126⟩ : ∃ z : ℚ, z = (2 : ℚ) ^ (-(126 : ℤ)) := ⟨_, rfl⟩
  obtain ⟨z150, hz150⟩ : ∃ z : ℚ, z = (2 : ℚ) ^ (-(150 : ℤ)) := ⟨_, rfl⟩
  have htlb : z136 ≤ (2 : ℚ) ^ t := by
    rw [hz136]
    exact zpow_le_zpow_right₀ one_le_two (by omega)
  have hq_glb : z136 ≤ |q| := le_trans htlb hq_lb1
  obtain ⟨cbig, hcbig⟩ :
      ∃ z : ℚ, z = (2 - (2 : ℚ) ^ (-(10 : ℤ))) * (2 : ℚ) ^ (127 : ℤ) := ⟨_, rfl⟩
  have hq_gub : |q| ≤ cbig := by
    rw [hcbig]
    refine le_trans (le_trans (le_of_eq habs) hfmax) ?_
    unfold fmtMax
    have h2ne : (2 : ℚ) ≠ 0 := by norm_num
    have hsplit1 : (2 : ℚ) ^ (emax - (mbits : ℤ)) =
        (2 : ℚ) ^ emax * (2 : ℚ) ^ (-(mbits : ℤ)) := by
      rw [← zpow_add₀ h2ne, sub_eq_add_neg]
    have hsplit2 : (2 : ℚ) ^ (mbits + 1 : ℕ) = (2 : ℚ) ^ (mbits : ℤ) * 2 := by
      rw [← zpow_natCast_succ, zpow_add₀ h2ne]
      norm_num
    have hinv : (2 : ℚ) ^ (mbits : ℤ) * (2 : ℚ) ^ (-(mbits : ℤ)) = 1 := by
      rw [← zpow_add₀ h2ne]
      norm_num
    have he1 : ((2 : ℚ) ^ (mbits + 1 : ℕ) - 1) * (2 : ℚ) ^ (emax - (mbits : ℤ)) =
        (2 - (2 : ℚ) ^ (-(mbits : ℤ))) * (2 : ℚ) ^ emax := by
      rw [hsplit1, hsplit2]
      linear_combination (2 * (2 : ℚ) ^ emax) * hinv
    rw [he1]
    have hmle : (2 : ℚ) ^ (-(10 : ℤ)) ≤ (2 : ℚ) ^ (-(mbits : ℤ)) :=
      zpow_le_zpow_right₀ one_le_two (by omega)
    have hele : (2 : ℚ) ^ emax ≤ (2 : ℚ) ^ (127 : ℤ) :=
      zpow_le_zpow_right₀ one_le_two hemax
    have h2pos : (0 : ℚ) < (2 : ℚ) ^ emax := zpow_pos (by norm_num) _
    exact mul_le_mul (sub_le_sub_left hmle 2) hele (le_of_lt h2pos) (by norm_num)
  have hdev := round8_dev q hq0
  have hEd := (floorLogQ_correct 10 |q| (by norm_num) ha0).1
  have hstep : (1 : ℚ) / 2 * (10 : ℚ) ^ (floorLogQ 10 |q| - 7) ≤
      |q| * (1 / 16777216) := by
    have hs1 : (10 : ℚ) ^ (floorLogQ 10 |q| - 7) =
        (10 : ℚ) ^ (floorLogQ 10 |q|) * (10 : ℚ) ^ (-(7 : ℤ)) := by
      rw [← zpow_add₀ (by norm_num : (10 : ℚ) ≠ 0), sub_eq_add_neg]
    rw [hs1]
    have h10pos : (0 : ℚ) < (10 : ℚ) ^ (-(7 : ℤ)) := zpow_pos (by norm_num) _
    calc (1 : ℚ) / 2 * ((10 : ℚ) ^ (floorLogQ 10 |q|) * (10 : ℚ) ^ (-(7 : ℤ)))
        ≤ (1 : ℚ) / 2 * (|q| * (10 : ℚ) ^ (-(7 : ℤ))) := by
          apply mul_le_mul_of_nonneg_left _ (by norm_num)
          exact mul_le_mul_of_nonneg_right hEd (le_of_lt h10pos)
      _ = |q| * ((1 : ℚ) / 2 * (10 : ℚ) ^ (-(7 : ℤ))) := by ring
      _ ≤ |q| * (1 / 16777216) :=
          mul_le_mul_of_nonneg_left (by norm_num) (le_of_lt ha0)
  have hdevA : |round8 q - q| ≤ |q| * (1 / 16777216) := le_trans hdev hstep
  have hAdev : abs (|round8 q| - |q|) ≤ |q| * (1 / 16777216) :=
    le_trans (abs_abs_sub_abs_le_abs_sub _ _) hdevA
  have hAd := abs_le.mp hAdev
  have hA_ub : |round8 q| ≤ |q| + |q| * (1 / 16777216) := by linarith [hAd.2]
  have hA_lb2 : |q| * (16777215 / 16777216) ≤ |round8 q| := by linarith [hAd.1]
  have hA0 : (0 : ℚ) < |round8 q| := by linarith [hA_lb2]
  have hr8ne : round8 q ≠ 0 := by
    intro h0
    rw [h0, abs_zero] at hA0
    exact lt_irrefl 0 hA0
  have hA_glb : z137 ≤ |round8 q| := by
    have h1 : (16777215 / 16777216 : ℚ) * z136 ≤ (16777215 / 16777216 : ℚ) * |q| :=
      mul_le_mul_of_nonneg_left hq_glb (by norm_num)
    have h2 : z137 ≤ (16777215 / 16777216 : ℚ) * z136 := by
      rw [hz136, hz137]
      norm_num
    linarith [hA_lb2]
  have hflA_lb : (-137 : ℤ) ≤ floorLogQ 2 |round8 q| :=
    floorLogQ_ge 2 |round8 q| (-137) (by norm_num) hA0 (hz137 ▸ hA_glb)
  have hunder : minNormalDouble ≤ gridRound 52 (-1022) |round8 q| := by
    have hrel := gridRound_err_rel 52 (-1022) |round8 q| hA0 (by omega)
    rw [show (1 : ℚ) / 2 * (2 : ℚ) ^ (-((52 : ℕ) : ℤ)) = 1 / 9007199254740992 from
      by norm_num] at hrel
    have hrelb := (abs_le.mp hrel).1
    have h4 : (1 / 2 : ℚ) * |round8 q| ≤ gridRound 52 (-1022) |round8 q| := by
      linarith [hrelb]
    have h2 : (1 / 2 : ℚ) * z137 ≤ (1 / 2 : ℚ) * |round8 q| :=
      mul_le_mul_of_nonneg_left hA_glb (by norm_num)
    have h3 : minNormalDouble ≤ (1 / 2 : ℚ) * z137 := by
      unfold minNormalDouble
      rw [hz137]
      norm_num
    exact le_trans h3 (le_trans h2 h4)
  have hover : |round8 q| < doubleOverflowBound := by
    have h3 : |round8 q| ≤ |q| * (16777217 / 16777216) := by linarith [hA_ub]
    have h1 : |q| * (16777217 / 16777216 : ℚ) ≤ cbig * (16777217 / 16777216 : ℚ) :=
      mul_le_mul_of_nonneg_right hq_gub (by norm_num)
    have h2 : cbig * (16777217 / 16777216 : ℚ) < doubleOverflowBound := by
      rw [hcbig]
      unfold doubleOverflowBound
      norm_num
    exact lt_of_le_of_lt h3 (lt_of_le_of_lt h1 h2)
  have hstod := stodModel_defaultFormat8 q hq0 hunder hover
  have hq_ub_t : |q| < 2048 * (2 : ℚ) ^ t := by
    rw [habs]
    have h1 : (m : ℚ) < 2048 := by
      have h2 : (m : ℚ) < (2 : ℚ) ^ ((mbits : ℤ) + 1) := by
        rw [zpow_natCast_succ]
        exact_mod_cast hm1
      have h3 : (2 : ℚ) ^ ((mbits : ℤ) + 1) ≤ 2048 := by
        calc (2 : ℚ) ^ ((mbits : ℤ) + 1) ≤ (2 : ℚ) ^ (11 : ℤ) :=
            zpow_le_zpow_right₀ one_le_two (by omega)
          _ = 2048 := by norm_num
      linarith
    exact mul_lt_mul_of_pos_right h1 h2t
  have htri := abs_sub_le (gridRound 23 (-126) |round8 q|) |round8 q| |q|
  have hWc : abs (gridRound 23 (-126) |round8 q| - |q|) < 1 / 4 * (2 : ℚ) ^ t ∧
      gridRound 23 (-126) |round8 q| ≤ |q| * (16777219 / 16777216) + z150 := by
    have hz150pos : (0 : ℚ) < z150 := by
      rw [hz150]
      positivity
    by_cases hclamp : (-126 : ℤ) ≤ floorLogQ 2 |round8 q|
    · have hrel := gridRound_err_rel 23 (-126) |round8 q| hA0 hclamp
      rw [show (1 : ℚ) / 2 * (2 : ℚ) ^ (-((23 : ℕ) : ℤ)) = 1 / 16777216 from
        by norm_num] at hrel
      have hWA := le_trans (le_abs_self _) hrel
      constructor
      · linarith [htri, hrel, hAdev, hA_ub, hq_ub_t, h2t]
      · linarith [hWA, hA_ub, ha0, hz150pos]
    · push_neg at hclamp
      have hAub126 : |round8 q| < z126 := by
        have h1 := (floorLogQ_correct 2 |round8 q| (by norm_num) hA0).2
        rw [hz126]
        calc |round8 q| < (2 : ℚ) ^ (floorLogQ 2 |round8 q| + 1) := h1
          _ ≤ (2 : ℚ) ^ (-(126 : ℤ)) := zpow_le_zpow_right₀ one_le_two (by omega)
      have hfmtv : fmtExp (-126) |round8 q| - ((23 : ℕ) : ℤ) = -149 := by
        unfold fmtExp
        rw [max_eq_right (by omega)]
        norm_num
      have herr := gridRound_err 23 (-126) |round8 q|
      rw [hfmtv, show (1 : ℚ) / 2 * (2 : ℚ) ^ (-149 : ℤ) = z150 from
        by rw [hz150]; norm_num] at herr
      have hWA := le_trans (le_abs_self _) herr
      have hqsmall : |q| < z125 := by
        have h2 : z126 ≤ (16777215 / 16777216 : ℚ) * z125 := by
          rw [hz125, hz126]
          norm_num
        linarith [hA_lb2, hAub126]
      constructor
      · have h5 : z150 + (1 / 16777216 : ℚ) * z125 ≤ (1 / 4 : ℚ) * z136 := by
          rw [hz125, hz136, hz150]
          norm_num
        linarith [htri, herr, hAdev, hqsmall, htlb, h2t, h5]
      · linarith [hWA, hA_ub, ha0, hz150pos]
  obtain ⟨hWnear, hW_ub⟩ := hWc
  have hW0 : 0 < gridRound 23 (-126) |round8 q| := by
    have h1 := (abs_lt.mp hWnear).1
    linarith [hq_lb1, h2t]
  have hWfmax : gridRound 23 (-126) |round8 q| ≤ fmtMax 23 127 := by
    have h1 : |q| * (16777219 / 16777216 : ℚ) ≤ cbig * (16777219 / 16777216 : ℚ) :=
      mul_le_mul_of_nonneg_right hq_gub (by norm_num)
    have h2 : cbig * (16777219 / 16777216 : ℚ) + z150 ≤ fmtMax 23 127 := by
      rw [hcbig, hz150]
      norm_num [fmtMax]
    calc gridRound 23 (-126) |round8 q|
        ≤ |q| * (16777219 / 16777216) + z150 := hW_ub
      _ ≤ cbig * (16777219 / 16777216 : ℚ) + z150 := add_le_add_right h1 _
      _ ≤ fmtMax 23 127 := h2
  have hfloat32 : roundFloatFP (.fin (round8 q)) =
      .fin (if round8 q < 0 then -gridRound 23 (-126) |round8 q|
            else gridRound 23 (-126) |round8 q|) := by
    show roundFloatQ (round8 q) = _
    unfold roundFloatQ roundToFormat
    rw [if_neg hr8ne, if_pos hWfmax]
  have hWnear2 : abs (gridRound 23 (-126) |round8 q| - (m : ℚ) * (2 : ℚ) ^ t) <
      1 / 4 * (2 : ℚ) ^ t := by
    rw [← habs]
    exact hWnear
  have hback : gridRound mbits emin (gridRound 23 (-126) |round8 q|) =
      (m : ℚ) * (2 : ℚ) ^ t :=
    gridRound_near mbits emin m t _ hmb1 hm0 hm1 ht hnorm hWnear2
  have hr8sign : round8 q < 0 ↔ q < 0 := by
    constructor
    · intro hr
      by_contra hqc
      push_neg at hqc
      have hqpos : 0 < q := lt_of_le_of_ne hqc (Ne.symm hq0)
      have h1 := (abs_le.mp hdevA).1
      rw [abs_of_pos hqpos] at h1
      linarith
    · intro hqneg
      have h1 := (abs_le.mp hdevA).2
      rw [abs_of_neg hqneg] at h1
      linarith
  have hlast : roundToFormat mbits emin emax
      (if round8 q < 0 then -gridRound 23 (-126) |round8 q|
       else gridRound 23 (-126) |round8 q|) = .fin q := by
    by_cases hrs : round8 q < 0
    · rw [if_pos hrs]
      have hqneg : q < 0 := hr8sign.mp hrs
      unfold roundToFormat
      rw [if_neg (neg_ne_zero.mpr (ne_of_gt hW0)), abs_neg, abs_of_pos hW0,
        hback, if_pos hfmax, if_pos (neg_lt_zero.mpr hW0)]
      rw [← habs, abs_of_neg hqneg, neg_neg]
    · rw [if_neg hrs]
      have hqpos : 0 < q := by
        rcases lt_trichotomy q 0 with h | h | h
        · exact absurd (hr8sign.mpr h) hrs
        · exact absurd h hq0
        · exact h
      unfold roundToFormat
      rw [if_neg (ne_of_gt hW0), abs_of_pos hW0, hback, if_pos hfmax,
        if_neg (not_lt.mpr (le_of_lt hW0))]
      rw [← habs, abs_of_pos hqpos]
  exact ⟨hstod, hfloat32, hlast⟩

/-- Counterexample to C3 as stated.  (1) The 8-bit integral kinds do not
round-trip: `operator<<` on `int8_t`/`uint8_t` inserts the value as one raw
character, so 65 renders as "A", which `stoll` cannot parse.  (2) Floating
values do not always round-trip either: the rendering of the subnormal
double `2^-1074` is the 8-digit decimal `4.9406565e-324`, which `strtod`
converts with an underflow `ERANGE` (the value is below the smallest normal
double), so `std::stod` throws `std::out_of_range` instead of returning. -/
theorem roundtrip_counterexample :
    (castToString ElementKind.int8 (.i 65) = "A" ∧
      castFromString ElementKind.int8 (castToString ElementKind.int8 (.i 65)) =
        .error .invalidArgument) ∧
    castFromString ElementKind.double
        (castToString ElementKind.double (.f (.fin (1 / 2 ^ 1074)))) =
      .error .outOfRange := by
  refine ⟨by decide, ?_⟩
  obtain ⟨q, hqdef⟩ : ∃ q : ℚ, q = 1 / 2 ^ 1074 := ⟨_, rfl⟩
  rw [← hqdef]
  have hqpos : 0 < q := by
    rw [hqdef]
    positivity
  have hq0 : q ≠ 0 := ne_of_gt hqpos
  have habs : |q| = q := abs_of_pos hqpos
  have hflr : floorLogQ 10 |q| = -324 := by
    rw [habs]
    refine floorLogQ_eq_of 10 q (-324) (by norm_num) hqpos ?_ ?_
    · rw [hqdef]
      norm_num
    · rw [hqdef]
      norm_num
  have hdev := round8_dev q hq0
  rw [hflr] at hdev
  have habsle := abs_le.mp hdev
  have hnum1 : 1 / 2 * (10 : ℚ) ^ (-(324 : ℤ) - 7) + q < minNormalDouble := by
    unfold minNormalDouble
    rw [hqdef]
    norm_num
  have hnum2 : (0 : ℚ) < q - 1 / 2 * (10 : ℚ) ^ (-(324 : ℤ) - 7) := by
    rw [hqdef]
    norm_num
  have hr_pos : 0 < round8 q := by linarith [habsle.1]
  have hub : round8 q < (2 : ℚ) ^ (-(1022 : ℤ)) := by
    have hnum3 : q + 1 / 2 * (10 : ℚ) ^ (-(324 : ℤ) - 7) <
        (2 : ℚ) ^ (-(1022 : ℤ)) := by
      rw [hqdef]
      norm_num
    calc round8 q ≤ 1 / 2 * (10 : ℚ) ^ (-(324 : ℤ) - 7) + q :=
          sub_le_iff_le_add.mp habsle.2
      _ = q + 1 / 2 * (10 : ℚ) ^ (-(324 : ℤ) - 7) := by ring
      _ < _ := hnum3
  have hflo : floorLogQ 2 (round8 q) ≤ -1023 := by
    refine floorLogQ_le 2 (round8 q) (-1023) (by norm_num) hr_pos ?_
    have he : (-1023 : ℤ) + 1 = -1022 := by norm_num
    rw [he]
    exact hub
  have hscale : fmtExp (-1022) (round8 q) - ((52 : ℕ) : ℤ) = -1074 := by
    have hm : fmtExp (-1022) (round8 q) = -1022 := by
      unfold fmtExp
      exact max_eq_right (by omega)
    rw [hm]
    norm_num
  have hr1 : roundHE (round8 q / (2 : ℚ) ^ (-(1074 : ℤ))) = 1 := by
    apply roundHE_eq_of_near
    have hdm : round8 q / (2 : ℚ) ^ (-(1074 : ℤ)) =
        round8 q * (2 : ℚ) ^ (1074 : ℤ) := by
      rw [div_eq_mul_inv, ← zpow_neg]
      norm_num
    have hb1 : (q - 1 / 2 * (10 : ℚ) ^ (-(324 : ℤ) - 7)) * (2 : ℚ) ^ (1074 : ℤ) ≤
        round8 q * (2 : ℚ) ^ (1074 : ℤ) :=
      mul_le_mul_of_nonneg_right (by linarith [habsle.1]) (by positivity)
    have hb2 : round8 q * (2 : ℚ) ^ (1074 : ℤ) ≤
        (q + 1 / 2 * (10 : ℚ) ^ (-(324 : ℤ) - 7)) * (2 : ℚ) ^ (1074 : ℤ) :=
      mul_le_mul_of_nonneg_right (by linarith [habsle.2]) (by positivity)
    have hn1 : (1 : ℚ) / 2 <
        (q - 1 / 2 * (10 : ℚ) ^ (-(324 : ℤ) - 7)) * (2 : ℚ) ^ (1074 : ℤ) := by
      rw [hqdef]
      norm_num
    have hn2 : (q + 1 / 2 * (10 : ℚ) ^ (-(324 : ℤ) - 7)) * (2 : ℚ) ^ (1074 : ℤ) <
        (3 : ℚ) / 2 := by
      rw [hqdef]
      norm_num
    push_cast
    rw [hdm, abs_lt]
    constructor <;> linarith
  have hgr : gridRound 52 (-1022) (round8 q) = (2 : ℚ) ^ (-(1074 : ℤ)) := by
    unfold gridRound
    rw [hscale, hr1]
    norm_num
  have hunder : gridRound 52 (-1022) |round8 q| < minNormalDouble := by
    rw [abs_of_pos hr_pos, hgr]
    unfold minNormalDouble
    norm_num
  have hhib : |round8 q| < doubleOverflowBound := by
    rw [abs_of_pos hr_pos]
    refine lt_trans hub ?_
    unfold doubleOverflowBound
    norm_num
  have hst : stodModel (defaultFormat8 q) = .error .outOfRange := by
    simp only [stodModel, lexFloat_defaultFormat8 q hq0]
    rw [if_neg (not_le.mpr hhib), if_pos ⟨ne_of_gt hr_pos, hunder⟩]
  show (stodModel (defaultFormat8 q)).map Scalar.f = .error .outOfRange
  rw [hst]
  rfl

/-- A finite nonzero `MLFloat16` value parses back from its default 8-digit
rendering to exactly the same bit pattern: the rendering deviates from the
value by well under a quarter of the binary16 grid step, so re-rounding
recovers the value, and re-encoding recovers the bits. -/
theorem half_roundtrip (h : Fin 65536) (q : ℚ)
    (hdec : halfToFloat h = .fin q) (hq0 : q ≠ 0) :
    castFromString ElementKind.float16 (castToString ElementKind.float16 (.h h)) =
      .ok (.h h) := by
  obtain ⟨m, t, hm0, hm1, ht, hnorm, habs, hfmax⟩ := halfToFloat_decomp h q hdec hq0
  obtain ⟨hstod, hfloat32, hback⟩ :=
    roundtrip_mag 10 (-14) 15 m t q (by norm_num) (by norm_num) (by norm_num)
      (by norm_num) hm0 hm1 (by exact_mod_cast ht)
      (by intro hc; rw [hnorm hc]; norm_num) habs hfmax
  have hfin : encodeHalf (.fin (if round8 q < 0 then
        -gridRound 23 (-126) |round8 q| else gridRound 23 (-126) |round8 q|)) = h :=
    encodeHalf_decode h q
      (.fin (if round8 q < 0 then -gridRound 23 (-126) |round8 q|
             else gridRound 23 (-126) |round8 q|)) hdec hq0 hback
  show (stodModel (castToStringFloating (halfToFloat h))).map
      (fun v => Scalar.h (encodeHalf (roundFloatFP v))) = Except.ok (Scalar.h h)
  rw [hdec]
  show (stodModel (defaultFormat8 q)).map
      (fun v => Scalar.h (encodeHalf (roundFloatFP v))) = Except.ok (Scalar.h h)
  rw [hstod]
  show Except.ok (Scalar.h (encodeHalf (roundFloatFP (.fin (round8 q))))) =
      Except.ok (Scalar.h h)
  rw [hfloat32, hfin]

/-- A finite nonzero `BFloat16` value parses back from its default 8-digit
rendering to exactly the same bit pattern. -/
theorem bfloat_roundtrip (h : Fin 65536) (q : ℚ)
    (hdec : bfloatToFloat h = .fin q) (hq0 : q ≠ 0) :
    castFromString ElementKind.bfloat16
        (castToString ElementKind.bfloat16 (.bf h)) =
      .ok (.bf h) := by
  obtain ⟨m, t, hm0, hm1, ht, hnorm, habs, hfmax⟩ :=
    bfloatToFloat_decomp h q hdec hq0
  obtain ⟨hstod, hfloat32, hback⟩ :=
    roundtrip_mag 7 (-126) 127 m t q (by norm_num) (by norm_num) (by norm_num)
      (by norm_num) hm0 hm1 (by exact_mod_cast ht)
      (by intro hc; rw [hnorm hc]; norm_num) habs hfmax
  have hfin : encodeBFloat (.fin (if round8 q < 0 then
        -gridRound 23 (-126) |round8 q| else gridRound 23 (-126) |round8 q|)) = h :=
    encodeBFloat_decode h q
      (.fin (if round8 q < 0 then -gridRound 23 (-126) |round8 q|
             else gridRound 23 (-126) |round8 q|)) hdec hq0 hback
  show (stodModel (castToStringFloating (bfloatToFloat h))).map
      (fun v => Scalar.bf (encodeBFloat (roundFloatFP v))) = Except.ok (Scalar.bf h)
  rw [hdec]
  show (stodModel (defaultFormat8 q)).map
      (fun v => Scalar.bf (encodeBFloat (roundFloatFP v))) = Except.ok (Scalar.bf h)
  rw [hstod]
  show Except.ok (Scalar.bf (encodeBFloat (roundFloatFP (.fin (round8 q))))) =
      Except.ok (Scalar.bf h)
  rw [hfloat32, hfin]

/-- C3 (amended to the code's behavior): bool and the integral kinds of width
at least 16 round-trip exactly — their decimal rendering parses back to the
same value.  The 8-bit integral kinds stream through `operator<<` as raw
characters rather than decimal numbers and need not round-trip.  The
reduced-precision kinds MLFloat16 and BFloat16 round-trip exactly through
the 8-digit rendering: every finite nonzero value parses back to the same
bit pattern.  A nonzero finite float or double value `q` round-trips to
exactly the destination's narrowing of its 8-significant-digit rounding
`round8 q` — which deviates from `q` by at most half a unit in the 8th
significant digit — provided `round8 q` lies within the double parser's
accepted finite range; outside it the parse throws (see the
counterexample). -/
theorem roundtrip_amended :
    (∀ b : Bool,
      castFromString ElementKind.bool (castToString ElementKind.bool (.b b)) =
        .ok (.b b)) ∧
    (∀ v : ℤ, -(2 ^ 15) ≤ v → v < 2 ^ 15 →
      castFromString ElementKind.int16 (castToString ElementKind.int16 (.i v)) =
        .ok (.i v)) ∧
    (∀ v : ℤ, -(2 ^ 31) ≤ v → v < 2 ^ 31 →
      castFromString ElementKind.int32 (castToString ElementKind.int32 (.i v)) =
        .ok (.i v)) ∧
    (∀ v : ℤ, -(2 ^ 63) ≤ v → v < 2 ^ 63 →
      castFromString ElementKind.int64 (castToString ElementKind.int64 (.i v)) =
        .ok (.i v)) ∧
    (∀ v : ℤ, 0 ≤ v → v < 2 ^ 16 →
      castFromString ElementKind.uint16 (castToString ElementKind.uint16 (.i v)) =
        .ok (.i v)) ∧
    (∀ v : ℤ, 0 ≤ v → v < 2 ^ 32 →
      castFromString ElementKind.uint32 (castToString ElementKind.uint32 (.i v)) =
        .ok (.i v)) ∧
    (∀ v : ℤ, 0 ≤ v → v < 2 ^ 64 →
      castFromString ElementKind.uint64 (castToString ElementKind.uint64 (.i v)) =
        .ok (.i v)) ∧
    (∀ h : Fin 65536, ∀ q : ℚ, halfToFloat h = .fin q → q ≠ 0 →
      castFromString ElementKind.float16
          (castToString ElementKind.float16 (.h h)) =
        .ok (.h h)) ∧
    (∀ h : Fin 65536, ∀ q : ℚ, bfloatToFloat h = .fin q → q ≠ 0 →
      castFromString ElementKind.bfloat16
          (castToString ElementKind.bfloat16 (.bf h)) =
        .ok (.bf h)) ∧
    (∀ q : ℚ, q ≠ 0 → minNormalDouble ≤ gridRound 52 (-1022) |round8 q| →
      |round8 q| < doubleOverflowBound →
      castFromString ElementKind.double
          (castToString ElementKind.double (.f (.fin q))) =
        .ok (.f (.fin (round8 q))) ∧
      castFromString ElementKind.float
          (castToString ElementKind.float (.f (.fin q))) =
        .ok (.f (roundFloatFP (.fin (round8 q)))) ∧
      |round8 q - q| ≤ 1 / 2 * (10 : ℚ) ^ (floorLogQ 10 |q| - 7)) := by
  refine ⟨?_, ?_, ?_, ?_, ?_, ?_, ?_, ?_, ?_, ?_⟩
  · intro b
    cases b <;> decide
  · intro v h1 h2
    show (stollModel (intToDecString v)).map _ = _
    rw [stoll_intToDecString v (by norm_num; linarith) (by norm_num; linarith)]
    simp only [Except.map]
    rw [wrapInt_eq_self_signed 16 v (by norm_num) (by norm_num; linarith)
      (by norm_num; linarith)]
  · intro v h1 h2
    show (stollModel (intToDecString v)).map _ = _
    rw [stoll_intToDecString v (by norm_num; linarith) (by norm_num; linarith)]
    simp only [Except.map]
    rw [wrapInt_eq_self_signed 32 v (by norm_num) (by norm_num; linarith)
      (by norm_num; linarith)]
  · intro v h1 h2
    show (stollModel (intToDecString v)).map _ = _
    rw [stoll_intToDecString v (by norm_num; linarith) (by norm_num; linarith)]
    simp only [Except.map]
    rw [wrapInt_eq_self_signed 64 v (by norm_num) (by norm_num; linarith)
      (by norm_num; linarith)]
  · intro v h1 h2
    show (stoullModel (intToDecString v)).map _ = _
    rw [stoull_intToDecString v h1 (by norm_num; linarith)]
    simp only [Except.map]
    rw [wrapInt_eq_self_unsigned 16 v h1 (by norm_num; linarith)]
  · intro v h1 h2
    show (stoullModel (intToDecString v)).map _ = _
    rw [stoull_intToDecString v h1 (by norm_num; linarith)]
    simp only [Except.map]
    rw [wrapInt_eq_self_unsigned 32 v h1 (by norm_num; linarith)]
  · intro v h1 h2
    show (stoullModel (intToDecString v)).map _ = _
    rw [stoull_intToDecString v h1 (by norm_num; linarith)]
    simp only [Except.map]
    rw [wrapInt_eq_self_unsigned 64 v h1 (by norm_num; linarith)]
  · intro h q hdec h0
    exact half_roundtrip h q hdec h0
  · intro h q hdec h0
    exact bfloat_roundtrip h q hdec h0
  · intro q h0 hlo hhi
    refine ⟨?_, ?_, round8_dev q h0⟩
    · show (stodModel (defaultFormat8 q)).map Scalar.f = _
      rw [stodModel_defaultFormat8 q h0 hlo hhi]
      rfl
    · show (stodModel (defaultFormat8 q)).map _ = _
      rw [stodModel_defaultFormat8 q h0 hlo hhi]
      rfl

/-- Witness for the amended C3: the int16 value 65 renders as "65" and parses
back exactly. -/
theorem roundtrip_amended_witness :
    castFromString ElementKind.int16 (castToString ElementKind.int16 (.i 65)) =
      .ok (.i 65) :=
  roundtrip_amended.2.1 65 (by decide) (by decide)

end CastOp
